import Mathlib

/-!
Thread-local slot registry (`yb/rocksdb/util/thread_local.cc`).

A shallow embedding of `ThreadLocalPtr::StaticMeta` and of the `ThreadLocalPtr`
handle, followed by theorems about identifier allocation, reclamation, scraping
and the per-thread accessors.

Modelling conventions.

* A `void*` and an `UnrefHandler` are natural numbers, `0` being `nullptr`.
* A `uint32_t` is a natural number below `U32 = 2^32`; the places where the
  source does 32-bit arithmetic (`next_instance_id_++`, `id + 1` and `++id`)
  reduce modulo `U32`.
* The circular doubly-linked list anchored at `head_` is the list of its data
  blocks, read from `head_.next` to `head_.prev`.
* A block is named by the thread whose `tls_` points at it; `tls_` of a thread
  is the first block of the list owned by that thread, `nullptr` when there is
  none.
* Indexing a `std::vector` outside its bounds is undefined behaviour; an
  operation that does so yields `none`.
* The mutex is not modelled: every operation is one atomic step.
* The invocations of unref handlers are recorded, in order, in the field
  `unref_calls` as pairs (handler, argument).
-/

namespace ThreadLocal

/-- Number of values of a `uint32_t`. -/
def U32 : Nat := 4294967296

/-- `ThreadData`: the entry vector of one thread. `owner` is the thread whose
`tls_` points at the block; the links `next`/`prev` are the position in the list. -/
structure ThreadData where
  owner : Nat
  entries : List Nat
deriving DecidableEq

/-- `StaticMeta`: the process-wide registry. -/
structure StaticMeta where
  next_instance_id_ : Nat
  free_instance_ids_ : List Nat
  handler_map_ : List (Nat × Nat)
  head_ : List ThreadData
  unref_calls : List (Nat × Nat)
deriving DecidableEq

/-- `StaticMeta::StaticMeta()`: counter `0`, empty list, empty free list, empty map. -/
def StaticMeta.fresh : StaticMeta :=
  { next_instance_id_ := 0, free_instance_ids_ := [], handler_map_ := [],
    head_ := [], unref_calls := [] }

/-- `handler_map_.find(id)`: the mapped value when the key is present. -/
def mapFind : List (Nat × Nat) → Nat → Option Nat
  | [], _ => none
  | (k, h) :: m, id => if k = id then some h else mapFind m id

/-- `handler_map_[id] = handler`: overwrite the value of an existing key, else
insert the key. -/
def mapAssign : List (Nat × Nat) → Nat → Nat → List (Nat × Nat)
  | [], id, h => [(id, h)]
  | (k, x) :: m, id, h => if k = id then (k, h) :: m else (k, x) :: mapAssign m id h

/-- `StaticMeta::SetHandler`. -/
def SetHandler (s : StaticMeta) (id handler : Nat) : StaticMeta :=
  { s with handler_map_ := mapAssign s.handler_map_ id handler }

/-- `StaticMeta::GetHandler`: `nullptr` when the key is absent. -/
def GetHandler (s : StaticMeta) (id : Nat) : Nat :=
  match mapFind s.handler_map_ id with
  | none => 0
  | some h => h

/-- `StaticMeta::GetId`: the returned identifier and the state afterwards. -/
def GetId (s : StaticMeta) : Nat × StaticMeta :=
  match s.free_instance_ids_.getLast? with
  | none => (s.next_instance_id_,
      { s with next_instance_id_ := (s.next_instance_id_ + 1) % U32 })
  | some id => (id, { s with free_instance_ids_ := s.free_instance_ids_.dropLast })

/-- `StaticMeta::PeekId`. -/
def PeekId (s : StaticMeta) : Nat :=
  match s.free_instance_ids_.getLast? with
  | some id => id
  | none => s.next_instance_id_

/-- `StaticMeta::PeekIds`. -/
def PeekIds (s : StaticMeta) : List Nat := s.free_instance_ids_

/-- The loop of `ReclaimId` over the blocks from `head_.next` on: every block
that covers `id` has its entry exchanged with `nullptr`; a non-null prior value
is passed to `unref` when `unref` is not `nullptr`. Returns the blocks and the
handler invocations made, in order. -/
def reclaimLoop (id unref : Nat) : List ThreadData → List ThreadData × List (Nat × Nat)
  | [] => ([], [])
  | t :: ts =>
    let r := reclaimLoop id unref ts
    if id < t.entries.length then
      let ptr := t.entries.getD id 0
      let t1 : ThreadData := { t with entries := t.entries.set id 0 }
      if ptr ≠ 0 ∧ unref ≠ 0 then (t1 :: r.1, (unref, ptr) :: r.2) else (t1 :: r.1, r.2)
    else (t :: r.1, r.2)

/-- `StaticMeta::ReclaimId`. -/
def ReclaimId (s : StaticMeta) (id : Nat) : StaticMeta :=
  let unref := GetHandler s id
  let r := reclaimLoop id unref s.head_
  { s with
    head_ := r.1
    unref_calls := s.unref_calls ++ r.2
    handler_map_ := mapAssign s.handler_map_ id 0
    free_instance_ids_ := s.free_instance_ids_ ++ [id] }

/-- The loop of `Scrape`: every block that covers `id` has its entry exchanged
with `replacement`; a non-null prior value is pushed onto `ptrs`. -/
def scrapeLoop (id replacement : Nat) : List ThreadData → List Nat → List ThreadData × List Nat
  | [], ptrs => ([], ptrs)
  | t :: ts, ptrs =>
    if id < t.entries.length then
      let ptr := t.entries.getD id 0
      let t1 : ThreadData := { t with entries := t.entries.set id replacement }
      let r := scrapeLoop id replacement ts (if ptr ≠ 0 then ptrs ++ [ptr] else ptrs)
      (t1 :: r.1, r.2)
    else
      let r := scrapeLoop id replacement ts ptrs
      (t :: r.1, r.2)

/-- `StaticMeta::Scrape`: the state afterwards and the contents of `*ptrs`. -/
def Scrape (s : StaticMeta) (id : Nat) (ptrs : List Nat) (replacement : Nat) :
    StaticMeta × List Nat :=
  let r := scrapeLoop id replacement s.head_ ptrs
  ({ s with head_ := r.1 }, r.2)

/-- The thread-local pointer `tls_` of thread `t`: its block, or `none` for `nullptr`. -/
def tls_ (s : StaticMeta) (t : Nat) : Option ThreadData :=
  s.head_.find? (fun d => decide (d.owner = t))

/-- `StaticMeta::AddThreadData`: link the block in front of the sentinel, that
is, at the end of the list. -/
def AddThreadData (s : StaticMeta) (d : ThreadData) : StaticMeta :=
  { s with head_ := s.head_ ++ [d] }

/-- Unlink from a list the block that `tls_` of thread `t` points at. -/
def unlink : List ThreadData → Nat → List ThreadData
  | [], _ => []
  | d :: ds, t => if d.owner = t then ds else d :: unlink ds t

/-- `StaticMeta::RemoveThreadData`. -/
def RemoveThreadData (s : StaticMeta) (d : ThreadData) : StaticMeta :=
  { s with head_ := unlink s.head_ d.owner }

/-- `StaticMeta::GetThreadLocal`: the state afterwards; the returned block is
`tls_` of the calling thread in that state. `pthread_setspecific` is taken to
succeed. -/
def GetThreadLocal (s : StaticMeta) (t : Nat) : StaticMeta :=
  match tls_ s t with
  | some _ => s
  | none => AddThreadData s { owner := t, entries := [] }

/-- The entry vector `tls->entries` of thread `t` (empty when `tls_` is null). -/
def entriesOf (s : StaticMeta) (t : Nat) : List Nat :=
  match tls_ s t with
  | some d => d.entries
  | none => []

/-- Store a new entry vector into the block that `tls_` of thread `t` points at. -/
def storeEntries : List ThreadData → Nat → List Nat → List ThreadData
  | [], _, _ => []
  | d :: ds, t, es =>
    if d.owner = t then { d with entries := es } :: ds else d :: storeEntries ds t es

/-- State in which the block of thread `t` has entry vector `es`. -/
def withEntries (s : StaticMeta) (t : Nat) (es : List Nat) : StaticMeta :=
  { s with head_ := storeEntries s.head_ t es }

/-- `std::vector::resize(n)`: truncate, or pad with default entries (`nullptr`). -/
def resize (es : List Nat) (n : Nat) : List Nat :=
  es.take n ++ List.replicate (n - es.length) 0

/-- `StaticMeta::Get`: the returned pointer and the state afterwards. -/
def Get (s : StaticMeta) (t id : Nat) : Nat × StaticMeta :=
  let s1 := GetThreadLocal s t
  let es := entriesOf s1 t
  if id ≥ es.length then (0, s1) else (es.getD id 0, s1)

/-- The common head of `Reset`, `Swap` and `CompareAndSwap`: resolve the block
and, when `id >= entries.size()`, `entries.resize(id + 1)` with `id + 1`
computed in `uint32_t`. -/
def growFor (s : StaticMeta) (t id : Nat) : StaticMeta :=
  let s1 := GetThreadLocal s t
  let es := entriesOf s1 t
  if id ≥ es.length then withEntries s1 t (resize es ((id + 1) % U32)) else s1

/-- `StaticMeta::Reset`. -/
def Reset (s : StaticMeta) (t id ptr : Nat) : Option StaticMeta :=
  let s1 := growFor s t id
  let es := entriesOf s1 t
  if id < es.length then some (withEntries s1 t (es.set id ptr)) else none

/-- `StaticMeta::Swap`: the previous pointer and the state afterwards. -/
def Swap (s : StaticMeta) (t id ptr : Nat) : Option (Nat × StaticMeta) :=
  let s1 := growFor s t id
  let es := entriesOf s1 t
  if id < es.length then some (es.getD id 0, withEntries s1 t (es.set id ptr)) else none

/-- `StaticMeta::CompareAndSwap`: the result, the value of the reference
argument `expected` on return, and the state afterwards. -/
def CompareAndSwap (s : StaticMeta) (t id ptr expected : Nat) :
    Option (Bool × Nat × StaticMeta) :=
  let s1 := growFor s t id
  let es := entriesOf s1 t
  if id < es.length then
    if es.getD id 0 = expected then some (true, expected, withEntries s1 t (es.set id ptr))
    else some (false, es.getD id 0, s1)
  else none

/-- The loop of `OnThreadExit` over `tls->entries`, `id` counting the position
in `uint32_t`: a non-null entry is passed to the handler of its slot when that
handler is not `nullptr`. Returns the handler invocations made, in order. -/
def exitLoop (s : StaticMeta) : List Nat → Nat → List (Nat × Nat)
  | [], _ => []
  | raw :: es, id =>
    let rest := exitLoop s es ((id + 1) % U32)
    if raw ≠ 0 then
      let unref := GetHandler s id
      if unref ≠ 0 then (unref, raw) :: rest else rest
    else rest

/-- `StaticMeta::OnThreadExit` on the block `tls`. -/
def OnThreadExit (s : StaticMeta) (tls : ThreadData) : StaticMeta :=
  let s1 := RemoveThreadData s tls
  { s1 with unref_calls := s1.unref_calls ++ exitLoop s1 tls.entries 0 }

/-- Termination of thread `t`: the runtime runs the key destructor
`OnThreadExit` only when the thread's value is not null. -/
def threadExit (s : StaticMeta) (t : Nat) : StaticMeta :=
  match tls_ s t with
  | none => s
  | some d => OnThreadExit s d

/-- `ThreadLocalPtr::ThreadLocalPtr(handler)`: the identifier `id_` of the new
handle and the state afterwards. -/
def ThreadLocalPtr_ctor (s : StaticMeta) (handler : Nat) : Nat × StaticMeta :=
  let r := GetId s
  if handler ≠ 0 then (r.1, SetHandler r.2 r.1 handler) else r

/-- `ThreadLocalPtr::~ThreadLocalPtr()` of the handle with identifier `id`. -/
def ThreadLocalPtr_dtor (s : StaticMeta) (id : Nat) : StaticMeta :=
  ReclaimId s id

/-- The threads of `ws` each call `Reset` at slot `S`, one after the other; `ws`
lists the pairs (thread, value written). -/
def resetAll (s : StaticMeta) (S : Nat) : List (Nat × Nat) → Option StaticMeta
  | [] => some s
  | w :: ws =>
    match Reset s w.1 S w.2 with
    | none => none
    | some s1 => resetAll s1 S ws

/-- One block per thread: no two blocks of the list have the same owner. -/
def OneBlockPerThread (s : StaticMeta) : Prop :=
  (s.head_.map ThreadData.owner).Nodup

instance (s : StaticMeta) : Decidable (OneBlockPerThread s) := by
  unfold OneBlockPerThread
  infer_instance

/-- The registry together with the identifiers `id_` of the `ThreadLocalPtr`
objects that are alive. -/
structure Sys where
  reg : StaticMeta
  live : List Nat

/-- States reachable from the fresh registry by constructing handles while fewer
than `cap` are alive, destroying live handles, calling `Get`, `Reset`, `Swap`,
`CompareAndSwap` and `Scrape` through live handles from any thread (the first
such call of a thread creates its block), and terminating threads. -/
inductive Reach (cap : Nat) : Sys → Prop
  | init : Reach cap ⟨StaticMeta.fresh, []⟩
  | create (x : Sys) (handler : Nat) : Reach cap x → x.live.length < cap →
      Reach cap ⟨(ThreadLocalPtr_ctor x.reg handler).2,
        (ThreadLocalPtr_ctor x.reg handler).1 :: x.live⟩
  | destroy (x : Sys) (id : Nat) : Reach cap x → id ∈ x.live →
      Reach cap ⟨ThreadLocalPtr_dtor x.reg id, x.live.erase id⟩
  | get (x : Sys) (t id : Nat) : Reach cap x → id ∈ x.live →
      Reach cap ⟨(Get x.reg t id).2, x.live⟩
  | reset (x : Sys) (t id v : Nat) (r : StaticMeta) : Reach cap x → id ∈ x.live →
      Reset x.reg t id v = some r → Reach cap ⟨r, x.live⟩
  | swap (x : Sys) (t id v old : Nat) (r : StaticMeta) : Reach cap x → id ∈ x.live →
      Swap x.reg t id v = some (old, r) → Reach cap ⟨r, x.live⟩
  | cas (x : Sys) (t id v e e1 : Nat) (b : Bool) (r : StaticMeta) : Reach cap x →
      id ∈ x.live → CompareAndSwap x.reg t id v e = some (b, e1, r) → Reach cap ⟨r, x.live⟩
  | scrape (x : Sys) (id replacement : Nat) (ptrs : List Nat) : Reach cap x → id ∈ x.live →
      Reach cap ⟨(Scrape x.reg id ptrs replacement).1, x.live⟩
  | exit (x : Sys) (t : Nat) : Reach cap x → Reach cap ⟨threadExit x.reg t, x.live⟩

/-- The state after `n` handles were constructed, without handler, on the
fresh registry. -/
def createMany : Nat → Sys
  | 0 => ⟨StaticMeta.fresh, []⟩
  | n + 1 => ⟨(ThreadLocalPtr_ctor (createMany n).reg 0).2,
      (ThreadLocalPtr_ctor (createMany n).reg 0).1 :: (createMany n).live⟩

/-- Bookkeeping of identifiers: live identifiers are pairwise distinct, the free
list has no duplicates and is disjoint from the live identifiers, every
identifier issued is below the counter, and the counter counts them. -/
structure IdsOk (cap : Nat) (x : Sys) : Prop where
  live_nodup : x.live.Nodup
  free_nodup : x.reg.free_instance_ids_.Nodup
  disjoint : ∀ id ∈ x.reg.free_instance_ids_, id ∉ x.live
  live_lt : ∀ id ∈ x.live, id < x.reg.next_instance_id_
  free_lt : ∀ id ∈ x.reg.free_instance_ids_, id < x.reg.next_instance_id_
  count : x.reg.next_instance_id_ = x.live.length + x.reg.free_instance_ids_.length
  bound : x.reg.next_instance_id_ ≤ cap

/-- No block of the list holds a non-null value at slot `id`. -/
def NullAt (id : Nat) (bs : List ThreadData) : Prop :=
  ∀ d ∈ bs, d.entries.getD id 0 = 0

/-- Entry of a block at a slot, `nullptr` when the block does not cover the slot. -/
def entryAt (id : Nat) (d : ThreadData) : Nat := d.entries.getD id 0

/-- The non-null entries at slot `id` of a list of blocks, in list order. -/
def heldAt (id : Nat) (bs : List ThreadData) : List Nat :=
  (bs.map (entryAt id)).filter (fun p => decide (p ≠ 0))

/-- A block after the exchange of its entry at `id` with `v`, when it covers `id`. -/
def exchanged (id v : Nat) (t : ThreadData) : ThreadData :=
  if id < t.entries.length then { t with entries := t.entries.set id v } else t

/-- Three threads hold a value at slot `0`, whose handler is `9`. -/
def threeThreads : StaticMeta :=
  { next_instance_id_ := 1, free_instance_ids_ := [], handler_map_ := [(0, 9)],
    head_ := [⟨1, [11]⟩, ⟨2, [12]⟩, ⟨3, [13]⟩], unref_calls := [] }

/-- The state after `2^32` handles were constructed and thread `0` wrote `7`
through the first of them. -/
def wrappedSys : Sys :=
  ⟨⟨0, [], [], [⟨0, [7]⟩], []⟩, (createMany 4294967296).live⟩

/-- Every block is shorter than `2^32`. -/
def Short (s : StaticMeta) : Prop :=
  ∀ d ∈ s.head_, d.entries.length < U32

/-- The state after one handle with handler `9` was constructed on the fresh
registry. -/
def oneHandler : Sys :=
  ⟨⟨1, [], [(0, 9)], [], []⟩, [0]⟩

/-- The state after `n` further handles were constructed, without handler, in
state `x`. -/
def createAfter (x : Sys) : Nat → Sys
  | 0 => x
  | n + 1 => ⟨(ThreadLocalPtr_ctor (createAfter x n).reg 0).2,
      (ThreadLocalPtr_ctor (createAfter x n).reg 0).1 :: (createAfter x n).live⟩

/-- The non-null entries of an entry vector paired with their slots, the first
entry being slot `k`. -/
def blockPairs : List Nat → Nat → List (Nat × Nat)
  | [], _ => []
  | v :: es, k => if v ≠ 0 then (k, v) :: blockPairs es (k + 1) else blockPairs es (k + 1)

/-- All pairs (slot, value) of non-null entries held in the blocks of the list. -/
def heldPairs (s : StaticMeta) : List (Nat × Nat) :=
  s.head_.flatMap (fun d => blockPairs d.entries 0)

/-- A value paired with its slot, as a list; nothing for `nullptr`. -/
def pairOf (id v : Nat) : List (Nat × Nat) :=
  if v ≠ 0 then [(id, v)] else []

/-- What an execution has done so far.

* `written`: the pairs (thread, slot) such that the thread called `Reset`,
  `Swap` or `CompareAndSwap` on the slot since the slot's handle was constructed
  and since the thread started.
* `scraped`: the slots scraped with a non-null replacement since their handle
  was constructed.
* `stored`: (slot, value) for every non-null value put into an entry, by
  `Reset`, `Swap`, a successful `CompareAndSwap`, or `Scrape` as replacement.
* `displaced`: (slot, value) for every non-null value taken out of an entry by
  `Reset`, `Swap`, a successful `CompareAndSwap` or `Scrape`.
* `discarded`: (handler, slot, value) for every non-null value dropped from an
  entry by `ReclaimId` or by thread exit, with the handler registered for the
  slot at that moment. -/
structure Hist where
  written : List (Nat × Nat)
  scraped : List Nat
  stored : List (Nat × Nat)
  displaced : List (Nat × Nat)
  discarded : List (Nat × Nat × Nat)

/-- Nothing has happened yet. -/
def Hist.empty : Hist := ⟨[], [], [], [], []⟩

/-- Executions: the states of `Reach` together with what the execution did. -/
inductive Run (cap : Nat) : Sys → Hist → Prop
  | init : Run cap ⟨StaticMeta.fresh, []⟩ Hist.empty
  | create (x : Sys) (h : Hist) (handler : Nat) : Run cap x h → x.live.length < cap →
      Run cap
        ⟨(ThreadLocalPtr_ctor x.reg handler).2, (ThreadLocalPtr_ctor x.reg handler).1 :: x.live⟩
        { h with
          written :=
            h.written.filter (fun p => decide (p.2 ≠ (ThreadLocalPtr_ctor x.reg handler).1))
          scraped :=
            h.scraped.filter (fun i => decide (i ≠ (ThreadLocalPtr_ctor x.reg handler).1)) }
  | destroy (x : Sys) (h : Hist) (id : Nat) : Run cap x h → id ∈ x.live →
      Run cap ⟨ThreadLocalPtr_dtor x.reg id, x.live.erase id⟩
        { h with
          discarded := h.discarded ++
            (heldAt id x.reg.head_).map (fun v => (GetHandler x.reg id, id, v)) }
  | get (x : Sys) (h : Hist) (t id : Nat) : Run cap x h → id ∈ x.live →
      Run cap ⟨(Get x.reg t id).2, x.live⟩ h
  | reset (x : Sys) (h : Hist) (t id v : Nat) (r : StaticMeta) : Run cap x h → id ∈ x.live →
      Reset x.reg t id v = some r →
      Run cap ⟨r, x.live⟩
        { h with
          written := (t, id) :: h.written
          stored := h.stored ++ pairOf id v
          displaced := h.displaced ++ pairOf id (Get x.reg t id).1 }
  | swap (x : Sys) (h : Hist) (t id v old : Nat) (r : StaticMeta) : Run cap x h →
      id ∈ x.live → Swap x.reg t id v = some (old, r) →
      Run cap ⟨r, x.live⟩
        { h with
          written := (t, id) :: h.written
          stored := h.stored ++ pairOf id v
          displaced := h.displaced ++ pairOf id old }
  | cas (x : Sys) (h : Hist) (t id v e e1 : Nat) (b : Bool) (r : StaticMeta) : Run cap x h →
      id ∈ x.live → CompareAndSwap x.reg t id v e = some (b, e1, r) →
      Run cap ⟨r, x.live⟩
        { h with
          written := (t, id) :: h.written
          stored := h.stored ++ (if b then pairOf id v else [])
          displaced := h.displaced ++ (if b then pairOf id e else []) }
  | scrape (x : Sys) (h : Hist) (id replacement : Nat) (ptrs : List Nat) : Run cap x h →
      id ∈ x.live →
      Run cap ⟨(Scrape x.reg id ptrs replacement).1, x.live⟩
        { h with
          scraped := if replacement ≠ 0 then id :: h.scraped else h.scraped
          stored := h.stored ++
            (x.reg.head_.filter (fun d => decide (id < d.entries.length))).flatMap
              (fun _ => pairOf id replacement)
          displaced := h.displaced ++ (Scrape x.reg id [] replacement).2.map (fun v => (id, v)) }
  | exit (x : Sys) (h : Hist) (t : Nat) : Run cap x h →
      Run cap ⟨threadExit x.reg t, x.live⟩
        { h with
          written := h.written.filter (fun p => decide (p.1 ≠ t))
          discarded := h.discarded ++
            (blockPairs (entriesOf x.reg t) 0).map (fun p => (GetHandler x.reg p.1, p)) }

/-- Nothing held in a block is unaccounted for: a non-null entry was written by
the owning thread or scraped in. -/
def Accounted (x : Sys) (h : Hist) : Prop :=
  ∀ d ∈ x.reg.head_, ∀ id, d.entries.getD id 0 ≠ 0 →
    (d.owner, id) ∈ h.written ∨ id ∈ h.scraped

/-- Two handles are alive; thread `5` wrote `3` through the second, then the
first slot was scraped with replacement `9`. -/
def scrapedSys : Sys :=
  ⟨⟨2, [], [], [⟨5, [9, 3]⟩], []⟩, [1, 0]⟩

/-- What the execution leading to `scrapedSys` did. -/
def scrapedHist : Hist :=
  ⟨[(5, 1)], [0], [(1, 3), (0, 9)], [], []⟩

/-- After `2^32` handles were constructed and thread `0` wrote `7` through the
first of them, one more handle is constructed: it is given identifier `0`. -/
def rewrappedSys : Sys :=
  ⟨⟨1, [], [], [⟨0, [7]⟩], []⟩, 0 :: (createMany 4294967296).live⟩

/-- A list of pairs (slot, value) as a multiset. -/
def ms (l : List (Nat × Nat)) : Multiset (Nat × Nat) := Multiset.ofList l

/-- All pairs (slot, value) of non-null entries held in a list of blocks. -/
def heldIn (bs : List ThreadData) : List (Nat × Nat) :=
  bs.flatMap (fun d => blockPairs d.entries 0)

/-- A handle with handler `9` was constructed, thread `1` wrote `11` and then
`12` through it and exited, and the handle was destroyed. -/
def overwrittenSys : Sys :=
  ⟨⟨1, [0], [(0, 0)], [], [(9, 12)]⟩, []⟩

/-- What the execution leading to `overwrittenSys` did. -/
def overwrittenHist : Hist :=
  ⟨[], [], [(0, 11), (0, 12)], [(0, 11)], [(9, 0, 12)]⟩

/-- The block of thread `t` in state `r`, compared with state `s`, after an
access to slot `id`: its length is the larger of the former length and `id + 1`,
every former entry other than `id` has its value, and every new entry other
than `id` is null. -/
def GrowthPost (s r : StaticMeta) (t id : Nat) : Prop :=
  (entriesOf r t).length = max (entriesOf s t).length (id + 1) ∧
  (∀ j, j ≠ id → j < (entriesOf s t).length → (entriesOf r t)[j]? = (entriesOf s t)[j]?) ∧
  (∀ j, j ≠ id → (entriesOf s t).length ≤ j → j < (entriesOf r t).length →
    (entriesOf r t)[j]? = some 0)

/-- The blocks `cs` are the blocks `bs`, in the same order and none shorter than
before, possibly followed by further blocks. -/
def NoShrink (bs cs : List ThreadData) : Prop :=
  ∃ cs1 extra, cs = cs1 ++ extra ∧
    List.Forall₂ (fun b c => c.owner = b.owner ∧ b.entries.length ≤ c.entries.length) bs cs1

/-- Thread `t` calls `Get`, `Reset`, `Swap` or `CompareAndSwap`: it joins the
threads that use the registry, last, unless it is among them already. -/
def touch (T : List Nat) (t : Nat) : List Nat :=
  if t ∈ T then T else T ++ [t]

/-- The states of `Reach` together with the threads that have called `Get`,
`Reset`, `Swap` or `CompareAndSwap` at least once and have not exited, in the
order of their first call. -/
inductive Lives (cap : Nat) : Sys → List Nat → Prop
  | init : Lives cap ⟨StaticMeta.fresh, []⟩ []
  | create (x : Sys) (T : List Nat) (handler : Nat) : Lives cap x T → x.live.length < cap →
      Lives cap
        ⟨(ThreadLocalPtr_ctor x.reg handler).2, (ThreadLocalPtr_ctor x.reg handler).1 :: x.live⟩ T
  | destroy (x : Sys) (T : List Nat) (id : Nat) : Lives cap x T → id ∈ x.live →
      Lives cap ⟨ThreadLocalPtr_dtor x.reg id, x.live.erase id⟩ T
  | get (x : Sys) (T : List Nat) (t id : Nat) : Lives cap x T → id ∈ x.live →
      Lives cap ⟨(Get x.reg t id).2, x.live⟩ (touch T t)
  | reset (x : Sys) (T : List Nat) (t id v : Nat) (r : StaticMeta) : Lives cap x T →
      id ∈ x.live → Reset x.reg t id v = some r → Lives cap ⟨r, x.live⟩ (touch T t)
  | swap (x : Sys) (T : List Nat) (t id v old : Nat) (r : StaticMeta) : Lives cap x T →
      id ∈ x.live → Swap x.reg t id v = some (old, r) → Lives cap ⟨r, x.live⟩ (touch T t)
  | cas (x : Sys) (T : List Nat) (t id v e e1 : Nat) (b : Bool) (r : StaticMeta) :
      Lives cap x T → id ∈ x.live → CompareAndSwap x.reg t id v e = some (b, e1, r) →
      Lives cap ⟨r, x.live⟩ (touch T t)
  | scrape (x : Sys) (T : List Nat) (id replacement : Nat) (ptrs : List Nat) :
      Lives cap x T → id ∈ x.live →
      Lives cap ⟨(Scrape x.reg id ptrs replacement).1, x.live⟩ T
  | exit (x : Sys) (T : List Nat) (t : Nat) : Lives cap x T →
      Lives cap ⟨threadExit x.reg t, x.live⟩ (T.erase t)

/-- The handler recorded for `id` in a list of pairs (identifier, handler): that
of the first pair with the identifier, `nullptr` when there is none. -/
def createdWith : List (Nat × Nat) → Nat → Nat
  | [], _ => 0
  | (k, h) :: m, id => if k = id then h else createdWith m id

/-- Remove the first pair with identifier `id` from a list of pairs
(identifier, handler). -/
def dropHandle : List (Nat × Nat) → Nat → List (Nat × Nat)
  | [], _ => []
  | (k, h) :: m, id => if k = id then m else (k, h) :: dropHandle m id

/-- What an execution owes to the handlers passed to the constructors.

* `made`: (identifier, handler) for every handle that is alive, latest first,
  the handler being the argument of its constructor (`0` for none).
* `owed`: (handler, slot, value) for every non-null value dropped from an entry
  by `ReclaimId` or by thread exit, with the handler that the live handle of the
  slot was constructed with. -/
structure Due where
  made : List (Nat × Nat)
  owed : List (Nat × Nat × Nat)

/-- Executions as in `Run`, recording besides the handler each live handle was
constructed with and, for every value dropped by `ReclaimId` or thread exit,
that handler. -/
inductive Exec (cap : Nat) : Sys → Hist → Due → Prop
  | init : Exec cap ⟨StaticMeta.fresh, []⟩ Hist.empty ⟨[], []⟩
  | create (x : Sys) (h : Hist) (g : Due) (handler : Nat) : Exec cap x h g →
      x.live.length < cap →
      Exec cap
        ⟨(ThreadLocalPtr_ctor x.reg handler).2, (ThreadLocalPtr_ctor x.reg handler).1 :: x.live⟩
        { h with
          written :=
            h.written.filter (fun p => decide (p.2 ≠ (ThreadLocalPtr_ctor x.reg handler).1))
          scraped :=
            h.scraped.filter (fun i => decide (i ≠ (ThreadLocalPtr_ctor x.reg handler).1)) }
        { g with made := ((ThreadLocalPtr_ctor x.reg handler).1, handler) :: g.made }
  | destroy (x : Sys) (h : Hist) (g : Due) (id : Nat) : Exec cap x h g → id ∈ x.live →
      Exec cap ⟨ThreadLocalPtr_dtor x.reg id, x.live.erase id⟩
        { h with
          discarded := h.discarded ++
            (heldAt id x.reg.head_).map (fun v => (GetHandler x.reg id, id, v)) }
        { made := dropHandle g.made id
          owed := g.owed ++
            (heldAt id x.reg.head_).map (fun v => (createdWith g.made id, id, v)) }
  | get (x : Sys) (h : Hist) (g : Due) (t id : Nat) : Exec cap x h g → id ∈ x.live →
      Exec cap ⟨(Get x.reg t id).2, x.live⟩ h g
  | reset (x : Sys) (h : Hist) (g : Due) (t id v : Nat) (r : StaticMeta) : Exec cap x h g →
      id ∈ x.live → Reset x.reg t id v = some r →
      Exec cap ⟨r, x.live⟩
        { h with
          written := (t, id) :: h.written
          stored := h.stored ++ pairOf id v
          displaced := h.displaced ++ pairOf id (Get x.reg t id).1 }
        g
  | swap (x : Sys) (h : Hist) (g : Due) (t id v old : Nat) (r : StaticMeta) : Exec cap x h g →
      id ∈ x.live → Swap x.reg t id v = some (old, r) →
      Exec cap ⟨r, x.live⟩
        { h with
          written := (t, id) :: h.written
          stored := h.stored ++ pairOf id v
          displaced := h.displaced ++ pairOf id old }
        g
  | cas (x : Sys) (h : Hist) (g : Due) (t id v e e1 : Nat) (b : Bool) (r : StaticMeta) :
      Exec cap x h g → id ∈ x.live → CompareAndSwap x.reg t id v e = some (b, e1, r) →
      Exec cap ⟨r, x.live⟩
        { h with
          written := (t, id) :: h.written
          stored := h.stored ++ (if b then pairOf id v else [])
          displaced := h.displaced ++ (if b then pairOf id e else []) }
        g
  | scrape (x : Sys) (h : Hist) (g : Due) (id replacement : Nat) (ptrs : List Nat) :
      Exec cap x h g → id ∈ x.live →
      Exec cap ⟨(Scrape x.reg id ptrs replacement).1, x.live⟩
        { h with
          scraped := if replacement ≠ 0 then id :: h.scraped else h.scraped
          stored := h.stored ++
            (x.reg.head_.filter (fun d => decide (id < d.entries.length))).flatMap
              (fun _ => pairOf id replacement)
          displaced := h.displaced ++ (Scrape x.reg id [] replacement).2.map (fun v => (id, v)) }
        g
  | exit (x : Sys) (h : Hist) (g : Due) (t : Nat) : Exec cap x h g →
      Exec cap ⟨threadExit x.reg t, x.live⟩
        { h with
          written := h.written.filter (fun p => decide (p.1 ≠ t))
          discarded := h.discarded ++
            (blockPairs (entriesOf x.reg t) 0).map (fun p => (GetHandler x.reg p.1, p)) }
        { g with
          owed := g.owed ++
            (blockPairs (entriesOf x.reg t) 0).map (fun p => (createdWith g.made p.1, p)) }

/-- Handles `0` and `1` were constructed with handlers `9` and `8`; thread `1`
wrote `11` through the first and `21` through the second; the second handle was
destroyed. -/
def keptSys : Sys :=
  ⟨⟨2, [1], [(0, 9), (1, 0)], [⟨1, [11, 0]⟩], [(8, 21)]⟩, [0]⟩

/-- What the execution leading to `keptSys` did. -/
def keptHist : Hist :=
  ⟨[(1, 1), (1, 0)], [], [(0, 11), (1, 21)], [], [(8, 1, 21)]⟩

/-- What the execution leading to `keptSys` owes to the handlers. -/
def keptDue : Due :=
  ⟨[(0, 9)], [(8, 1, 21)]⟩

/-- A handle with handler `9` was constructed and then `2^32 - 1` handles without
handler, all alive; thread `1` wrote `7` through the first handle; one more
handle was constructed, with handler `8`: the counter having wrapped, it is
given identifier `0`. -/
def reboundSys : Sys :=
  ⟨⟨1, [], [(0, 8)], [⟨1, [7]⟩], []⟩, 0 :: (createAfter oneHandler 4294967295).live⟩

/-! ## Auxiliary facts about the list of blocks -/

theorem find_storeEntries_self (bs : List ThreadData) (t : Nat) (es : List Nat)
    (d : ThreadData) (h : bs.find? (fun d => decide (d.owner = t)) = some d) :
    (storeEntries bs t es).find? (fun d => decide (d.owner = t)) =
      some { d with entries := es } := by
  induction bs with
  | nil => simp at h
  | cons b bs ih =>
    by_cases hb : b.owner = t
    · simp [List.find?_cons, hb] at h
      subst h
      simp [storeEntries, hb, List.find?_cons]
    · simp [List.find?_cons, hb] at h
      simp [storeEntries, hb, List.find?_cons, ih h]

theorem find_storeEntries_other (bs : List ThreadData) (t u : Nat) (es : List Nat)
    (hu : u ≠ t) :
    (storeEntries bs t es).find? (fun d => decide (d.owner = u)) =
      bs.find? (fun d => decide (d.owner = u)) := by
  induction bs with
  | nil => simp [storeEntries]
  | cons b bs ih =>
    have htu : ¬ t = u := fun h => hu h.symm
    by_cases hb : b.owner = t
    · have hbu : ¬ b.owner = u := fun h => hu (h.symm.trans hb)
      simp [storeEntries, hb, List.find?_cons, htu]
    · by_cases hbu : b.owner = u
      · rw [storeEntries, if_neg hb]
        simp [List.find?_cons, hbu]
      · rw [storeEntries, if_neg hb]
        simp [List.find?_cons, hbu, ih]

theorem storeEntries_storeEntries (bs : List ThreadData) (t : Nat) (es fs : List Nat) :
    storeEntries (storeEntries bs t es) t fs = storeEntries bs t fs := by
  induction bs with
  | nil => simp [storeEntries]
  | cons b bs ih =>
    by_cases hb : b.owner = t
    · simp [storeEntries, hb]
    · simp [storeEntries, hb, ih]

theorem tls_GetThreadLocal_self (s : StaticMeta) (t : Nat) :
    ∃ d, tls_ (GetThreadLocal s t) t = some d ∧ d.owner = t ∧ d.entries = entriesOf s t := by
  unfold GetThreadLocal entriesOf
  cases h : tls_ s t with
  | some d =>
    refine ⟨d, by simp [h], ?_, rfl⟩
    unfold tls_ at h
    simpa using List.find?_some h
  | none =>
    refine ⟨{ owner := t, entries := [] }, ?_, rfl, rfl⟩
    unfold tls_ at h
    simp [tls_, AddThreadData, List.find?_append, h]

theorem tls_GetThreadLocal_other (s : StaticMeta) (t u : Nat) (hu : u ≠ t) :
    tls_ (GetThreadLocal s t) u = tls_ s u := by
  unfold GetThreadLocal
  cases h : tls_ s t with
  | some d => simp
  | none =>
    simp only [tls_, AddThreadData, List.find?_append]
    cases h2 : List.find? (fun d => decide (d.owner = u)) s.head_ with
    | some e => simp
    | none =>
      have htu : ¬ t = u := fun h => hu h.symm
      simp [List.find?_cons, htu]

theorem entriesOf_GetThreadLocal_self (s : StaticMeta) (t : Nat) :
    entriesOf (GetThreadLocal s t) t = entriesOf s t := by
  obtain ⟨d, hd, _, he⟩ := tls_GetThreadLocal_self s t
  simp [entriesOf, hd, he]

theorem entriesOf_withEntries_self (s : StaticMeta) (t : Nat) (es : List Nat)
    (h : tls_ s t ≠ none) : entriesOf (withEntries s t es) t = es := by
  cases hd : tls_ s t with
  | none => exact absurd hd h
  | some d =>
    unfold tls_ at hd
    simp [entriesOf, tls_, withEntries, find_storeEntries_self _ _ _ _ hd]

theorem tls_withEntries_self (s : StaticMeta) (t : Nat) (es : List Nat)
    (h : tls_ s t ≠ none) : tls_ (withEntries s t es) t ≠ none := by
  cases hd : tls_ s t with
  | none => exact absurd hd h
  | some d =>
    unfold tls_ at hd
    simp [tls_, withEntries, find_storeEntries_self _ _ _ _ hd]

theorem tls_withEntries_other (s : StaticMeta) (t u : Nat) (es : List Nat) (hu : u ≠ t) :
    tls_ (withEntries s t es) u = tls_ s u := by
  simp [tls_, withEntries, find_storeEntries_other _ _ _ _ hu]

theorem tls_GetThreadLocal_ne_none (s : StaticMeta) (t : Nat) :
    tls_ (GetThreadLocal s t) t ≠ none := by
  obtain ⟨d, hd, _⟩ := tls_GetThreadLocal_self s t
  simp [hd]

theorem GetThreadLocal_of_tls (s : StaticMeta) (t : Nat) (h : tls_ s t ≠ none) :
    GetThreadLocal s t = s := by
  unfold GetThreadLocal
  cases hd : tls_ s t with
  | none => exact absurd hd h
  | some d => rfl

theorem length_resize (es : List Nat) (n : Nat) : (resize es n).length = n := by
  simp [resize]
  omega

theorem tls_growFor_ne_none (s : StaticMeta) (t id : Nat) :
    tls_ (growFor s t id) t ≠ none := by
  unfold growFor
  simp only
  split
  · exact tls_withEntries_self _ _ _ (tls_GetThreadLocal_ne_none s t)
  · exact tls_GetThreadLocal_ne_none s t

theorem entriesOf_growFor (s : StaticMeta) (t id : Nat) :
    entriesOf (growFor s t id) t =
      if id ≥ (entriesOf s t).length then resize (entriesOf s t) ((id + 1) % U32)
      else entriesOf s t := by
  unfold growFor
  simp only [entriesOf_GetThreadLocal_self]
  split
  · exact entriesOf_withEntries_self _ _ _ (tls_GetThreadLocal_ne_none s t)
  · exact entriesOf_GetThreadLocal_self s t

theorem covers_growFor (s : StaticMeta) (t id : Nat) (hid : id + 1 < U32) :
    id < (entriesOf (growFor s t id) t).length := by
  rw [entriesOf_growFor]
  split
  · rw [length_resize, Nat.mod_eq_of_lt hid]
    omega
  · omega

theorem getD_resize (es : List Nat) (n id : Nat) (h : es.length ≤ n) :
    (resize es n).getD id 0 = es.getD id 0 := by
  unfold resize
  rw [List.take_of_length_le h]
  simp only [List.getD_eq_getElem?_getD]
  by_cases hi : id < es.length
  · rw [List.getElem?_append_left hi]
  · rw [List.getElem?_append_right (by omega)]
    have h0 : es[id]? = none := List.getElem?_eq_none (by omega)
    rw [h0]
    by_cases h2 : id - es.length < n - es.length
    · simp [List.getElem?_replicate, h2]
    · simp [List.getElem?_replicate, h2]

theorem heldAt_cons (id : Nat) (b : ThreadData) (bs : List ThreadData) :
    heldAt id (b :: bs) =
      (if entryAt id b ≠ 0 then [entryAt id b] else []) ++ heldAt id bs := by
  unfold heldAt
  by_cases h : entryAt id b = 0
  · simp [h]
  · simp [h, List.filter_cons]

theorem heldAt_append (id : Nat) (as bs : List ThreadData) :
    heldAt id (as ++ bs) = heldAt id as ++ heldAt id bs := by
  simp [heldAt]

theorem entryAt_of_short (id : Nat) (b : ThreadData) (h : ¬ id < b.entries.length) :
    entryAt id b = 0 := by
  simp [entryAt, List.getD_eq_getElem?_getD, List.getElem?_eq_none (Nat.le_of_not_lt h)]

theorem reclaimLoop_blocks (id unref : Nat) (bs : List ThreadData) :
    (reclaimLoop id unref bs).1 = bs.map (exchanged id 0) := by
  induction bs with
  | nil => rfl
  | cons b bs ih =>
    simp only [reclaimLoop, List.map_cons, exchanged]
    split
    · split <;> simp [ih]
    · simp [ih]

theorem reclaimLoop_calls (id unref : Nat) (bs : List ThreadData) :
    (reclaimLoop id unref bs).2 =
      if unref = 0 then [] else (heldAt id bs).map (fun p => (unref, p)) := by
  induction bs with
  | nil => simp [reclaimLoop, heldAt]
  | cons b bs ih =>
    simp only [reclaimLoop, heldAt_cons]
    by_cases hc : id < b.entries.length
    · have he : entryAt id b = b.entries[id] := by simp [entryAt, hc]
      by_cases hu : unref = 0
      · subst hu
        simp at ih
        simp [hc, ih]
      · by_cases hp : b.entries[id] = 0
        · simp [hc, hu, hp, he, ih]
        · simp [hc, hu, hp, he, ih]
    · simp [hc, ih, entryAt_of_short id b hc]

theorem scrapeLoop_blocks (id r : Nat) (bs : List ThreadData) (ptrs : List Nat) :
    (scrapeLoop id r bs ptrs).1 = bs.map (exchanged id r) := by
  induction bs generalizing ptrs with
  | nil => rfl
  | cons b bs ih =>
    simp only [scrapeLoop, List.map_cons, exchanged]
    split <;> simp [ih]

theorem scrapeLoop_ptrs (id r : Nat) (bs : List ThreadData) (ptrs : List Nat) :
    (scrapeLoop id r bs ptrs).2 = ptrs ++ heldAt id bs := by
  induction bs generalizing ptrs with
  | nil => simp [scrapeLoop, heldAt]
  | cons b bs ih =>
    simp only [scrapeLoop, heldAt_cons]
    by_cases hc : id < b.entries.length
    · have he : entryAt id b = b.entries[id] := by simp [entryAt, hc]
      by_cases hp : b.entries[id] = 0
      · simp [hc, hp, he, ih]
      · simp [hc, hp, he, ih]
    · simp [hc, ih, entryAt_of_short id b hc]

theorem forall2_exchanged (id v : Nat) (bs : List ThreadData) :
    List.Forall₂
      (fun b c => c.owner = b.owner ∧
        (id < b.entries.length → c.entries = b.entries.set id v ∧ c.entries[id]? = some v) ∧
        (¬ id < b.entries.length → c = b))
      bs (bs.map (exchanged id v)) := by
  induction bs with
  | nil => exact List.Forall₂.nil
  | cons b bs ih =>
    refine List.Forall₂.cons ?_ ih
    unfold exchanged
    by_cases hc : id < b.entries.length
    · simp [hc]
    · simp [hc]

theorem entryAt_exchanged (id v : Nat) (b : ThreadData) :
    entryAt id (exchanged id v b) = if id < b.entries.length then v else 0 := by
  unfold exchanged
  by_cases hc : id < b.entries.length
  · simp [hc, entryAt, List.getD_eq_getElem?_getD]
  · simp [hc, entryAt_of_short id b hc]

theorem mapFind_mapAssign_self (m : List (Nat × Nat)) (id h : Nat) :
    mapFind (mapAssign m id h) id = some h := by
  induction m with
  | nil => simp [mapAssign, mapFind]
  | cons p m ih =>
    obtain ⟨k, x⟩ := p
    by_cases hk : k = id
    · simp [mapAssign, mapFind, hk]
    · simp [mapAssign, mapFind, hk, ih]

theorem mapFind_mapAssign_other (m : List (Nat × Nat)) (id j h : Nat) (hj : j ≠ id) :
    mapFind (mapAssign m id h) j = mapFind m j := by
  induction m with
  | nil =>
    have : ¬ id = j := fun e => hj e.symm
    simp [mapAssign, mapFind, this]
  | cons p m ih =>
    obtain ⟨k, x⟩ := p
    by_cases hk : k = id
    · have : ¬ id = j := fun e => hj e.symm
      simp [mapAssign, mapFind, hk, this]
    · by_cases hkj : k = j
      · subst hkj
        simp [mapAssign, mapFind, hk]
      · simp [mapAssign, mapFind, hk, hkj, ih]

theorem Get_fst (s : StaticMeta) (t id : Nat) :
    (Get s t id).1 = (entriesOf s t).getD id 0 := by
  unfold Get
  simp only [entriesOf_GetThreadLocal_self]
  split
  · rename_i h
    simp [List.getD_eq_getElem?_getD, List.getElem?_eq_none h]
  · rfl

theorem getD_entriesOf_growFor (s : StaticMeta) (t id j : Nat) (hid : id + 1 < U32) :
    (entriesOf (growFor s t id) t).getD j 0 = (entriesOf s t).getD j 0 := by
  rw [entriesOf_growFor]
  split
  · rename_i h
    rw [Nat.mod_eq_of_lt hid]
    exact getD_resize _ _ _ (by omega)
  · rfl

theorem entriesOf_stored (s : StaticMeta) (t id v : Nat) :
    entriesOf (withEntries (growFor s t id) t ((entriesOf (growFor s t id) t).set id v)) t =
      (entriesOf (growFor s t id) t).set id v :=
  entriesOf_withEntries_self _ _ _ (tls_growFor_ne_none s t id)

theorem Get_stored (s : StaticMeta) (t id v : Nat)
    (hc : id < (entriesOf (growFor s t id) t).length) :
    (Get (withEntries (growFor s t id) t ((entriesOf (growFor s t id) t).set id v)) t id).1
      = v := by
  rw [Get_fst, entriesOf_stored]
  simp [List.getD_eq_getElem?_getD, hc]

theorem Reset_Get_aux (id : Nat) (s : StaticMeta) (t v : Nat) (hid : id + 1 < U32) :
    ∃ s1, Reset s t id v = some s1 ∧ (entriesOf s1 t).getD id 0 = v := by
  have hc := covers_growFor s t id hid
  refine ⟨withEntries (growFor s t id) t ((entriesOf (growFor s t id) t).set id v), ?_, ?_⟩
  · simp [Reset, hc]
  · rw [entriesOf_stored]
    simp [List.getD_eq_getElem?_getD, hc]

theorem owners_storeEntries (bs : List ThreadData) (t : Nat) (es : List Nat) :
    (storeEntries bs t es).map ThreadData.owner = bs.map ThreadData.owner := by
  induction bs with
  | nil => rfl
  | cons b bs ih =>
    by_cases hb : b.owner = t
    · simp [storeEntries, hb]
    · simp [storeEntries, hb, ih]

theorem find_isSome_iff_mem_owners (bs : List ThreadData) (t : Nat) :
    bs.find? (fun d => decide (d.owner = t)) ≠ none ↔ t ∈ bs.map ThreadData.owner := by
  induction bs with
  | nil => simp
  | cons b bs ih =>
    by_cases hb : b.owner = t
    · simp [List.find?_cons, hb]
    · have hb2 : ¬ t = b.owner := fun e => hb e.symm
      simp only [List.find?_cons, hb, decide_False, List.map_cons, List.mem_cons, hb2, false_or]
      exact ih

theorem heldAt_filter_store (S : Nat) (T : List Nat) (t : Nat) (es : List Nat)
    (bs : List ThreadData) (hnd : (bs.map ThreadData.owner).Nodup)
    (hmem : t ∈ bs.map ThreadData.owner) (ht : t ∉ T) :
    (heldAt S ((storeEntries bs t es).filter (fun d => decide (d.owner ∉ T)))).Perm
      ((if es.getD S 0 ≠ 0 then [es.getD S 0] else []) ++
        heldAt S (bs.filter (fun d => decide (d.owner ∉ t :: T)))) := by
  induction bs with
  | nil => simp at hmem
  | cons b bs ih =>
    rw [List.map_cons, List.nodup_cons] at hnd
    by_cases hb : b.owner = t
    · rw [storeEntries, if_pos hb]
      have hk : List.filter (fun d => decide (d.owner ∉ T))
          (({ b with entries := es } : ThreadData) :: bs) =
          ({ b with entries := es } : ThreadData) :: List.filter (fun d => decide (d.owner ∉ T)) bs := by
        simp [List.filter_cons, hb, ht]
      have hd : List.filter (fun d => decide (d.owner ∉ t :: T)) (b :: bs) =
          List.filter (fun d => decide (d.owner ∉ t :: T)) bs := by
        simp [List.filter_cons, hb]
      rw [hk, hd, heldAt_cons]
      have hnew : entryAt S ({ b with entries := es } : ThreadData) = es.getD S 0 := rfl
      rw [hnew]
      have hcong : bs.filter (fun d => decide (d.owner ∉ t :: T)) =
          bs.filter (fun d => decide (d.owner ∉ T)) := by
        apply List.filter_congr
        intro d hdm
        have hne : d.owner ≠ t := by
          intro e
          apply hnd.1
          rw [hb, ← e]
          exact List.mem_map_of_mem _ hdm
        simp [hne]
      rw [hcong]
    · have hmem2 : t ∈ bs.map ThreadData.owner := by
        rcases List.mem_cons.1 hmem with e | h
        · exact absurd e.symm hb
        · exact h
      have ih2 := ih hnd.2 hmem2
      rw [storeEntries, if_neg hb]
      by_cases hT : b.owner ∈ T
      · have hk : List.filter (fun d => decide (d.owner ∉ T)) (b :: storeEntries bs t es) =
            List.filter (fun d => decide (d.owner ∉ T)) (storeEntries bs t es) := by
          simp [List.filter_cons, hT]
        have hd : List.filter (fun d => decide (d.owner ∉ t :: T)) (b :: bs) =
            List.filter (fun d => decide (d.owner ∉ t :: T)) bs := by
          simp [List.filter_cons, hT]
        rw [hk, hd]
        exact ih2
      · have hk : List.filter (fun d => decide (d.owner ∉ T)) (b :: storeEntries bs t es) =
            b :: List.filter (fun d => decide (d.owner ∉ T)) (storeEntries bs t es) := by
          simp [List.filter_cons, hT]
        have hd : List.filter (fun d => decide (d.owner ∉ t :: T)) (b :: bs) =
            b :: List.filter (fun d => decide (d.owner ∉ t :: T)) bs := by
          simp [List.filter_cons, hT, hb]
        rw [hk, hd, heldAt_cons, heldAt_cons]
        refine (List.Perm.append_left _ ih2).trans ?_
        rw [← List.append_assoc, ← List.append_assoc]
        exact List.Perm.append_right _ List.perm_append_comm

theorem head_Reset (s s1 : StaticMeta) (t id v : Nat) (h : Reset s t id v = some s1) :
    s1.head_ = storeEntries (GetThreadLocal s t).head_ t
      ((entriesOf (growFor s t id) t).set id v) := by
  unfold Reset at h
  simp only at h
  split at h
  · cases h
    unfold growFor
    simp only
    split
    · simp only [withEntries, storeEntries_storeEntries]
    · simp only [withEntries]
  · cases h

theorem owners_GetThreadLocal (s : StaticMeta) (t : Nat) :
    t ∈ (GetThreadLocal s t).head_.map ThreadData.owner ∧
    (OneBlockPerThread s → OneBlockPerThread (GetThreadLocal s t)) ∧
    ∀ T : List Nat, (GetThreadLocal s t).head_.filter (fun d => decide (d.owner ∉ t :: T)) =
      s.head_.filter (fun d => decide (d.owner ∉ t :: T)) := by
  have hm : t ∈ (GetThreadLocal s t).head_.map ThreadData.owner :=
    (find_isSome_iff_mem_owners _ t).1 (tls_GetThreadLocal_ne_none s t)
  refine ⟨hm, ?_, ?_⟩
  · intro hw
    unfold GetThreadLocal
    cases h : tls_ s t with
    | some d => exact hw
    | none =>
      have hn : t ∉ s.head_.map ThreadData.owner := by
        intro hin
        exact (find_isSome_iff_mem_owners _ t).2 hin h
      unfold OneBlockPerThread at hw ⊢
      simp only [AddThreadData, List.map_append, List.map_cons, List.map_nil]
      rw [List.nodup_append]
      refine ⟨hw, List.nodup_singleton _, ?_⟩
      intro a ha hb
      rw [List.mem_singleton] at hb
      subst hb
      exact hn ha
  · intro T
    unfold GetThreadLocal
    cases h : tls_ s t with
    | some d => rfl
    | none => simp [AddThreadData, List.filter_append]

theorem Reset_held (S : Nat) (s s1 : StaticMeta) (t v : Nat) (T : List Nat)
    (hS : S + 1 < U32) (hw : OneBlockPerThread s) (hv : v ≠ 0) (ht : t ∉ T)
    (h : Reset s t S v = some s1) :
    OneBlockPerThread s1 ∧
    (heldAt S (s1.head_.filter (fun d => decide (d.owner ∉ T)))).Perm
      (v :: heldAt S (s.head_.filter (fun d => decide (d.owner ∉ t :: T)))) := by
  have hh := head_Reset s s1 t S v h
  obtain ⟨hm, hwf, hfilt⟩ := owners_GetThreadLocal s t
  constructor
  · unfold OneBlockPerThread
    rw [hh, owners_storeEntries]
    exact hwf hw
  · rw [hh]
    have hp := heldAt_filter_store S T t ((entriesOf (growFor s t S) t).set S v)
      (GetThreadLocal s t).head_ (hwf hw) hm ht
    have hc := covers_growFor s t S hS
    have hval : ((entriesOf (growFor s t S) t).set S v).getD S 0 = v := by
      simp [List.getD_eq_getElem?_getD, hc]
    rw [hval, if_pos hv, hfilt T] at hp
    exact hp

theorem resetAll_held (S : Nat) (hS : S + 1 < U32) (ws : List (Nat × Nat)) :
    ∀ s : StaticMeta, OneBlockPerThread s → (ws.map Prod.fst).Nodup →
      (∀ w ∈ ws, w.2 ≠ 0) →
      ∃ s1, resetAll s S ws = some s1 ∧
        (heldAt S s1.head_).Perm
          (ws.map Prod.snd ++
            heldAt S (s.head_.filter (fun d => decide (d.owner ∉ ws.map Prod.fst)))) := by
  induction ws with
  | nil =>
    intro s _ _ _
    exact ⟨s, rfl, by simp⟩
  | cons w ws ih =>
    intro s hw hT hV
    obtain ⟨s0, hs0, _⟩ := Reset_Get_aux S s w.1 w.2 hS
    rw [List.map_cons, List.nodup_cons] at hT
    obtain ⟨hw0, hp0⟩ := Reset_held S s s0 w.1 w.2 (ws.map Prod.fst) hS hw
      (hV w (List.mem_cons_self _ _)) hT.1 hs0
    obtain ⟨s1, hs1, hp1⟩ := ih s0 hw0 hT.2 (fun x hx => hV x (List.mem_cons_of_mem _ hx))
    refine ⟨s1, ?_, ?_⟩
    · simp [resetAll, hs0, hs1]
    · refine hp1.trans ?_
      refine (List.Perm.append_left _ hp0).trans ?_
      simp only [List.map_cons]
      exact List.perm_middle

theorem tls_Scrape (s : StaticMeta) (id r t : Nat) (ptrs : List Nat) :
    tls_ (Scrape s id ptrs r).1 t = (tls_ s t).map (exchanged id r) := by
  simp only [tls_, Scrape, scrapeLoop_blocks]
  induction s.head_ with
  | nil => rfl
  | cons b bs ih =>
    have ho : (exchanged id r b).owner = b.owner := by
      unfold exchanged
      split <;> rfl
    by_cases hb : b.owner = t
    · simp [List.find?_cons, ho, hb]
    · simp [List.find?_cons, ho, hb, ih]

theorem Get_after_Scrape (s : StaticMeta) (id r t : Nat) (ptrs : List Nat) :
    (Get (Scrape s id ptrs r).1 t id).1 =
      if id < (entriesOf s t).length then r else 0 := by
  rw [Get_fst]
  unfold entriesOf
  rw [tls_Scrape]
  cases h : tls_ s t with
  | none => simp
  | some d =>
    have := entryAt_exchanged id r d
    simp only [entryAt] at this
    simpa using this

/-! ## Frame facts: which operations leave the identifier bookkeeping alone -/

theorem ids_GetThreadLocal (s : StaticMeta) (t : Nat) :
    (GetThreadLocal s t).next_instance_id_ = s.next_instance_id_ ∧
    (GetThreadLocal s t).free_instance_ids_ = s.free_instance_ids_ := by
  unfold GetThreadLocal
  cases tls_ s t <;> exact ⟨rfl, rfl⟩

theorem ids_growFor (s : StaticMeta) (t id : Nat) :
    (growFor s t id).next_instance_id_ = s.next_instance_id_ ∧
    (growFor s t id).free_instance_ids_ = s.free_instance_ids_ := by
  unfold growFor
  simp only
  split
  · exact ids_GetThreadLocal s t
  · exact ids_GetThreadLocal s t

theorem Reset_eq (s r : StaticMeta) (t id v : Nat) (h : Reset s t id v = some r) :
    r = withEntries (growFor s t id) t ((entriesOf (growFor s t id) t).set id v) := by
  unfold Reset at h
  simp only at h
  split at h
  · cases h
    rfl
  · cases h

theorem Swap_eq (s r : StaticMeta) (t id v old : Nat) (h : Swap s t id v = some (old, r)) :
    r = withEntries (growFor s t id) t ((entriesOf (growFor s t id) t).set id v) := by
  unfold Swap at h
  simp only at h
  split at h
  · cases h
    rfl
  · cases h

theorem CompareAndSwap_eq (s r : StaticMeta) (t id v e e1 : Nat) (b : Bool)
    (h : CompareAndSwap s t id v e = some (b, e1, r)) :
    r = withEntries (growFor s t id) t ((entriesOf (growFor s t id) t).set id v) ∨
    r = growFor s t id := by
  unfold CompareAndSwap at h
  simp only at h
  split at h
  · split at h
    · cases h
      exact Or.inl rfl
    · cases h
      exact Or.inr rfl
  · cases h

theorem ids_threadExit (s : StaticMeta) (t : Nat) :
    (threadExit s t).next_instance_id_ = s.next_instance_id_ ∧
    (threadExit s t).free_instance_ids_ = s.free_instance_ids_ := by
  unfold threadExit
  cases tls_ s t <;> exact ⟨rfl, rfl⟩

theorem ids_ctor (s : StaticMeta) (handler : Nat) :
    (ThreadLocalPtr_ctor s handler).1 = (GetId s).1 ∧
    (ThreadLocalPtr_ctor s handler).2.next_instance_id_ = (GetId s).2.next_instance_id_ ∧
    (ThreadLocalPtr_ctor s handler).2.free_instance_ids_ = (GetId s).2.free_instance_ids_ ∧
    (ThreadLocalPtr_ctor s handler).2.head_ = s.head_ := by
  unfold ThreadLocalPtr_ctor
  simp only
  split
  · refine ⟨rfl, rfl, rfl, ?_⟩
    unfold SetHandler GetId
    split <;> rfl
  · refine ⟨rfl, rfl, rfl, ?_⟩
    unfold GetId
    split <;> rfl

theorem IdsOk_frame (cap : Nat) (x : Sys) (r : StaticMeta) (h : IdsOk cap x)
    (h1 : r.next_instance_id_ = x.reg.next_instance_id_)
    (h2 : r.free_instance_ids_ = x.reg.free_instance_ids_) : IdsOk cap ⟨r, x.live⟩ := by
  obtain ⟨a, b, c, d, e, f, g⟩ := h
  constructor <;> simp only [h1, h2] <;> assumption

theorem IdsOk_create (cap : Nat) (hcap : cap < U32) (x : Sys) (handler : Nat)
    (h : IdsOk cap x) (hl : x.live.length < cap) :
    IdsOk cap ⟨(ThreadLocalPtr_ctor x.reg handler).2,
      (ThreadLocalPtr_ctor x.reg handler).1 :: x.live⟩ := by
  obtain ⟨h1, h2, h3, h4, h5, h6, h7⟩ := h
  obtain ⟨e1, e2, e3, _⟩ := ids_ctor x.reg handler
  rcases List.eq_nil_or_concat x.reg.free_instance_ids_ with hf | ⟨l, a, hf⟩
  · have g1 : (GetId x.reg).1 = x.reg.next_instance_id_ := by simp [GetId, hf]
    have g2 : (GetId x.reg).2.next_instance_id_ = x.reg.next_instance_id_ + 1 := by
      simp only [GetId, hf, List.getLast?_nil]
      rw [hf, List.length_nil] at h6
      exact Nat.mod_eq_of_lt (by omega)
    have g3 : (GetId x.reg).2.free_instance_ids_ = [] := by simp [GetId, hf]
    rw [hf, List.length_nil] at h6
    constructor <;> simp only [e1, e2, e3, g1, g2, g3]
    · exact List.nodup_cons.2 ⟨fun hm => Nat.lt_irrefl _ (h4 _ hm), h1⟩
    · exact List.nodup_nil
    · intro id hid
      cases hid
    · intro id hid
      rcases List.mem_cons.1 hid with e | hm
      · omega
      · exact Nat.lt_succ_of_lt (h4 id hm)
    · intro id hid
      cases hid
    · simp only [List.length_cons, List.length_nil]
      omega
    · omega
  · rw [List.concat_eq_append] at hf
    have g1 : (GetId x.reg).1 = a := by simp [GetId, hf]
    have g2 : (GetId x.reg).2.next_instance_id_ = x.reg.next_instance_id_ := by
      simp [GetId, hf]
    have g3 : (GetId x.reg).2.free_instance_ids_ = l := by simp [GetId, hf]
    rw [hf] at h2 h3 h5 h6
    have hnd := List.nodup_append.1 h2
    constructor <;> simp only [e1, e2, e3, g1, g2, g3]
    · exact List.nodup_cons.2 ⟨h3 a (by simp), h1⟩
    · exact hnd.1
    · intro id hid hm
      rcases List.mem_cons.1 hm with e | hm2
      · subst e
        exact hnd.2.2 hid (by simp)
      · exact h3 id (by simp [hid]) hm2
    · intro id hid
      rcases List.mem_cons.1 hid with e | hm
      · subst e
        exact h5 id (by simp)
      · exact h4 id hm
    · intro id hid
      exact h5 id (by simp [hid])
    · simp only [List.length_cons, List.length_append, List.length_nil] at h6 ⊢
      omega
    · exact h7

theorem IdsOk_destroy (cap : Nat) (x : Sys) (id : Nat) (h : IdsOk cap x) (hl : id ∈ x.live) :
    IdsOk cap ⟨ThreadLocalPtr_dtor x.reg id, x.live.erase id⟩ := by
  obtain ⟨h1, h2, h3, h4, h5, h6, h7⟩ := h
  have hnot : id ∉ x.reg.free_instance_ids_ := fun hm => h3 id hm hl
  constructor <;> simp only [ThreadLocalPtr_dtor, ReclaimId]
  · exact h1.erase id
  · rw [List.nodup_append]
    refine ⟨h2, List.nodup_singleton _, ?_⟩
    intro a ha hb
    rw [List.mem_singleton] at hb
    subst hb
    exact hnot ha
  · intro j hj hm
    rcases List.mem_append.1 hj with hf | hs
    · exact h3 j hf (List.mem_of_mem_erase hm)
    · rw [List.mem_singleton] at hs
      subst hs
      exact (h1.mem_erase_iff.1 hm).1 rfl
  · intro j hj
    exact h4 j (List.mem_of_mem_erase hj)
  · intro j hj
    rcases List.mem_append.1 hj with hf | hs
    · exact h5 j hf
    · rw [List.mem_singleton] at hs
      subst hs
      exact h4 _ hl
  · rw [List.length_erase_of_mem hl, List.length_append, List.length_singleton]
    have : 0 < x.live.length := List.length_pos_of_mem hl
    omega
  · exact h7

/-- In every state reachable with fewer than `2^32` handles alive at once the
identifier bookkeeping is sound. -/
theorem Reach_IdsOk (cap : Nat) (hcap : cap < U32) (x : Sys) (h : Reach cap x) :
    IdsOk cap x := by
  induction h with
  | init =>
    constructor <;> simp [StaticMeta.fresh]
  | create x handler _ hl ih => exact IdsOk_create cap hcap x handler ih hl
  | destroy x id _ hl ih => exact IdsOk_destroy cap x id ih hl
  | get x t id _ _ ih =>
    have e : (Get x.reg t id).2 = GetThreadLocal x.reg t := by
      unfold Get
      simp only
      split <;> rfl
    rw [e]
    exact IdsOk_frame cap x _ ih (ids_GetThreadLocal _ _).1 (ids_GetThreadLocal _ _).2
  | reset x t id v r _ _ hr ih =>
    rw [Reset_eq _ _ _ _ _ hr]
    exact IdsOk_frame cap x _ ih (ids_growFor _ _ _).1 (ids_growFor _ _ _).2
  | swap x t id v old r _ _ hr ih =>
    rw [Swap_eq _ _ _ _ _ _ hr]
    exact IdsOk_frame cap x _ ih (ids_growFor _ _ _).1 (ids_growFor _ _ _).2
  | cas x t id v e e1 b r _ _ hr ih =>
    rcases CompareAndSwap_eq _ _ _ _ _ _ _ _ hr with hh | hh
    · rw [hh]
      exact IdsOk_frame cap x _ ih (ids_growFor _ _ _).1 (ids_growFor _ _ _).2
    · rw [hh]
      exact IdsOk_frame cap x _ ih (ids_growFor _ _ _).1 (ids_growFor _ _ _).2
  | scrape x id replacement ptrs _ _ ih => exact IdsOk_frame cap x _ ih rfl rfl
  | exit x t _ ih =>
    exact IdsOk_frame cap x _ ih (ids_threadExit _ _).1 (ids_threadExit _ _).2

theorem GetId_fst_not_live (cap : Nat) (x : Sys) (h : IdsOk cap x) :
    (GetId x.reg).1 ∉ x.live := by
  rcases List.eq_nil_or_concat x.reg.free_instance_ids_ with hf | ⟨l, a, hf⟩
  · have g1 : (GetId x.reg).1 = x.reg.next_instance_id_ := by simp [GetId, hf]
    rw [g1]
    exact fun hm => Nat.lt_irrefl _ (h.live_lt _ hm)
  · rw [List.concat_eq_append] at hf
    have g1 : (GetId x.reg).1 = a := by simp [GetId, hf]
    rw [g1]
    exact h.disjoint a (by simp [hf])

/-! ## The state after many constructions -/

theorem createMany_reg (n : Nat) :
    (createMany n).reg = ⟨n % U32, [], [], [], []⟩ := by
  induction n with
  | zero => rfl
  | succ n ih =>
    simp only [createMany, ThreadLocalPtr_ctor, ih, GetId]
    simp [Nat.add_mod]

theorem createMany_live_succ (n : Nat) :
    (createMany (n + 1)).live = (n % U32) :: (createMany n).live := by
  simp only [createMany, ThreadLocalPtr_ctor, createMany_reg, GetId]
  simp

theorem createMany_length (n : Nat) : (createMany n).live.length = n := by
  induction n with
  | zero => rfl
  | succ n ih => rw [createMany_live_succ, List.length_cons, ih]

theorem zero_mem_createMany (n : Nat) : 0 ∈ (createMany (n + 1)).live := by
  induction n with
  | zero =>
    rw [createMany_live_succ]
    simp
  | succ n ih =>
    rw [createMany_live_succ]
    exact List.mem_cons_of_mem _ ih

theorem Reach_createMany (cap n : Nat) (h : n ≤ cap) : Reach cap (createMany n) := by
  induction n with
  | zero => exact Reach.init
  | succ n ih =>
    have hr := ih (Nat.le_of_succ_le h)
    have hl : (createMany n).live.length < cap := by
      rw [createMany_length]
      exact h
    exact Reach.create (createMany n) 0 hr hl

theorem createMany_wrapped_reg : (createMany 4294967296).reg = StaticMeta.fresh := by
  rw [createMany_reg]
  rfl

theorem last_mem_createMany : 4294967295 ∈ (createMany 4294967296).live := by
  have e : (4294967296 : Nat) = 4294967295 + 1 := rfl
  rw [e, createMany_live_succ]
  exact List.mem_cons_self _ _

/-! ## Slots that hold nothing -/

theorem NullAt_GetThreadLocal (id : Nat) (s : StaticMeta) (t : Nat) (h : NullAt id s.head_) :
    NullAt id (GetThreadLocal s t).head_ := by
  unfold GetThreadLocal
  cases tls_ s t with
  | some d => exact h
  | none =>
    intro d hd
    rcases List.mem_append.1 hd with h1 | h1
    · exact h d h1
    · rw [List.mem_singleton] at h1
      subst h1
      rfl

theorem mem_storeEntries (bs : List ThreadData) (t : Nat) (es : List Nat) (d : ThreadData)
    (h : d ∈ storeEntries bs t es) : d ∈ bs ∨ d.entries = es := by
  induction bs with
  | nil => cases h
  | cons b bs ih =>
    by_cases hb : b.owner = t
    · rw [storeEntries, if_pos hb] at h
      rcases List.mem_cons.1 h with e | hm
      · exact Or.inr (by rw [e])
      · exact Or.inl (List.mem_cons_of_mem _ hm)
    · rw [storeEntries, if_neg hb] at h
      rcases List.mem_cons.1 h with e | hm
      · exact Or.inl (by rw [e]; exact List.mem_cons_self _ _)
      · rcases ih hm with h1 | h1
        · exact Or.inl (List.mem_cons_of_mem _ h1)
        · exact Or.inr h1

theorem NullAt_storeEntries (id : Nat) (bs : List ThreadData) (t : Nat) (es : List Nat)
    (h : NullAt id bs) (he : es.getD id 0 = 0) : NullAt id (storeEntries bs t es) := by
  intro d hd
  rcases mem_storeEntries bs t es d hd with h1 | h1
  · exact h d h1
  · rw [h1]
    exact he

theorem getD_entriesOf_of_NullAt (id : Nat) (s : StaticMeta) (t : Nat)
    (h : NullAt id s.head_) : (entriesOf s t).getD id 0 = 0 := by
  unfold entriesOf
  cases hd : tls_ s t with
  | none => rfl
  | some d => exact h d (List.mem_of_find?_eq_some hd)

theorem getD_resize_null (es : List Nat) (n id : Nat) (h : es.getD id 0 = 0) :
    (resize es n).getD id 0 = 0 := by
  unfold resize
  simp only [List.getD_eq_getElem?_getD] at h ⊢
  by_cases h1 : id < (es.take n).length
  · rw [List.getElem?_append_left h1]
    rw [List.length_take] at h1
    rw [List.getElem?_take_of_lt (by omega)]
    exact h
  · rw [List.getElem?_append_right (by omega), List.getElem?_replicate]
    split <;> rfl

theorem NullAt_growFor (id : Nat) (s : StaticMeta) (t id0 : Nat) (h : NullAt id s.head_) :
    NullAt id (growFor s t id0).head_ := by
  have hg := NullAt_GetThreadLocal id s t h
  unfold growFor
  simp only
  split
  · apply NullAt_storeEntries _ _ _ _ hg
    apply getD_resize_null
    exact getD_entriesOf_of_NullAt id _ t hg
  · exact hg

theorem NullAt_stored (id id0 : Nat) (s : StaticMeta) (t v : Nat) (hne : id ≠ id0)
    (h : NullAt id s.head_) :
    NullAt id
      (withEntries (growFor s t id0) t ((entriesOf (growFor s t id0) t).set id0 v)).head_ := by
  have hg := NullAt_growFor id s t id0 h
  apply NullAt_storeEntries _ _ _ _ hg
  have h0 := getD_entriesOf_of_NullAt id _ t hg
  simp only [List.getD_eq_getElem?_getD] at h0 ⊢
  rw [List.getElem?_set_ne (fun e => hne e.symm)]
  exact h0

theorem NullAt_exchanged_other (id id0 r : Nat) (bs : List ThreadData) (hne : id ≠ id0)
    (h : NullAt id bs) : NullAt id (bs.map (exchanged id0 r)) := by
  intro d hd
  obtain ⟨b, hb, rfl⟩ := List.mem_map.1 hd
  have h0 := h b hb
  unfold exchanged
  split
  · simp only [List.getD_eq_getElem?_getD] at h0 ⊢
    rw [List.getElem?_set_ne (fun e => hne e.symm)]
    exact h0
  · exact h0

theorem NullAt_exchanged_self (id : Nat) (bs : List ThreadData) :
    NullAt id (bs.map (exchanged id 0)) := by
  intro d hd
  obtain ⟨b, _, rfl⟩ := List.mem_map.1 hd
  have := entryAt_exchanged id 0 b
  simp only [entryAt] at this
  rw [this]
  split <;> rfl

theorem unlink_subset (bs : List ThreadData) (t : Nat) (d : ThreadData)
    (h : d ∈ unlink bs t) : d ∈ bs := by
  induction bs with
  | nil => cases h
  | cons b bs ih =>
    by_cases hb : b.owner = t
    · rw [unlink, if_pos hb] at h
      exact List.mem_cons_of_mem _ h
    · rw [unlink, if_neg hb] at h
      rcases List.mem_cons.1 h with e | hm
      · rw [e]
        exact List.mem_cons_self _ _
      · exact List.mem_cons_of_mem _ (ih hm)

theorem NullAt_threadExit (id : Nat) (s : StaticMeta) (t : Nat) (h : NullAt id s.head_) :
    NullAt id (threadExit s t).head_ := by
  unfold threadExit
  cases tls_ s t with
  | none => exact h
  | some d =>
    intro b hb
    exact h b (unlink_subset _ _ _ hb)

theorem GetId_unissued (cap : Nat) (hcap : cap < U32) (x : Sys) (h : IdsOk cap x)
    (hl : x.live.length < cap) (id : Nat)
    (hid : id ∈ (GetId x.reg).2.free_instance_ids_ ∨ (GetId x.reg).2.next_instance_id_ ≤ id) :
    id ∈ x.reg.free_instance_ids_ ∨ x.reg.next_instance_id_ ≤ id := by
  have h6 := h.count
  rcases List.eq_nil_or_concat x.reg.free_instance_ids_ with hf | ⟨l, a, hf⟩
  · have g2 : (GetId x.reg).2.next_instance_id_ = x.reg.next_instance_id_ + 1 := by
      simp only [GetId, hf, List.getLast?_nil]
      rw [hf, List.length_nil] at h6
      exact Nat.mod_eq_of_lt (by omega)
    have g3 : (GetId x.reg).2.free_instance_ids_ = [] := by simp [GetId, hf]
    rw [g2, g3] at hid
    rcases hid with h1 | h1
    · cases h1
    · exact Or.inr (by omega)
  · rw [List.concat_eq_append] at hf
    have g2 : (GetId x.reg).2.next_instance_id_ = x.reg.next_instance_id_ := by
      simp [GetId, hf]
    have g3 : (GetId x.reg).2.free_instance_ids_ = l := by simp [GetId, hf]
    rw [g2, g3] at hid
    rcases hid with h1 | h1
    · exact Or.inl (by simp [hf, h1])
    · exact Or.inr h1

theorem GetId_fst_unissued (s : StaticMeta) :
    (GetId s).1 ∈ s.free_instance_ids_ ∨ s.next_instance_id_ ≤ (GetId s).1 := by
  rcases List.eq_nil_or_concat s.free_instance_ids_ with hf | ⟨l, a, hf⟩
  · exact Or.inr (by simp [GetId, hf])
  · rw [List.concat_eq_append] at hf
    exact Or.inl (by simp [GetId, hf])

/-- In every state reachable with fewer than `2^32` handles alive at once, a
slot that is in the free list or was not yet issued holds nothing in any block. -/
theorem Reach_clean (cap : Nat) (hcap : cap < U32) (x : Sys) (h : Reach cap x) :
    ∀ id, (id ∈ x.reg.free_instance_ids_ ∨ x.reg.next_instance_id_ ≤ id) →
      NullAt id x.reg.head_ := by
  induction h with
  | init =>
    intro id _ d hd
    cases hd
  | create x handler hx hl ih =>
    intro id hid
    obtain ⟨_, e2, e3, e4⟩ := ids_ctor x.reg handler
    simp only [e2, e3, e4] at hid ⊢
    exact ih id (GetId_unissued cap hcap x (Reach_IdsOk cap hcap x hx) hl id hid)
  | destroy x id0 hx hl ih =>
    intro id hid
    have hb : (ThreadLocalPtr_dtor x.reg id0).head_ = x.reg.head_.map (exchanged id0 0) := by
      simp [ThreadLocalPtr_dtor, ReclaimId, reclaimLoop_blocks]
    rw [hb]
    by_cases he : id = id0
    · rw [he]
      exact NullAt_exchanged_self id0 _
    · apply NullAt_exchanged_other id id0 0 _ he
      apply ih
      simp only [ThreadLocalPtr_dtor, ReclaimId, List.mem_append, List.mem_singleton] at hid
      rcases hid with (h1 | h1) | h1
      · exact Or.inl h1
      · exact absurd h1 he
      · exact Or.inr h1
  | get x t id0 _ _ ih =>
    intro id hid
    have e : (Get x.reg t id0).2 = GetThreadLocal x.reg t := by
      unfold Get
      simp only
      split <;> rfl
    simp only [e] at hid ⊢
    rw [(ids_GetThreadLocal _ _).1, (ids_GetThreadLocal _ _).2] at hid
    exact NullAt_GetThreadLocal id _ t (ih id hid)
  | reset x t id0 v r hx hl hr ih =>
    intro id hid
    have hi := Reach_IdsOk cap hcap x hx
    rw [Reset_eq _ _ _ _ _ hr] at hid ⊢
    have hid2 : id ∈ x.reg.free_instance_ids_ ∨ x.reg.next_instance_id_ ≤ id := by
      simpa only [withEntries, (ids_growFor _ _ _).1, (ids_growFor _ _ _).2] using hid
    have hne : id ≠ id0 := by
      rintro rfl
      rcases hid2 with h1 | h1
      · exact hi.disjoint _ h1 hl
      · exact Nat.lt_irrefl _ (Nat.lt_of_lt_of_le (hi.live_lt _ hl) h1)
    exact NullAt_stored id id0 _ t v hne (ih id hid2)
  | swap x t id0 v old r hx hl hr ih =>
    intro id hid
    have hi := Reach_IdsOk cap hcap x hx
    rw [Swap_eq _ _ _ _ _ _ hr] at hid ⊢
    have hid2 : id ∈ x.reg.free_instance_ids_ ∨ x.reg.next_instance_id_ ≤ id := by
      simpa only [withEntries, (ids_growFor _ _ _).1, (ids_growFor _ _ _).2] using hid
    have hne : id ≠ id0 := by
      rintro rfl
      rcases hid2 with h1 | h1
      · exact hi.disjoint _ h1 hl
      · exact Nat.lt_irrefl _ (Nat.lt_of_lt_of_le (hi.live_lt _ hl) h1)
    exact NullAt_stored id id0 _ t v hne (ih id hid2)
  | cas x t id0 v e e1 b r hx hl hr ih =>
    intro id hid
    have hi := Reach_IdsOk cap hcap x hx
    rcases CompareAndSwap_eq _ _ _ _ _ _ _ _ hr with hh | hh
    · rw [hh] at hid ⊢
      have hid2 : id ∈ x.reg.free_instance_ids_ ∨ x.reg.next_instance_id_ ≤ id := by
        simpa only [withEntries, (ids_growFor _ _ _).1, (ids_growFor _ _ _).2] using hid
      have hne : id ≠ id0 := by
        rintro rfl
        rcases hid2 with h1 | h1
        · exact hi.disjoint _ h1 hl
        · exact Nat.lt_irrefl _ (Nat.lt_of_lt_of_le (hi.live_lt _ hl) h1)
      exact NullAt_stored id id0 _ t v hne (ih id hid2)
    · rw [hh] at hid ⊢
      have hid2 : id ∈ x.reg.free_instance_ids_ ∨ x.reg.next_instance_id_ ≤ id := by
        simpa only [(ids_growFor _ _ _).1, (ids_growFor _ _ _).2] using hid
      exact NullAt_growFor id _ t id0 (ih id hid2)
  | scrape x id0 replacement ptrs hx hl ih =>
    intro id hid
    have hi := Reach_IdsOk cap hcap x hx
    have hid2 : id ∈ x.reg.free_instance_ids_ ∨ x.reg.next_instance_id_ ≤ id := hid
    have hne : id ≠ id0 := by
      rintro rfl
      rcases hid2 with h1 | h1
      · exact hi.disjoint _ h1 hl
      · exact Nat.lt_irrefl _ (Nat.lt_of_lt_of_le (hi.live_lt _ hl) h1)
    have hb : (Scrape x.reg id0 ptrs replacement).1.head_ =
        x.reg.head_.map (exchanged id0 replacement) := by
      simp [Scrape, scrapeLoop_blocks]
    rw [hb]
    exact NullAt_exchanged_other id id0 replacement _ hne (ih id hid2)
  | exit x t _ ih =>
    intro id hid
    rw [(ids_threadExit _ _).1, (ids_threadExit _ _).2] at hid
    exact NullAt_threadExit id _ t (ih id hid)

/-! ## The accessors of one thread -/

theorem tls_growFor_other (s : StaticMeta) (t u id : Nat) (hu : u ≠ t) :
    tls_ (growFor s t id) u = tls_ s u := by
  unfold growFor
  simp only
  split
  · rw [tls_withEntries_other _ _ _ _ hu, tls_GetThreadLocal_other _ _ _ hu]
  · exact tls_GetThreadLocal_other _ _ _ hu

theorem tls_stored_other (s : StaticMeta) (t u id : Nat) (es : List Nat) (hu : u ≠ t) :
    tls_ (withEntries (growFor s t id) t es) u = tls_ s u := by
  rw [tls_withEntries_other _ _ _ _ hu, tls_growFor_other _ _ _ _ hu]

theorem Get_fst_of_tls (s r : StaticMeta) (u : Nat) (h : tls_ r u = tls_ s u) (j : Nat) :
    (Get r u j).1 = (Get s u j).1 := by
  rw [Get_fst, Get_fst]
  unfold entriesOf
  rw [h]

theorem getD_growFor_of_covers (s : StaticMeta) (t id j : Nat)
    (hc : id < (entriesOf (growFor s t id) t).length) :
    (entriesOf (growFor s t id) t).getD j 0 = (entriesOf s t).getD j 0 := by
  rw [entriesOf_growFor] at hc ⊢
  split
  · rename_i h
    rw [if_pos h, length_resize] at hc
    have hle : (id + 1) % U32 ≤ id + 1 := Nat.mod_le _ _
    have he : (id + 1) % U32 = id + 1 := by omega
    rw [he]
    exact getD_resize _ _ _ (by omega)
  · rfl

theorem Get_growFor (s : StaticMeta) (t id : Nat)
    (hc : id < (entriesOf (growFor s t id) t).length) :
    (Get (growFor s t id) t id).1 = (Get s t id).1 := by
  rw [Get_fst, Get_fst, getD_growFor_of_covers s t id id hc]

/-! ## Shape of the list of blocks in reachable states -/

theorem mem_storeEntries_owner (bs : List ThreadData) (t : Nat) (es : List Nat)
    (d : ThreadData) (h : d ∈ storeEntries bs t es) :
    d ∈ bs ∨ (d.owner = t ∧ d.entries = es) := by
  induction bs with
  | nil => cases h
  | cons b bs ih =>
    by_cases hb : b.owner = t
    · rw [storeEntries, if_pos hb] at h
      rcases List.mem_cons.1 h with e | hm
      · exact Or.inr (by rw [e]; exact ⟨hb, rfl⟩)
      · exact Or.inl (List.mem_cons_of_mem _ hm)
    · rw [storeEntries, if_neg hb] at h
      rcases List.mem_cons.1 h with e | hm
      · exact Or.inl (by rw [e]; exact List.mem_cons_self _ _)
      · rcases ih hm with h1 | h1
        · exact Or.inl (List.mem_cons_of_mem _ h1)
        · exact Or.inr h1

theorem mem_GetThreadLocal (s : StaticMeta) (t : Nat) (d : ThreadData)
    (h : d ∈ (GetThreadLocal s t).head_) : d ∈ s.head_ ∨ d = ⟨t, []⟩ := by
  unfold GetThreadLocal at h
  cases ht : tls_ s t with
  | some e =>
    rw [ht] at h
    exact Or.inl h
  | none =>
    rw [ht] at h
    rcases List.mem_append.1 h with h1 | h1
    · exact Or.inl h1
    · exact Or.inr (List.mem_singleton.1 h1)

theorem tls_mem (s : StaticMeta) (t : Nat) (d : ThreadData) (h : tls_ s t = some d) :
    d ∈ s.head_ ∧ d.owner = t := by
  unfold tls_ at h
  exact ⟨List.mem_of_find?_eq_some h, by simpa using List.find?_some h⟩

theorem owners_growFor (s : StaticMeta) (t id : Nat) :
    (growFor s t id).head_.map ThreadData.owner =
      (GetThreadLocal s t).head_.map ThreadData.owner := by
  unfold growFor
  simp only
  split
  · simp only [withEntries, owners_storeEntries]
  · rfl

theorem OneBlockPerThread_growFor (s : StaticMeta) (t id : Nat) (h : OneBlockPerThread s) :
    OneBlockPerThread (growFor s t id) := by
  unfold OneBlockPerThread
  rw [owners_growFor]
  exact (owners_GetThreadLocal s t).2.1 h

theorem OneBlockPerThread_stored (s : StaticMeta) (t id : Nat) (es : List Nat)
    (h : OneBlockPerThread s) : OneBlockPerThread (withEntries (growFor s t id) t es) := by
  unfold OneBlockPerThread
  simp only [withEntries, owners_storeEntries]
  exact OneBlockPerThread_growFor s t id h

theorem Short_GetThreadLocal (s : StaticMeta) (t : Nat) (h : Short s) :
    Short (GetThreadLocal s t) := by
  intro d hd
  rcases mem_GetThreadLocal s t d hd with h1 | h1
  · exact h d h1
  · rw [h1]
    exact (by decide : (0 : Nat) < U32)

theorem length_entriesOf_lt (s : StaticMeta) (t : Nat) (h : Short s) :
    (entriesOf s t).length < U32 := by
  unfold entriesOf
  cases ht : tls_ s t with
  | none => decide
  | some d => exact h d (tls_mem s t d ht).1

theorem Short_growFor (s : StaticMeta) (t id : Nat) (h : Short s) : Short (growFor s t id) := by
  have hg := Short_GetThreadLocal s t h
  unfold growFor
  simp only
  split
  · intro d hd
    rcases mem_storeEntries_owner _ _ _ _ hd with h1 | h1
    · exact hg d h1
    · rw [h1.2, length_resize]
      exact Nat.mod_lt _ (by decide)
  · exact hg

theorem Short_stored (s : StaticMeta) (t id v : Nat) (h : Short s) :
    Short (withEntries (growFor s t id) t ((entriesOf (growFor s t id) t).set id v)) := by
  have hg := Short_growFor s t id h
  intro d hd
  rcases mem_storeEntries_owner _ _ _ _ hd with h1 | h1
  · exact hg d h1
  · rw [h1.2, List.length_set]
    exact length_entriesOf_lt _ t hg

theorem owner_exchanged (id v : Nat) (b : ThreadData) : (exchanged id v b).owner = b.owner := by
  unfold exchanged
  split <;> rfl

theorem length_exchanged (id v : Nat) (b : ThreadData) :
    (exchanged id v b).entries.length = b.entries.length := by
  unfold exchanged
  split
  · simp
  · rfl

theorem owners_map_exchanged (id v : Nat) (bs : List ThreadData) :
    (bs.map (exchanged id v)).map ThreadData.owner = bs.map ThreadData.owner := by
  rw [List.map_map]
  apply List.map_congr_left
  intro b _
  exact owner_exchanged id v b

theorem Short_map_exchanged (id v : Nat) (bs : List ThreadData)
    (h : ∀ d ∈ bs, d.entries.length < U32) :
    ∀ d ∈ bs.map (exchanged id v), d.entries.length < U32 := by
  intro d hd
  obtain ⟨b, hb, rfl⟩ := List.mem_map.1 hd
  rw [length_exchanged]
  exact h b hb

theorem unlink_sublist (bs : List ThreadData) (t : Nat) : (unlink bs t).Sublist bs := by
  induction bs with
  | nil => exact List.Sublist.refl _
  | cons b bs ih =>
    by_cases hb : b.owner = t
    · rw [unlink, if_pos hb]
      exact List.sublist_cons_self _ _
    · rw [unlink, if_neg hb]
      exact ih.cons₂ _

theorem head_threadExit (s : StaticMeta) (t : Nat) :
    (threadExit s t).head_ = unlink s.head_ t := by
  unfold threadExit
  cases ht : tls_ s t with
  | some d =>
    have := (tls_mem s t d ht).2
    simp [OnThreadExit, RemoveThreadData, this]
  | none =>
    simp only
    unfold tls_ at ht
    have hn : ∀ bs : List ThreadData,
        bs.find? (fun d => decide (d.owner = t)) = none → unlink bs t = bs := by
      intro bs
      induction bs with
      | nil => intro _; rfl
      | cons b bs ih =>
        intro hf
        by_cases hb : b.owner = t
        · simp [List.find?_cons, hb] at hf
        · simp only [List.find?_cons, hb, decide_False] at hf
          rw [unlink, if_neg hb, ih hf]
    exact (hn _ ht).symm

/-- In every reachable state there is one block per thread and every block is
shorter than `2^32`. -/
theorem Reach_wf (cap : Nat) (x : Sys) (h : Reach cap x) :
    OneBlockPerThread x.reg ∧ Short x.reg := by
  induction h with
  | init =>
    constructor
    · exact List.nodup_nil
    · intro d hd
      cases hd
  | create x handler _ _ ih =>
    obtain ⟨_, _, _, e4⟩ := ids_ctor x.reg handler
    constructor
    · unfold OneBlockPerThread
      rw [e4]
      exact ih.1
    · intro d hd
      rw [e4] at hd
      exact ih.2 d hd
  | destroy x id _ _ ih =>
    have hb : (ThreadLocalPtr_dtor x.reg id).head_ = x.reg.head_.map (exchanged id 0) := by
      simp [ThreadLocalPtr_dtor, ReclaimId, reclaimLoop_blocks]
    constructor
    · unfold OneBlockPerThread
      rw [hb, owners_map_exchanged]
      exact ih.1
    · intro d hd
      rw [hb] at hd
      exact Short_map_exchanged id 0 _ ih.2 d hd
  | get x t id _ _ ih =>
    have e : (Get x.reg t id).2 = GetThreadLocal x.reg t := by
      unfold Get
      simp only
      split <;> rfl
    rw [e]
    exact ⟨(owners_GetThreadLocal x.reg t).2.1 ih.1, Short_GetThreadLocal _ _ ih.2⟩
  | reset x t id v r _ _ hr ih =>
    rw [Reset_eq _ _ _ _ _ hr]
    exact ⟨OneBlockPerThread_stored _ _ _ _ ih.1, Short_stored _ _ _ _ ih.2⟩
  | swap x t id v old r _ _ hr ih =>
    rw [Swap_eq _ _ _ _ _ _ hr]
    exact ⟨OneBlockPerThread_stored _ _ _ _ ih.1, Short_stored _ _ _ _ ih.2⟩
  | cas x t id v e e1 b r _ _ hr ih =>
    rcases CompareAndSwap_eq _ _ _ _ _ _ _ _ hr with hh | hh
    · rw [hh]
      exact ⟨OneBlockPerThread_stored _ _ _ _ ih.1, Short_stored _ _ _ _ ih.2⟩
    · rw [hh]
      exact ⟨OneBlockPerThread_growFor _ _ _ ih.1, Short_growFor _ _ _ ih.2⟩
  | scrape x id replacement ptrs _ _ ih =>
    have hb : (Scrape x.reg id ptrs replacement).1.head_ =
        x.reg.head_.map (exchanged id replacement) := by
      simp [Scrape, scrapeLoop_blocks]
    constructor
    · unfold OneBlockPerThread
      rw [hb, owners_map_exchanged]
      exact ih.1
    · intro d hd
      rw [hb] at hd
      exact Short_map_exchanged id replacement _ ih.2 d hd
  | exit x t _ ih =>
    constructor
    · unfold OneBlockPerThread
      rw [head_threadExit]
      exact List.Nodup.sublist ((unlink_sublist _ t).map _) ih.1
    · intro d hd
      rw [head_threadExit] at hd
      exact ih.2 d ((unlink_sublist _ t).subset hd)

theorem exitLoop_eq (s : StaticMeta) (es : List Nat) :
    ∀ k, k + es.length ≤ U32 →
      exitLoop s es k = (List.range es.length).filterMap (fun i =>
        if es.getD i 0 ≠ 0 ∧ GetHandler s (k + i) ≠ 0
        then some (GetHandler s (k + i), es.getD i 0) else none) := by
  induction es with
  | nil =>
    intro k _
    rfl
  | cons v es ih =>
    intro k hk
    have hrest : exitLoop s es ((k + 1) % U32) = (List.range es.length).filterMap (fun i =>
        if es.getD i 0 ≠ 0 ∧ GetHandler s (k + (i + 1)) ≠ 0
        then some (GetHandler s (k + (i + 1)), es.getD i 0) else none) := by
      cases es with
      | nil => rfl
      | cons w ws =>
        simp only [List.length_cons] at hk
        have hk1 : (k + 1) % U32 = k + 1 := Nat.mod_eq_of_lt (by omega)
        rw [hk1, ih (k + 1) (by simp only [List.length_cons]; omega)]
        congr 1
        funext i
        rw [Nat.add_assoc k 1 i, Nat.add_comm 1 i]
    simp only [exitLoop, hrest, List.length_cons, List.range_succ_eq_map, List.filterMap_cons,
      List.filterMap_map, Function.comp_def, List.getD_cons_zero, Nat.add_zero,
      List.getD_cons_succ, Nat.succ_eq_add_one]
    by_cases hv : v = 0
    · simp [hv]
    · by_cases hh : GetHandler s k = 0
      · simp [hv, hh]
      · simp [hv, hh]

theorem unlink_eq_erase (bs : List ThreadData) (d : ThreadData)
    (hnd : (bs.map ThreadData.owner).Nodup) (hd : d ∈ bs) :
    unlink bs d.owner = bs.erase d := by
  induction bs with
  | nil => cases hd
  | cons b bs ih =>
    rw [List.map_cons, List.nodup_cons] at hnd
    by_cases hb : b = d
    · subst hb
      simp [unlink]
    · have hm : d ∈ bs := by
        rcases List.mem_cons.1 hd with e | hm
        · exact absurd e.symm hb
        · exact hm
      have ho : b.owner ≠ d.owner := by
        intro e
        apply hnd.1
        rw [e]
        exact List.mem_map_of_mem _ hm
      rw [unlink, if_neg ho, ih hnd.2 hm, List.erase_cons_tail]
      simpa using hb

theorem find_of_mem (bs : List ThreadData) (d : ThreadData)
    (hw : (bs.map ThreadData.owner).Nodup) (hd : d ∈ bs) :
    bs.find? (fun e => decide (e.owner = d.owner)) = some d := by
  induction bs with
  | nil => cases hd
  | cons b bs ih =>
    rw [List.map_cons, List.nodup_cons] at hw
    by_cases hb : b = d
    · subst hb
      simp [List.find?_cons]
    · have hm : d ∈ bs := by
        rcases List.mem_cons.1 hd with e | hm
        · exact absurd e.symm hb
        · exact hm
      have ho : ¬ b.owner = d.owner := by
        intro e
        apply hw.1
        rw [e]
        exact List.mem_map_of_mem _ hm
      simp only [List.find?_cons, ho, decide_False]
      exact ih hw.2 hm

theorem tls_of_mem (s : StaticMeta) (d : ThreadData) (hw : OneBlockPerThread s)
    (hd : d ∈ s.head_) : tls_ s d.owner = some d :=
  find_of_mem s.head_ d hw hd

/-! ## Handlers of identifiers that are not in use -/

theorem hm_GetThreadLocal (s : StaticMeta) (t : Nat) :
    (GetThreadLocal s t).handler_map_ = s.handler_map_ := by
  unfold GetThreadLocal
  cases tls_ s t <;> rfl

theorem hm_growFor (s : StaticMeta) (t id : Nat) :
    (growFor s t id).handler_map_ = s.handler_map_ := by
  unfold growFor
  simp only
  split
  · exact hm_GetThreadLocal s t
  · exact hm_GetThreadLocal s t

theorem hm_stored (s : StaticMeta) (t id : Nat) (es : List Nat) :
    (withEntries (growFor s t id) t es).handler_map_ = s.handler_map_ :=
  hm_growFor s t id

theorem hm_threadExit (s : StaticMeta) (t : Nat) :
    (threadExit s t).handler_map_ = s.handler_map_ := by
  unfold threadExit
  cases tls_ s t <;> rfl

theorem GetHandler_congr (s r : StaticMeta) (h : r.handler_map_ = s.handler_map_) (id : Nat) :
    GetHandler r id = GetHandler s id := by
  unfold GetHandler
  rw [h]

theorem GetId_fst_ne_unissued (cap : Nat) (hcap : cap < U32) (x : Sys) (h : IdsOk cap x)
    (hl : x.live.length < cap) (id : Nat)
    (hid : id ∈ (GetId x.reg).2.free_instance_ids_ ∨ (GetId x.reg).2.next_instance_id_ ≤ id) :
    id ≠ (GetId x.reg).1 := by
  have h6 := h.count
  rcases List.eq_nil_or_concat x.reg.free_instance_ids_ with hf | ⟨l, a, hf⟩
  · have g1 : (GetId x.reg).1 = x.reg.next_instance_id_ := by simp [GetId, hf]
    have g2 : (GetId x.reg).2.next_instance_id_ = x.reg.next_instance_id_ + 1 := by
      simp only [GetId, hf, List.getLast?_nil]
      rw [hf, List.length_nil] at h6
      exact Nat.mod_eq_of_lt (by omega)
    have g3 : (GetId x.reg).2.free_instance_ids_ = [] := by simp [GetId, hf]
    rw [g2, g3] at hid
    rw [g1]
    rcases hid with h1 | h1
    · cases h1
    · omega
  · rw [List.concat_eq_append] at hf
    have g1 : (GetId x.reg).1 = a := by simp [GetId, hf]
    have g2 : (GetId x.reg).2.next_instance_id_ = x.reg.next_instance_id_ := by
      simp [GetId, hf]
    have g3 : (GetId x.reg).2.free_instance_ids_ = l := by simp [GetId, hf]
    rw [g2, g3] at hid
    rw [g1]
    have hnd := h.free_nodup
    rw [hf] at hnd
    rcases hid with h1 | h1
    · rintro rfl
      exact (List.nodup_append.1 hnd).2.2 h1 (by simp)
    · have := h.free_lt a (by simp [hf])
      omega

theorem GetHandler_ctor_other (s : StaticMeta) (handler id : Nat)
    (hne : id ≠ (GetId s).1) :
    GetHandler (ThreadLocalPtr_ctor s handler).2 id = GetHandler s id := by
  have hg : (GetId s).2.handler_map_ = s.handler_map_ := by
    unfold GetId
    split <;> rfl
  unfold ThreadLocalPtr_ctor
  simp only
  split
  · simp only [GetHandler, SetHandler, mapFind_mapAssign_other _ _ _ _ hne, hg]
  · exact GetHandler_congr s _ hg id

/-- In every state reachable with fewer than `2^32` handles alive at once, an
identifier that is in the free list or was not yet issued has no handler. -/
theorem Reach_unbound (cap : Nat) (hcap : cap < U32) (x : Sys) (h : Reach cap x) :
    ∀ id, (id ∈ x.reg.free_instance_ids_ ∨ x.reg.next_instance_id_ ≤ id) →
      GetHandler x.reg id = 0 := by
  induction h with
  | init =>
    intro id _
    rfl
  | create x handler hx hl ih =>
    intro id hid
    have hi := Reach_IdsOk cap hcap x hx
    obtain ⟨_, e2, e3, _⟩ := ids_ctor x.reg handler
    simp only [e2, e3] at hid
    rw [GetHandler_ctor_other _ _ _ (GetId_fst_ne_unissued cap hcap x hi hl id hid)]
    exact ih id (GetId_unissued cap hcap x hi hl id hid)
  | destroy x id0 hx hl ih =>
    intro id hid
    by_cases he : id = id0
    · rw [he]
      simp [ThreadLocalPtr_dtor, ReclaimId, GetHandler, mapFind_mapAssign_self]
    · have e : GetHandler (ThreadLocalPtr_dtor x.reg id0) id = GetHandler x.reg id := by
        simp [ThreadLocalPtr_dtor, ReclaimId, GetHandler, mapFind_mapAssign_other _ _ _ _ he]
      rw [e]
      apply ih
      simp only [ThreadLocalPtr_dtor, ReclaimId, List.mem_append, List.mem_singleton] at hid
      rcases hid with (h1 | h1) | h1
      · exact Or.inl h1
      · exact absurd h1 he
      · exact Or.inr h1
  | get x t id0 _ _ ih =>
    intro id hid
    have e : (Get x.reg t id0).2 = GetThreadLocal x.reg t := by
      unfold Get
      simp only
      split <;> rfl
    simp only [e] at hid ⊢
    rw [(ids_GetThreadLocal _ _).1, (ids_GetThreadLocal _ _).2] at hid
    exact (GetHandler_congr x.reg _ (hm_GetThreadLocal _ _) id).trans (ih id hid)
  | reset x t id0 v r _ _ hr ih =>
    intro id hid
    rw [Reset_eq _ _ _ _ _ hr] at hid ⊢
    have hid2 : id ∈ x.reg.free_instance_ids_ ∨ x.reg.next_instance_id_ ≤ id := by
      simpa only [withEntries, (ids_growFor _ _ _).1, (ids_growFor _ _ _).2] using hid
    exact (GetHandler_congr x.reg _ (hm_stored _ _ _ _) id).trans (ih id hid2)
  | swap x t id0 v old r _ _ hr ih =>
    intro id hid
    rw [Swap_eq _ _ _ _ _ _ hr] at hid ⊢
    have hid2 : id ∈ x.reg.free_instance_ids_ ∨ x.reg.next_instance_id_ ≤ id := by
      simpa only [withEntries, (ids_growFor _ _ _).1, (ids_growFor _ _ _).2] using hid
    exact (GetHandler_congr x.reg _ (hm_stored _ _ _ _) id).trans (ih id hid2)
  | cas x t id0 v e e1 b r _ _ hr ih =>
    intro id hid
    rcases CompareAndSwap_eq _ _ _ _ _ _ _ _ hr with hh | hh
    · rw [hh] at hid ⊢
      have hid2 : id ∈ x.reg.free_instance_ids_ ∨ x.reg.next_instance_id_ ≤ id := by
        simpa only [withEntries, (ids_growFor _ _ _).1, (ids_growFor _ _ _).2] using hid
      exact (GetHandler_congr x.reg _ (hm_stored _ _ _ _) id).trans (ih id hid2)
    · rw [hh] at hid ⊢
      have hid2 : id ∈ x.reg.free_instance_ids_ ∨ x.reg.next_instance_id_ ≤ id := by
        simpa only [(ids_growFor _ _ _).1, (ids_growFor _ _ _).2] using hid
      exact (GetHandler_congr x.reg _ (hm_growFor _ _ _) id).trans (ih id hid2)
  | scrape x id0 replacement ptrs _ _ ih =>
    intro id hid
    exact ih id hid
  | exit x t _ ih =>
    intro id hid
    rw [(ids_threadExit _ _).1, (ids_threadExit _ _).2] at hid
    exact (GetHandler_congr x.reg _ (hm_threadExit _ _) id).trans (ih id hid)

theorem createAfter_oneHandler_reg (n : Nat) :
    (createAfter oneHandler n).reg = ⟨(1 + n) % U32, [], [(0, 9)], [], []⟩ := by
  induction n with
  | zero => rfl
  | succ n ih =>
    simp only [createAfter, ThreadLocalPtr_ctor, ih, GetId]
    simp
    unfold U32
    omega

theorem createAfter_length (x : Sys) (n : Nat) :
    (createAfter x n).live.length = x.live.length + n := by
  induction n with
  | zero => rfl
  | succ n ih =>
    simp only [createAfter, List.length_cons, ih]
    omega

theorem Reach_createAfter (cap : Nat) (x : Sys) (hx : Reach cap x) (n : Nat)
    (h : x.live.length + n ≤ cap) : Reach cap (createAfter x n) := by
  induction n with
  | zero => exact hx
  | succ n ih =>
    have hr := ih (by omega)
    have hl : (createAfter x n).live.length < cap := by
      rw [createAfter_length]
      omega
    exact Reach.create (createAfter x n) 0 hr hl

theorem Reach_threeThreads (cap : Nat) (hcap : 0 < cap) : Reach cap ⟨threeThreads, [0]⟩ :=
  Reach.reset ⟨_, [0]⟩ 3 0 13 _
    (Reach.reset ⟨_, [0]⟩ 2 0 12 _
      (Reach.reset ⟨_, [0]⟩ 1 0 11 _
        (Reach.create ⟨StaticMeta.fresh, []⟩ 9 Reach.init hcap)
        (by decide) (by decide : Reset _ 1 0 11 = some ⟨1, [], [(0, 9)], [⟨1, [11]⟩], []⟩))
      (by decide)
      (by decide : Reset _ 2 0 12 = some ⟨1, [], [(0, 9)], [⟨1, [11]⟩, ⟨2, [12]⟩], []⟩))
    (by decide) (by decide : Reset _ 3 0 13 = some threeThreads)

/-! ## Executions -/

theorem Run_Reach (cap : Nat) (x : Sys) (h : Hist) (hr : Run cap x h) : Reach cap x := by
  induction hr with
  | init => exact Reach.init
  | create x h handler _ hl ih => exact Reach.create x handler ih hl
  | destroy x h id _ hl ih => exact Reach.destroy x id ih hl
  | get x h t id _ hl ih => exact Reach.get x t id ih hl
  | reset x h t id v r _ hl hr ih => exact Reach.reset x t id v r ih hl hr
  | swap x h t id v old r _ hl hr ih => exact Reach.swap x t id v old r ih hl hr
  | cas x h t id v e e1 b r _ hl hr ih => exact Reach.cas x t id v e e1 b r ih hl hr
  | scrape x h id replacement ptrs _ hl ih => exact Reach.scrape x id replacement ptrs ih hl
  | exit x h t _ ih => exact Reach.exit x t ih

theorem entriesOf_nonzero (s : StaticMeta) (t j : Nat) (h : (entriesOf s t).getD j 0 ≠ 0) :
    ∃ d ∈ s.head_, d.owner = t ∧ d.entries.getD j 0 ≠ 0 := by
  unfold entriesOf at h
  cases ht : tls_ s t with
  | none =>
    rw [ht] at h
    exact absurd rfl h
  | some d =>
    rw [ht] at h
    exact ⟨d, (tls_mem s t d ht).1, (tls_mem s t d ht).2, h⟩

theorem origin_GetThreadLocal (s : StaticMeta) (t : Nat) (d : ThreadData) (j : Nat)
    (hd : d ∈ (GetThreadLocal s t).head_) (hj : d.entries.getD j 0 ≠ 0) : d ∈ s.head_ := by
  rcases mem_GetThreadLocal s t d hd with h1 | h1
  · exact h1
  · rw [h1] at hj
    exact absurd rfl hj

theorem origin_growFor (s : StaticMeta) (t id : Nat) (d : ThreadData) (j : Nat)
    (hd : d ∈ (growFor s t id).head_) (hj : d.entries.getD j 0 ≠ 0) :
    ∃ e ∈ s.head_, e.owner = d.owner ∧ e.entries.getD j 0 ≠ 0 := by
  unfold growFor at hd
  simp only at hd
  split at hd
  · rcases mem_storeEntries_owner _ _ _ _ hd with h1 | h1
    · exact ⟨d, origin_GetThreadLocal s t d j h1 hj, rfl, hj⟩
    · rw [h1.2] at hj
      have h2 : (entriesOf (GetThreadLocal s t) t).getD j 0 ≠ 0 := by
        intro h0
        exact hj (getD_resize_null _ _ _ h0)
      rw [entriesOf_GetThreadLocal_self] at h2
      obtain ⟨e, he, ho, hv⟩ := entriesOf_nonzero s t j h2
      exact ⟨e, he, by rw [ho, h1.1], hv⟩
  · exact ⟨d, origin_GetThreadLocal s t d j hd hj, rfl, hj⟩

theorem origin_stored (s : StaticMeta) (t id v : Nat) (d : ThreadData) (j : Nat)
    (hd : d ∈ (withEntries (growFor s t id) t ((entriesOf (growFor s t id) t).set id v)).head_)
    (hj : d.entries.getD j 0 ≠ 0) :
    (d.owner = t ∧ j = id) ∨ ∃ e ∈ s.head_, e.owner = d.owner ∧ e.entries.getD j 0 ≠ 0 := by
  rcases mem_storeEntries_owner _ _ _ _ hd with h1 | h1
  · exact Or.inr (origin_growFor s t id d j h1 hj)
  · by_cases hji : j = id
    · exact Or.inl ⟨h1.1, hji⟩
    · right
      rw [h1.2] at hj
      have h2 : (entriesOf (growFor s t id) t).getD j 0 ≠ 0 := by
        simp only [List.getD_eq_getElem?_getD] at hj ⊢
        rw [List.getElem?_set_ne (fun e => hji e.symm)] at hj
        exact hj
      obtain ⟨e, he, ho, hv⟩ := entriesOf_nonzero _ t j h2
      obtain ⟨e2, he2, ho2, hv2⟩ := origin_growFor s t id e j he hv
      exact ⟨e2, he2, by rw [ho2, ho, h1.1], hv2⟩

theorem origin_exchanged (id r : Nat) (bs : List ThreadData) (d : ThreadData) (j : Nat)
    (hd : d ∈ bs.map (exchanged id r)) (hj : d.entries.getD j 0 ≠ 0) :
    (j = id ∧ r ≠ 0) ∨ ∃ e ∈ bs, e.owner = d.owner ∧ e.entries.getD j 0 ≠ 0 := by
  obtain ⟨b, hb, rfl⟩ := List.mem_map.1 hd
  by_cases hji : j = id
  · subst hji
    have he := entryAt_exchanged j r b
    simp only [entryAt] at he
    rw [he] at hj
    split at hj
    · exact Or.inl ⟨rfl, hj⟩
    · exact absurd rfl hj
  · right
    refine ⟨b, hb, (owner_exchanged id r b).symm, ?_⟩
    unfold exchanged at hj
    split at hj
    · simp only [List.getD_eq_getElem?_getD] at hj ⊢
      rw [List.getElem?_set_ne (fun e => hji e.symm)] at hj
      exact hj
    · exact hj

theorem mem_unlink (bs : List ThreadData) (t : Nat) (d : ThreadData)
    (hnd : (bs.map ThreadData.owner).Nodup) (hd : d ∈ unlink bs t) :
    d ∈ bs ∧ d.owner ≠ t := by
  induction bs with
  | nil => cases hd
  | cons b bs ih =>
    rw [List.map_cons, List.nodup_cons] at hnd
    by_cases hb : b.owner = t
    · rw [unlink, if_pos hb] at hd
      refine ⟨List.mem_cons_of_mem _ hd, ?_⟩
      intro e
      apply hnd.1
      rw [hb, ← e]
      exact List.mem_map_of_mem _ hd
    · rw [unlink, if_neg hb] at hd
      rcases List.mem_cons.1 hd with e | hm
      · rw [e]
        exact ⟨List.mem_cons_self _ _, hb⟩
      · exact ⟨List.mem_cons_of_mem _ (ih hnd.2 hm).1, (ih hnd.2 hm).2⟩

/-- In every execution with fewer than `2^32` handles alive at once, whatever a
block holds was written by its thread or scraped in since the slot's handle
was constructed. -/
theorem Run_Accounted (cap : Nat) (hcap : cap < U32) (x : Sys) (h : Hist)
    (hr : Run cap x h) : Accounted x h := by
  induction hr with
  | init =>
    intro d hd
    cases hd
  | create x h handler hx hl ih =>
    intro d hd j hj
    obtain ⟨e1, _, _, e4⟩ := ids_ctor x.reg handler
    have hd2 : d ∈ x.reg.head_ := by
      have := hd
      simp only [e4] at this
      exact this
    have hne : j ≠ (ThreadLocalPtr_ctor x.reg handler).1 := by
      intro e
      rw [e, e1] at hj
      exact hj (Reach_clean cap hcap x (Run_Reach cap x h hx) _ (GetId_fst_unissued x.reg) d hd2)
    rcases ih d hd2 j hj with h1 | h1
    · left
      simp only [List.mem_filter, decide_eq_true_eq]
      exact ⟨h1, hne⟩
    · right
      simp only [List.mem_filter, decide_eq_true_eq]
      exact ⟨h1, hne⟩
  | destroy x h id hx hl ih =>
    intro d hd j hj
    have hb : (ThreadLocalPtr_dtor x.reg id).head_ = x.reg.head_.map (exchanged id 0) := by
      simp [ThreadLocalPtr_dtor, ReclaimId, reclaimLoop_blocks]
    have hd2 : d ∈ x.reg.head_.map (exchanged id 0) := by
      rw [← hb]
      exact hd
    rcases origin_exchanged id 0 _ d j hd2 hj with h1 | ⟨e, he, ho, hv⟩
    · exact absurd rfl h1.2
    · have := ih e he j hv
      rw [ho] at this
      exact this
  | get x h t id hx hl ih =>
    intro d hd j hj
    have e : (Get x.reg t id).2 = GetThreadLocal x.reg t := by
      unfold Get
      simp only
      split <;> rfl
    have hd2 : d ∈ (GetThreadLocal x.reg t).head_ := by
      rw [← e]
      exact hd
    exact ih d (origin_GetThreadLocal x.reg t d j hd2 hj) j hj
  | reset x h t id v r hx hl hres ih =>
    intro d hd j hj
    have hd2 := hd
    simp only [Reset_eq _ _ _ _ _ hres] at hd2
    rcases origin_stored x.reg t id v d j hd2 hj with h1 | ⟨e, he, ho, hv⟩
    · left
      rw [h1.1, h1.2]
      exact List.mem_cons_self _ _
    · rcases ih e he j hv with h2 | h2
      · left
        rw [← ho]
        exact List.mem_cons_of_mem _ h2
      · exact Or.inr h2
  | swap x h t id v old r hx hl hres ih =>
    intro d hd j hj
    have hd2 := hd
    simp only [Swap_eq _ _ _ _ _ _ hres] at hd2
    rcases origin_stored x.reg t id v d j hd2 hj with h1 | ⟨e, he, ho, hv⟩
    · left
      rw [h1.1, h1.2]
      exact List.mem_cons_self _ _
    · rcases ih e he j hv with h2 | h2
      · left
        rw [← ho]
        exact List.mem_cons_of_mem _ h2
      · exact Or.inr h2
  | cas x h t id v e0 e1 b r hx hl hres ih =>
    intro d hd j hj
    have hd2 := hd
    rcases CompareAndSwap_eq _ _ _ _ _ _ _ _ hres with hh | hh
    · simp only [hh] at hd2
      rcases origin_stored x.reg t id v d j hd2 hj with h1 | ⟨e, he, ho, hv⟩
      · left
        rw [h1.1, h1.2]
        exact List.mem_cons_self _ _
      · rcases ih e he j hv with h2 | h2
        · left
          rw [← ho]
          exact List.mem_cons_of_mem _ h2
        · exact Or.inr h2
    · simp only [hh] at hd2
      obtain ⟨e, he, ho, hv⟩ := origin_growFor x.reg t id d j hd2 hj
      rcases ih e he j hv with h2 | h2
      · left
        rw [← ho]
        exact List.mem_cons_of_mem _ h2
      · exact Or.inr h2
  | scrape x h id replacement ptrs hx hl ih =>
    intro d hd j hj
    have hb : (Scrape x.reg id ptrs replacement).1.head_ =
        x.reg.head_.map (exchanged id replacement) := by
      simp [Scrape, scrapeLoop_blocks]
    have hd2 : d ∈ x.reg.head_.map (exchanged id replacement) := by
      rw [← hb]
      exact hd
    rcases origin_exchanged id replacement _ d j hd2 hj with h1 | ⟨e, he, ho, hv⟩
    · right
      simp only [h1.2, ne_eq, not_false_eq_true, if_true, h1.1]
      exact List.mem_cons_self _ _
    · rcases ih e he j hv with h2 | h2
      · left
        rw [← ho]
        exact h2
      · right
        show j ∈ (if replacement ≠ 0 then id :: h.scraped else h.scraped)
        split
        · exact List.mem_cons_of_mem _ h2
        · exact h2
  | exit x h t hx ih =>
    intro d hd j hj
    have hw := (Reach_wf cap x (Run_Reach cap x h hx)).1
    have hd2 : d ∈ unlink x.reg.head_ t := by
      rw [← head_threadExit]
      exact hd
    obtain ⟨hm, hne⟩ := mem_unlink _ t d hw hd2
    rcases ih d hm j hj with h2 | h2
    · left
      simp only [List.mem_filter, decide_eq_true_eq]
      exact ⟨h2, hne⟩
    · exact Or.inr h2

theorem Run_createMany (cap n : Nat) (h : n ≤ cap) : Run cap (createMany n) Hist.empty := by
  induction n with
  | zero => exact Run.init
  | succ n ih =>
    have hr := ih (Nat.le_of_succ_le h)
    have hl : (createMany n).live.length < cap := by
      rw [createMany_length]
      exact h
    exact Run.create (createMany n) Hist.empty 0 hr hl

theorem Run_scrapedSys : Run 2 scrapedSys scrapedHist :=
  Run.scrape ⟨⟨2, [], [], [⟨5, [0, 3]⟩], []⟩, [1, 0]⟩ ⟨[(5, 1)], [], [(1, 3)], [], []⟩ 0 9 []
    (Run.reset ⟨⟨2, [], [], [], []⟩, [1, 0]⟩ Hist.empty 5 1 3 _
      (Run.create ⟨⟨1, [], [], [], []⟩, [0]⟩ Hist.empty 0
        (Run.create ⟨StaticMeta.fresh, []⟩ Hist.empty 0 Run.init (by decide))
        (by decide))
      (by decide) (by decide : Reset _ 5 1 3 = some ⟨2, [], [], [⟨5, [0, 3]⟩], []⟩))
    (by decide)

theorem Run_rewrappedSys : Run 4294967297 rewrappedSys ⟨[], [], [(0, 7)], [], []⟩ := by
  have h1 := Run_createMany 4294967297 4294967296 (by decide)
  have hres : Reset (createMany 4294967296).reg 0 0 7 = some ⟨0, [], [], [⟨0, [7]⟩], []⟩ := by
    rw [createMany_wrapped_reg]
    decide
  have h2 := Run.reset (createMany 4294967296) Hist.empty 0 0 7 _ h1
    (zero_mem_createMany 4294967295) hres
  rw [createMany_wrapped_reg] at h2
  have hlen : (createMany 4294967296).live.length < 4294967297 := by
    rw [createMany_length]
    decide
  exact Run.create _ _ 0 h2 hlen

/-! ## Accounting of the values held in the blocks -/

theorem ms_append (a b : List (Nat × Nat)) : ms (a ++ b) = ms a + ms b :=
  (Multiset.coe_add a b).symm

theorem ms_nil : ms [] = 0 := rfl

theorem perm_of_ms (a b : List (Nat × Nat)) (h : ms a = ms b) : a.Perm b :=
  Multiset.coe_eq_coe.1 h

theorem pairOf_zero (id : Nat) : pairOf id 0 = [] := rfl

theorem blockPairs_cons (v : Nat) (es : List Nat) (k : Nat) :
    blockPairs (v :: es) k = pairOf k v ++ blockPairs es (k + 1) := by
  unfold pairOf
  rw [blockPairs]
  split <;> rfl

theorem blockPairs_replicate_zero (n k : Nat) : blockPairs (List.replicate n 0) k = [] := by
  induction n generalizing k with
  | zero => rfl
  | succ n ih =>
    rw [List.replicate_succ, blockPairs_cons, pairOf_zero, ih]
    rfl

theorem blockPairs_append_zeros (es : List Nat) (n k : Nat) :
    blockPairs (es ++ List.replicate n 0) k = blockPairs es k := by
  induction es generalizing k with
  | nil => exact blockPairs_replicate_zero n k
  | cons v es ih =>
    rw [List.cons_append, blockPairs_cons, blockPairs_cons, ih]

theorem blockPairs_set (es : List Nat) :
    ∀ (id k v : Nat), id < es.length →
      ms (blockPairs (es.set id v) k) + ms (pairOf (k + id) (es.getD id 0)) =
        ms (blockPairs es k) + ms (pairOf (k + id) v) := by
  induction es with
  | nil =>
    intro id k v h
    cases h
  | cons u es ih =>
    intro id k v h
    cases id with
    | zero =>
      simp only [List.set_cons_zero, blockPairs_cons, ms_append, List.getD_cons_zero,
        Nat.add_zero]
      abel
    | succ j =>
      have hj : j < es.length := by
        simp only [List.length_cons] at h
        omega
      have e := ih j (k + 1) v hj
      have hk : k + (j + 1) = k + 1 + j := by omega
      simp only [List.set_cons_succ, blockPairs_cons, ms_append, List.getD_cons_succ, hk]
      rw [add_assoc, e]
      abel

theorem heldIn_cons (b : ThreadData) (bs : List ThreadData) :
    heldIn (b :: bs) = blockPairs b.entries 0 ++ heldIn bs := rfl

theorem heldIn_store (bs : List ThreadData) (t : Nat) (E : List Nat) (d : ThreadData)
    (h : bs.find? (fun e => decide (e.owner = t)) = some d) :
    ms (heldIn (storeEntries bs t E)) + ms (blockPairs d.entries 0) =
      ms (heldIn bs) + ms (blockPairs E 0) := by
  induction bs with
  | nil => simp at h
  | cons b bs ih =>
    by_cases hb : b.owner = t
    · simp [List.find?_cons, hb] at h
      subst h
      rw [storeEntries, if_pos hb]
      simp only [heldIn_cons, ms_append]
      abel
    · simp [List.find?_cons, hb] at h
      rw [storeEntries, if_neg hb]
      simp only [heldIn_cons, ms_append]
      rw [add_assoc, ih h]
      abel

theorem heldIn_exchanged (id r : Nat) (bs : List ThreadData) :
    ms (heldIn (bs.map (exchanged id r))) + ms ((heldAt id bs).map (fun v => (id, v))) =
      ms (heldIn bs) +
        ms ((bs.filter (fun d => decide (id < d.entries.length))).flatMap
          (fun _ => pairOf id r)) := by
  induction bs with
  | nil => rfl
  | cons b bs ih =>
    have hh : (heldAt id (b :: bs)).map (fun v => (id, v)) =
        pairOf id (b.entries.getD id 0) ++ (heldAt id bs).map (fun v => (id, v)) := by
      rw [heldAt_cons]
      unfold pairOf entryAt
      split <;> simp
    rw [hh, List.map_cons, heldIn_cons, heldIn_cons]
    by_cases hc : id < b.entries.length
    · have hf : (b :: bs).filter (fun d => decide (id < d.entries.length)) =
          b :: bs.filter (fun d => decide (id < d.entries.length)) := by
        simp [List.filter_cons, hc]
      have he : (exchanged id r b).entries = b.entries.set id r := by
        unfold exchanged
        rw [if_pos hc]
      have hp := blockPairs_set b.entries id 0 r hc
      rw [Nat.zero_add] at hp
      rw [hf, List.flatMap_cons, he]
      simp only [ms_append]
      calc ms (blockPairs (b.entries.set id r) 0) + ms (heldIn (bs.map (exchanged id r))) +
            (ms (pairOf id (b.entries.getD id 0)) + ms ((heldAt id bs).map (fun v => (id, v))))
          = (ms (blockPairs (b.entries.set id r) 0) + ms (pairOf id (b.entries.getD id 0))) +
            (ms (heldIn (bs.map (exchanged id r))) +
              ms ((heldAt id bs).map (fun v => (id, v)))) := by abel
        _ = (ms (blockPairs b.entries 0) + ms (pairOf id r)) +
            (ms (heldIn bs) +
              ms ((bs.filter (fun d => decide (id < d.entries.length))).flatMap
                (fun _ => pairOf id r))) := by rw [hp, ih]
        _ = _ := by abel
    · have hf : (b :: bs).filter (fun d => decide (id < d.entries.length)) =
          bs.filter (fun d => decide (id < d.entries.length)) := by
        simp [List.filter_cons, hc]
      have he : exchanged id r b = b := by
        unfold exchanged
        rw [if_neg hc]
      have h0 : b.entries.getD id 0 = 0 := entryAt_of_short id b hc
      rw [hf, he, h0, pairOf_zero]
      simp only [ms_append, List.nil_append]
      rw [add_assoc, ih, add_assoc]

theorem heldIn_unlink (bs : List ThreadData) (t : Nat) (d : ThreadData)
    (h : bs.find? (fun e => decide (e.owner = t)) = some d) :
    ms (heldIn bs) = ms (blockPairs d.entries 0) + ms (heldIn (unlink bs t)) := by
  induction bs with
  | nil => simp at h
  | cons b bs ih =>
    by_cases hb : b.owner = t
    · simp [List.find?_cons, hb] at h
      subst h
      rw [unlink, if_pos hb, heldIn_cons, ms_append]
    · simp [List.find?_cons, hb] at h
      rw [unlink, if_neg hb]
      simp only [heldIn_cons, ms_append]
      rw [ih h]
      abel

theorem heldIn_GetThreadLocal (s : StaticMeta) (t : Nat) :
    heldIn (GetThreadLocal s t).head_ = heldIn s.head_ := by
  unfold GetThreadLocal
  cases tls_ s t with
  | some d => rfl
  | none => simp [AddThreadData, heldIn, blockPairs]

theorem grown_of_covers (s : StaticMeta) (t id : Nat)
    (hc : id < (entriesOf (growFor s t id) t).length) :
    ∃ k, entriesOf (growFor s t id) t = entriesOf s t ++ List.replicate k 0 := by
  rw [entriesOf_growFor] at hc ⊢
  split
  · rename_i h
    rw [if_pos h, length_resize] at hc
    have hle : (id + 1) % U32 ≤ id + 1 := Nat.mod_le _ _
    have he : (id + 1) % U32 = id + 1 := by omega
    rw [he]
    refine ⟨id + 1 - (entriesOf s t).length, ?_⟩
    unfold resize
    rw [List.take_of_length_le (by omega)]
  · exact ⟨0, by simp⟩

theorem head_stored (s : StaticMeta) (t id : Nat) (E : List Nat) :
    (withEntries (growFor s t id) t E).head_ = storeEntries (GetThreadLocal s t).head_ t E := by
  unfold growFor
  simp only
  split
  · simp only [withEntries, storeEntries_storeEntries]
  · simp only [withEntries]

theorem heldPairs_stored (s : StaticMeta) (t id : Nat) (E : List Nat) :
    ms (heldPairs (withEntries (growFor s t id) t E)) + ms (blockPairs (entriesOf s t) 0) =
      ms (heldPairs s) + ms (blockPairs E 0) := by
  obtain ⟨d, hd, _, he⟩ := tls_GetThreadLocal_self s t
  unfold tls_ at hd
  have h := heldIn_store (GetThreadLocal s t).head_ t E d hd
  rw [he, heldIn_GetThreadLocal] at h
  unfold heldPairs
  rw [head_stored]
  exact h

theorem heldPairs_written (s : StaticMeta) (t id v : Nat)
    (hc : id < (entriesOf (growFor s t id) t).length) :
    ms (heldPairs (withEntries (growFor s t id) t ((entriesOf (growFor s t id) t).set id v))) +
        ms (pairOf id (Get s t id).1) =
      ms (heldPairs s) + ms (pairOf id v) := by
  have h1 := heldPairs_stored s t id ((entriesOf (growFor s t id) t).set id v)
  have h2 := blockPairs_set (entriesOf (growFor s t id) t) id 0 v hc
  obtain ⟨k, hk⟩ := grown_of_covers s t id hc
  have h3 : blockPairs (entriesOf (growFor s t id) t) 0 = blockPairs (entriesOf s t) 0 := by
    rw [hk, blockPairs_append_zeros]
  rw [Nat.zero_add, h3, getD_growFor_of_covers s t id id hc, ← Get_fst] at h2
  apply add_right_cancel (b := ms (blockPairs (entriesOf s t) 0))
  calc _ = (ms (heldPairs (withEntries (growFor s t id) t
              ((entriesOf (growFor s t id) t).set id v))) +
            ms (blockPairs (entriesOf s t) 0)) + ms (pairOf id (Get s t id).1) := by abel
    _ = ms (heldPairs s) +
          (ms (blockPairs ((entriesOf (growFor s t id) t).set id v) 0) +
            ms (pairOf id (Get s t id).1)) := by rw [h1]; abel
    _ = _ := by rw [h2]; abel

theorem heldPairs_growFor (s : StaticMeta) (t id : Nat)
    (hc : id < (entriesOf (growFor s t id) t).length) :
    ms (heldPairs (growFor s t id)) = ms (heldPairs s) := by
  obtain ⟨k, hk⟩ := grown_of_covers s t id hc
  have h1 := heldPairs_stored s t id (entriesOf (growFor s t id) t)
  have h3 : blockPairs (entriesOf (growFor s t id) t) 0 = blockPairs (entriesOf s t) 0 := by
    rw [hk, blockPairs_append_zeros]
  have h4 : withEntries (growFor s t id) t (entriesOf (growFor s t id) t) = growFor s t id := by
    have hst : ∀ (bs : List ThreadData) (d : ThreadData),
        bs.find? (fun e => decide (e.owner = t)) = some d →
        storeEntries bs t d.entries = bs := by
      intro bs
      induction bs with
      | nil => intro d hd; simp at hd
      | cons b bs ih =>
        intro d hd
        by_cases hb : b.owner = t
        · simp [List.find?_cons, hb] at hd
          subst hd
          rw [storeEntries, if_pos hb]
        · simp [List.find?_cons, hb] at hd
          rw [storeEntries, if_neg hb, ih d hd]
    cases hd : tls_ (growFor s t id) t with
    | none => exact absurd hd (tls_growFor_ne_none s t id)
    | some d =>
      have he : entriesOf (growFor s t id) t = d.entries := by simp [entriesOf, hd]
      unfold tls_ at hd
      rw [he]
      unfold withEntries
      rw [hst _ d hd]
  rw [h4, h3] at h1
  exact add_right_cancel h1

theorem covers_of_Reset (s r : StaticMeta) (t id v : Nat) (h : Reset s t id v = some r) :
    id < (entriesOf (growFor s t id) t).length := by
  unfold Reset at h
  simp only at h
  split at h
  · assumption
  · cases h

theorem facts_of_Swap (s r : StaticMeta) (t id v old : Nat)
    (h : Swap s t id v = some (old, r)) :
    id < (entriesOf (growFor s t id) t).length ∧ old = (Get s t id).1 := by
  unfold Swap at h
  simp only at h
  split at h
  · rename_i hc
    simp only [Option.some.injEq, Prod.mk.injEq] at h
    refine ⟨hc, ?_⟩
    rw [← h.1, Get_fst, getD_growFor_of_covers s t id id hc]
  · cases h

theorem facts_of_CompareAndSwap (s r : StaticMeta) (t id v e e1 : Nat) (b : Bool)
    (h : CompareAndSwap s t id v e = some (b, e1, r)) :
    id < (entriesOf (growFor s t id) t).length ∧
    ((b = true ∧ e = (Get s t id).1 ∧
        r = withEntries (growFor s t id) t ((entriesOf (growFor s t id) t).set id v)) ∨
      (b = false ∧ r = growFor s t id)) := by
  unfold CompareAndSwap at h
  simp only at h
  split at h
  · rename_i hc
    refine ⟨hc, ?_⟩
    split at h
    · rename_i hx
      simp only [Option.some.injEq, Prod.mk.injEq] at h
      left
      refine ⟨h.1.symm, ?_, h.2.2.symm⟩
      rw [← hx, Get_fst, getD_growFor_of_covers s t id id hc]
    · simp only [Option.some.injEq, Prod.mk.injEq] at h
      exact Or.inr ⟨h.1.symm, h.2.2.symm⟩
  · cases h

theorem flatMap_const_nil (bs : List ThreadData) :
    bs.flatMap (fun _ => ([] : List (Nat × Nat))) = [] := by
  induction bs with
  | nil => rfl
  | cons b bs ih => rw [List.flatMap_cons, ih, List.nil_append]

theorem heldPairs_exchanged (s r : StaticMeta) (id v : Nat)
    (h : r.head_ = s.head_.map (exchanged id v)) :
    ms (heldPairs r) + ms ((heldAt id s.head_).map (fun p => (id, p))) =
      ms (heldPairs s) +
        ms ((s.head_.filter (fun d => decide (id < d.entries.length))).flatMap
          (fun _ => pairOf id v)) := by
  unfold heldPairs
  rw [h]
  exact heldIn_exchanged id v s.head_

/-- In every execution, every non-null value stored into an entry is still held
in a block, or was displaced once, or was discarded once. -/
theorem Run_conserved (cap : Nat) (x : Sys) (h : Hist) (hr : Run cap x h) :
    ms h.stored =
      ms h.displaced + ms (h.discarded.map Prod.snd) + ms (heldPairs x.reg) := by
  induction hr with
  | init =>
    show ms [] = ms [] + ms [] + ms []
    simp [ms_nil]
  | create x h handler hx hl ih =>
    show ms h.stored = ms h.displaced + ms (h.discarded.map Prod.snd) +
      ms (heldPairs (ThreadLocalPtr_ctor x.reg handler).2)
    have e : heldPairs (ThreadLocalPtr_ctor x.reg handler).2 = heldPairs x.reg := by
      unfold heldPairs
      rw [(ids_ctor x.reg handler).2.2.2]
    rw [e]
    exact ih
  | destroy x h id hx hl ih =>
    show ms h.stored = ms h.displaced +
      ms ((h.discarded ++
        (heldAt id x.reg.head_).map (fun v => (GetHandler x.reg id, id, v))).map Prod.snd) +
      ms (heldPairs (ThreadLocalPtr_dtor x.reg id))
    have hb : (ThreadLocalPtr_dtor x.reg id).head_ = x.reg.head_.map (exchanged id 0) := by
      simp [ThreadLocalPtr_dtor, ReclaimId, reclaimLoop_blocks]
    have hp := heldPairs_exchanged x.reg _ id 0 hb
    simp only [pairOf_zero, flatMap_const_nil, ms_nil, add_zero] at hp
    rw [List.map_append, List.map_map, ms_append, ih, ← hp]
    have hf : (Prod.snd ∘ fun v : Nat => (GetHandler x.reg id, id, v)) =
        fun v : Nat => (id, v) := rfl
    rw [hf]
    abel
  | get x h t id hx hl ih =>
    show ms h.stored = ms h.displaced + ms (h.discarded.map Prod.snd) +
      ms (heldPairs (Get x.reg t id).2)
    have e : (Get x.reg t id).2 = GetThreadLocal x.reg t := by
      unfold Get
      simp only
      split <;> rfl
    have e2 : heldPairs (GetThreadLocal x.reg t) = heldPairs x.reg :=
      heldIn_GetThreadLocal x.reg t
    rw [e, e2]
    exact ih
  | reset x h t id v r hx hl hres ih =>
    show ms (h.stored ++ pairOf id v) =
      ms (h.displaced ++ pairOf id (Get x.reg t id).1) + ms (h.discarded.map Prod.snd) +
        ms (heldPairs r)
    have hw := heldPairs_written x.reg t id v (covers_of_Reset _ _ _ _ _ hres)
    rw [← Reset_eq _ _ _ _ _ hres] at hw
    rw [ms_append, ms_append, ih]
    calc ms h.displaced + ms (h.discarded.map Prod.snd) + ms (heldPairs x.reg) + ms (pairOf id v)
        = ms h.displaced + ms (h.discarded.map Prod.snd) +
            (ms (heldPairs x.reg) + ms (pairOf id v)) := by abel
      _ = ms h.displaced + ms (h.discarded.map Prod.snd) +
            (ms (heldPairs r) + ms (pairOf id (Get x.reg t id).1)) := by rw [hw]
      _ = _ := by abel
  | swap x h t id v old r hx hl hres ih =>
    show ms (h.stored ++ pairOf id v) =
      ms (h.displaced ++ pairOf id old) + ms (h.discarded.map Prod.snd) + ms (heldPairs r)
    obtain ⟨hc, hold⟩ := facts_of_Swap _ _ _ _ _ _ hres
    have hw := heldPairs_written x.reg t id v hc
    rw [← Swap_eq _ _ _ _ _ _ hres, ← hold] at hw
    rw [ms_append, ms_append, ih]
    calc ms h.displaced + ms (h.discarded.map Prod.snd) + ms (heldPairs x.reg) + ms (pairOf id v)
        = ms h.displaced + ms (h.discarded.map Prod.snd) +
            (ms (heldPairs x.reg) + ms (pairOf id v)) := by abel
      _ = ms h.displaced + ms (h.discarded.map Prod.snd) +
            (ms (heldPairs r) + ms (pairOf id old)) := by rw [hw]
      _ = _ := by abel
  | cas x h t id v e e1 b r hx hl hres ih =>
    show ms (h.stored ++ (if b then pairOf id v else [])) =
      ms (h.displaced ++ (if b then pairOf id e else [])) + ms (h.discarded.map Prod.snd) +
        ms (heldPairs r)
    obtain ⟨hc, hcase⟩ := facts_of_CompareAndSwap _ _ _ _ _ _ _ _ hres
    rcases hcase with ⟨hb, he, hr2⟩ | ⟨hb, hr2⟩
    · have hw := heldPairs_written x.reg t id v hc
      rw [← hr2, ← he] at hw
      rw [hb]
      simp only [if_true]
      rw [ms_append, ms_append, ih]
      calc ms h.displaced + ms (h.discarded.map Prod.snd) + ms (heldPairs x.reg) +
            ms (pairOf id v)
          = ms h.displaced + ms (h.discarded.map Prod.snd) +
              (ms (heldPairs x.reg) + ms (pairOf id v)) := by abel
        _ = ms h.displaced + ms (h.discarded.map Prod.snd) +
              (ms (heldPairs r) + ms (pairOf id e)) := by rw [hw]
        _ = _ := by abel
    · have hg := heldPairs_growFor x.reg t id hc
      rw [hb, hr2, hg]
      simp only [Bool.false_eq_true, if_false, List.append_nil]
      exact ih
  | scrape x h id replacement ptrs hx hl ih =>
    show ms (h.stored ++
        (x.reg.head_.filter (fun d => decide (id < d.entries.length))).flatMap
          (fun _ => pairOf id replacement)) =
      ms (h.displaced ++ (Scrape x.reg id [] replacement).2.map (fun v => (id, v))) +
        ms (h.discarded.map Prod.snd) + ms (heldPairs (Scrape x.reg id ptrs replacement).1)
    have hb : (Scrape x.reg id ptrs replacement).1.head_ =
        x.reg.head_.map (exchanged id replacement) := by
      simp [Scrape, scrapeLoop_blocks]
    have hp := heldPairs_exchanged x.reg _ id replacement hb
    have ho : (Scrape x.reg id [] replacement).2 = heldAt id x.reg.head_ := by
      simp [Scrape, scrapeLoop_ptrs]
    rw [ho, ms_append, ms_append, ih]
    calc ms h.displaced + ms (h.discarded.map Prod.snd) + ms (heldPairs x.reg) +
          ms ((x.reg.head_.filter (fun d => decide (id < d.entries.length))).flatMap
            (fun _ => pairOf id replacement))
        = ms h.displaced + ms (h.discarded.map Prod.snd) +
            (ms (heldPairs x.reg) +
              ms ((x.reg.head_.filter (fun d => decide (id < d.entries.length))).flatMap
                (fun _ => pairOf id replacement))) := by abel
      _ = ms h.displaced + ms (h.discarded.map Prod.snd) +
            (ms (heldPairs (Scrape x.reg id ptrs replacement).1) +
              ms ((heldAt id x.reg.head_).map (fun p => (id, p)))) := by rw [hp]
      _ = _ := by abel
  | exit x h t hx ih =>
    show ms h.stored = ms h.displaced +
      ms ((h.discarded ++
        (blockPairs (entriesOf x.reg t) 0).map (fun p => (GetHandler x.reg p.1, p))).map
          Prod.snd) +
      ms (heldPairs (threadExit x.reg t))
    have hf : (Prod.snd ∘ fun p : Nat × Nat => (GetHandler x.reg p.1, p)) =
        fun p : Nat × Nat => p := rfl
    rw [List.map_append, List.map_map, hf, List.map_id', ms_append]
    have hh : ms (heldPairs x.reg) =
        ms (blockPairs (entriesOf x.reg t) 0) + ms (heldPairs (threadExit x.reg t)) := by
      unfold heldPairs
      rw [head_threadExit]
      unfold entriesOf
      cases ht : tls_ x.reg t with
      | some d =>
        unfold tls_ at ht
        exact heldIn_unlink _ t d ht
      | none =>
        have hn : unlink x.reg.head_ t = x.reg.head_ := by
          rw [← head_threadExit]
          unfold threadExit
          rw [ht]
        rw [hn]
        show _ = ms [] + _
        rw [ms_nil, zero_add]
    rw [ih, hh]
    abel

theorem exitLoop_pairs (s : StaticMeta) (es : List Nat) :
    ∀ k, k + es.length ≤ U32 →
      exitLoop s es k =
        (((blockPairs es k).map (fun p => (GetHandler s p.1, p))).filter
          (fun e => decide (e.1 ≠ 0))).map (fun e => (e.1, e.2.2)) := by
  induction es with
  | nil =>
    intro k _
    rfl
  | cons v es ih =>
    intro k hk
    have hrest : exitLoop s es ((k + 1) % U32) =
        (((blockPairs es (k + 1)).map (fun p => (GetHandler s p.1, p))).filter
          (fun e => decide (e.1 ≠ 0))).map (fun e => (e.1, e.2.2)) := by
      cases es with
      | nil => rfl
      | cons w ws =>
        simp only [List.length_cons] at hk
        have hk1 : (k + 1) % U32 = k + 1 := Nat.mod_eq_of_lt (by omega)
        rw [hk1, ih (k + 1) (by simp only [List.length_cons]; omega)]
    rw [blockPairs_cons]
    simp only [exitLoop, hrest, pairOf]
    by_cases hv : v = 0
    · simp [hv]
    · by_cases hh : GetHandler s k = 0
      · simp [hv, hh]
      · simp [hv, hh]

theorem exitLoop_congr (s r : StaticMeta) (h : r.handler_map_ = s.handler_map_)
    (es : List Nat) : ∀ k, exitLoop r es k = exitLoop s es k := by
  induction es with
  | nil =>
    intro k
    rfl
  | cons v es ih =>
    intro k
    simp only [exitLoop, ih, GetHandler_congr s r h]

theorem uc_GetThreadLocal (s : StaticMeta) (t : Nat) :
    (GetThreadLocal s t).unref_calls = s.unref_calls := by
  unfold GetThreadLocal
  cases tls_ s t <;> rfl

theorem uc_growFor (s : StaticMeta) (t id : Nat) :
    (growFor s t id).unref_calls = s.unref_calls := by
  unfold growFor
  simp only
  split
  · exact uc_GetThreadLocal s t
  · exact uc_GetThreadLocal s t

theorem uc_stored (s : StaticMeta) (t id : Nat) (es : List Nat) :
    (withEntries (growFor s t id) t es).unref_calls = s.unref_calls :=
  uc_growFor s t id

theorem uc_ctor (s : StaticMeta) (handler : Nat) :
    (ThreadLocalPtr_ctor s handler).2.unref_calls = s.unref_calls := by
  unfold ThreadLocalPtr_ctor
  simp only
  split
  · unfold SetHandler GetId
    split <;> rfl
  · unfold GetId
    split <;> rfl

/-- In every execution the handler invocations made so far are, in order, the
values discarded while a handler was registered for their slot. -/
theorem Run_calls (cap : Nat) (x : Sys) (h : Hist) (hr : Run cap x h) :
    x.reg.unref_calls =
      (h.discarded.filter (fun e => decide (e.1 ≠ 0))).map (fun e => (e.1, e.2.2)) := by
  induction hr with
  | init => rfl
  | create x h handler hx hl ih =>
    show (ThreadLocalPtr_ctor x.reg handler).2.unref_calls = _
    rw [uc_ctor]
    exact ih
  | destroy x h id hx hl ih =>
    show (ThreadLocalPtr_dtor x.reg id).unref_calls =
      ((h.discarded ++
        (heldAt id x.reg.head_).map (fun v => (GetHandler x.reg id, id, v))).filter
          (fun e => decide (e.1 ≠ 0))).map (fun e => (e.1, e.2.2))
    have hc : (ThreadLocalPtr_dtor x.reg id).unref_calls =
        x.reg.unref_calls ++ (if GetHandler x.reg id = 0 then []
          else (heldAt id x.reg.head_).map (fun p => (GetHandler x.reg id, p))) := by
      simp [ThreadLocalPtr_dtor, ReclaimId, reclaimLoop_calls]
    rw [hc, List.filter_append, List.map_append, ← ih]
    congr 1
    by_cases hz : GetHandler x.reg id = 0
    · rw [if_pos hz, hz]
      simp [List.filter_map]
    · rw [if_neg hz]
      simp [List.filter_map, Function.comp_def, hz]
  | get x h t id hx hl ih =>
    show (Get x.reg t id).2.unref_calls = _
    have e : (Get x.reg t id).2 = GetThreadLocal x.reg t := by
      unfold Get
      simp only
      split <;> rfl
    rw [e, uc_GetThreadLocal]
    exact ih
  | reset x h t id v r hx hl hres ih =>
    show r.unref_calls = _
    rw [Reset_eq _ _ _ _ _ hres, uc_stored]
    exact ih
  | swap x h t id v old r hx hl hres ih =>
    show r.unref_calls = _
    rw [Swap_eq _ _ _ _ _ _ hres, uc_stored]
    exact ih
  | cas x h t id v e e1 b r hx hl hres ih =>
    show r.unref_calls = _
    rcases CompareAndSwap_eq _ _ _ _ _ _ _ _ hres with hh | hh
    · rw [hh, uc_stored]
      exact ih
    · rw [hh, uc_growFor]
      exact ih
  | scrape x h id replacement ptrs hx hl ih => exact ih
  | exit x h t hx ih =>
    show (threadExit x.reg t).unref_calls =
      ((h.discarded ++
        (blockPairs (entriesOf x.reg t) 0).map (fun p => (GetHandler x.reg p.1, p))).filter
          (fun e => decide (e.1 ≠ 0))).map (fun e => (e.1, e.2.2))
    rw [List.filter_append, List.map_append, ← ih]
    unfold threadExit entriesOf
    cases ht : tls_ x.reg t with
    | none => simp [blockPairs]
    | some d =>
      have hs := (Reach_wf cap x (Run_Reach cap x h hx)).2 d (tls_mem x.reg t d ht).1
      simp only [OnThreadExit]
      rw [exitLoop_congr x.reg (RemoveThreadData x.reg d) rfl,
        exitLoop_pairs x.reg d.entries 0 (by omega)]
      rfl

theorem Run_overwrittenSys : Run 1 overwrittenSys overwrittenHist :=
  Run.destroy ⟨⟨1, [], [(0, 9)], [], [(9, 12)]⟩, [0]⟩
    ⟨[], [], [(0, 11), (0, 12)], [(0, 11)], [(9, 0, 12)]⟩ 0
    (Run.exit ⟨⟨1, [], [(0, 9)], [⟨1, [12]⟩], []⟩, [0]⟩
      ⟨[(1, 0), (1, 0)], [], [(0, 11), (0, 12)], [(0, 11)], []⟩ 1
      (Run.reset ⟨⟨1, [], [(0, 9)], [⟨1, [11]⟩], []⟩, [0]⟩ ⟨[(1, 0)], [], [(0, 11)], [], []⟩
        1 0 12 _
        (Run.reset ⟨⟨1, [], [(0, 9)], [], []⟩, [0]⟩ Hist.empty 1 0 11 _
          (Run.create ⟨StaticMeta.fresh, []⟩ Hist.empty 9 Run.init (by decide))
          (by decide)
          (by decide : Reset _ 1 0 11 = some ⟨1, [], [(0, 9)], [⟨1, [11]⟩], []⟩))
        (by decide)
        (by decide : Reset _ 1 0 12 = some ⟨1, [], [(0, 9)], [⟨1, [12]⟩], []⟩)))
    (by decide)

theorem heldAt_of_NullAt (id : Nat) (bs : List ThreadData) (h : NullAt id bs) :
    heldAt id bs = [] := by
  unfold heldAt
  rw [List.filter_eq_nil_iff]
  intro p hp
  obtain ⟨d, hd, rfl⟩ := List.mem_map.1 hp
  have := h d hd
  simp only [entryAt, this]
  decide

theorem Scrape_of_NullAt (s : StaticMeta) (id r : Nat) (ptrs : List Nat)
    (h : NullAt id s.head_) : (Scrape s id ptrs r).2 = ptrs := by
  simp only [Scrape, scrapeLoop_ptrs, heldAt_of_NullAt id _ h, List.append_nil]

theorem ReclaimId_of_NullAt (s : StaticMeta) (id : Nat) (h : NullAt id s.head_) :
    (ReclaimId s id).unref_calls = s.unref_calls := by
  simp only [ReclaimId, reclaimLoop_calls, heldAt_of_NullAt id _ h, List.map_nil, ite_self,
    List.append_nil]

theorem NullAt_Scrape_null (s : StaticMeta) (id : Nat) (ptrs : List Nat) :
    NullAt id (Scrape s id ptrs 0).1.head_ := by
  have hb : (Scrape s id ptrs 0).1.head_ = s.head_.map (exchanged id 0) := by
    simp [Scrape, scrapeLoop_blocks]
  rw [hb]
  exact NullAt_exchanged_self id _

theorem NullAt_ReclaimId (s : StaticMeta) (id : Nat) : NullAt id (ReclaimId s id).head_ := by
  have hb : (ReclaimId s id).head_ = s.head_.map (exchanged id 0) := by
    simp [ReclaimId, reclaimLoop_blocks]
  rw [hb]
  exact NullAt_exchanged_self id _

/-! ## Repeated calls of one thread -/

theorem Get_snd (s : StaticMeta) (t id : Nat) : (Get s t id).2 = GetThreadLocal s t := by
  unfold Get
  simp only
  split <;> rfl

theorem growFor_of_covers (s : StaticMeta) (t id : Nat) (ht : tls_ s t ≠ none)
    (hc : id < (entriesOf s t).length) : growFor s t id = s := by
  unfold growFor
  simp only
  rw [GetThreadLocal_of_tls s t ht, if_neg (by omega)]

/-! ## Growth of a block -/

theorem getElem?_of_getD (l : List Nat) (j : Nat) (h : j < l.length) :
    l[j]? = some (l.getD j 0) := by
  simp [List.getD_eq_getElem?_getD, h]

theorem length_growFor (s : StaticMeta) (t id : Nat) (hid : id + 1 < U32) :
    (entriesOf (growFor s t id) t).length = max (entriesOf s t).length (id + 1) := by
  rw [entriesOf_growFor]
  split
  · rw [length_resize, Nat.mod_eq_of_lt hid]
    omega
  · omega

theorem GrowthPost_of_entries (s r : StaticMeta) (t id : Nat) (hid : id + 1 < U32)
    (hl : (entriesOf r t).length = (entriesOf (growFor s t id) t).length)
    (hv : ∀ j, j ≠ id → (entriesOf r t).getD j 0 = (entriesOf (growFor s t id) t).getD j 0) :
    GrowthPost s r t id := by
  have hlen := length_growFor s t id hid
  refine ⟨hl.trans hlen, ?_, ?_⟩
  · intro j hj hjn
    have hjr : j < (entriesOf r t).length := by
      rw [hl, hlen]
      omega
    rw [getElem?_of_getD _ j hjr, getElem?_of_getD _ j hjn, hv j hj,
      getD_entriesOf_growFor s t id j hid]
  · intro j hj hjn hjr
    rw [getElem?_of_getD _ j hjr, hv j hj, getD_entriesOf_growFor s t id j hid]
    simp [List.getD_eq_getElem?_getD, List.getElem?_eq_none hjn]

theorem GrowthPost_growFor (s : StaticMeta) (t id : Nat) (hid : id + 1 < U32) :
    GrowthPost s (growFor s t id) t id :=
  GrowthPost_of_entries s _ t id hid rfl (fun _ _ => rfl)

theorem GrowthPost_stored (s : StaticMeta) (t id v : Nat) (hid : id + 1 < U32) :
    GrowthPost s
      (withEntries (growFor s t id) t ((entriesOf (growFor s t id) t).set id v)) t id := by
  apply GrowthPost_of_entries s _ t id hid
  · rw [entriesOf_stored, List.length_set]
  · intro j hj
    rw [entriesOf_stored]
    simp only [List.getD_eq_getElem?_getD]
    rw [List.getElem?_set_ne (fun e => hj e.symm)]

theorem forall2_noshrink_refl (bs : List ThreadData) :
    List.Forall₂ (fun b c : ThreadData => c.owner = b.owner ∧
      b.entries.length ≤ c.entries.length) bs bs := by
  induction bs with
  | nil => exact List.Forall₂.nil
  | cons b bs ih => exact List.Forall₂.cons ⟨rfl, Nat.le_refl _⟩ ih

theorem NoShrink_of_eq (bs cs : List ThreadData) (h : cs = bs) : NoShrink bs cs :=
  ⟨bs, [], by rw [h, List.append_nil], forall2_noshrink_refl bs⟩

theorem NoShrink_map_exchanged (id v : Nat) (bs : List ThreadData) :
    NoShrink bs (bs.map (exchanged id v)) := by
  refine ⟨bs.map (exchanged id v), [], by rw [List.append_nil], ?_⟩
  induction bs with
  | nil => exact List.Forall₂.nil
  | cons b bs ih =>
    exact List.Forall₂.cons ⟨owner_exchanged id v b, Nat.le_of_eq (length_exchanged id v b).symm⟩ ih

theorem forall2_storeEntries (bs : List ThreadData) (t : Nat) (E : List Nat)
    (h : ∀ d, bs.find? (fun e => decide (e.owner = t)) = some d → d.entries.length ≤ E.length) :
    List.Forall₂ (fun b c : ThreadData => c.owner = b.owner ∧
      b.entries.length ≤ c.entries.length) bs (storeEntries bs t E) := by
  induction bs with
  | nil => exact List.Forall₂.nil
  | cons b bs ih =>
    by_cases hb : b.owner = t
    · rw [storeEntries, if_pos hb]
      refine List.Forall₂.cons ⟨rfl, ?_⟩ (forall2_noshrink_refl bs)
      exact h b (by simp [List.find?_cons, hb])
    · rw [storeEntries, if_neg hb]
      refine List.Forall₂.cons ⟨rfl, Nat.le_refl _⟩ (ih ?_)
      intro d hd
      exact h d (by simpa [List.find?_cons, hb] using hd)

theorem storeEntries_append_new (bs : List ThreadData) (t : Nat) (E : List Nat)
    (h : bs.find? (fun e => decide (e.owner = t)) = none) :
    storeEntries (bs ++ [⟨t, []⟩]) t E = bs ++ [⟨t, E⟩] := by
  induction bs with
  | nil => simp [storeEntries]
  | cons b bs ih =>
    by_cases hb : b.owner = t
    · simp [List.find?_cons, hb] at h
    · simp only [List.find?_cons, hb, decide_False] at h
      rw [List.cons_append, storeEntries, if_neg hb, ih h, List.cons_append]

theorem NoShrink_GetThreadLocal (s : StaticMeta) (t : Nat) :
    NoShrink s.head_ (GetThreadLocal s t).head_ := by
  unfold GetThreadLocal
  cases tls_ s t with
  | some d => exact NoShrink_of_eq _ _ rfl
  | none => exact ⟨s.head_, [⟨t, []⟩], rfl, forall2_noshrink_refl _⟩

theorem NoShrink_stored (s : StaticMeta) (t id : Nat) (E : List Nat)
    (h : (entriesOf s t).length ≤ E.length) :
    NoShrink s.head_ (withEntries (growFor s t id) t E).head_ := by
  rw [head_stored]
  unfold GetThreadLocal
  cases ht : tls_ s t with
  | some d =>
    refine ⟨_, [], by rw [List.append_nil], forall2_storeEntries _ t E ?_⟩
    intro e he
    unfold tls_ at ht
    rw [ht] at he
    cases he
    have : entriesOf s t = d.entries := by simp [entriesOf, tls_, ht]
    rw [← this]
    exact h
  | none =>
    unfold tls_ at ht
    simp only [AddThreadData]
    rw [storeEntries_append_new _ t E ht]
    exact ⟨s.head_, [⟨t, E⟩], rfl, forall2_noshrink_refl _⟩

theorem NoShrink_write (s : StaticMeta) (t id v : Nat) (hid : id + 1 < U32) :
    NoShrink s.head_
      (withEntries (growFor s t id) t ((entriesOf (growFor s t id) t).set id v)).head_ := by
  apply NoShrink_stored
  rw [List.length_set, length_growFor s t id hid]
  exact Nat.le_max_left _ _

theorem NoShrink_growFor (s : StaticMeta) (t id : Nat) (hid : id + 1 < U32) :
    NoShrink s.head_ (growFor s t id).head_ := by
  have hc := covers_growFor s t id hid
  have h := NoShrink_stored s t id (entriesOf (growFor s t id) t)
    (by rw [length_growFor s t id hid]; exact Nat.le_max_left _ _)
  have e : (withEntries (growFor s t id) t (entriesOf (growFor s t id) t)).head_ =
      (growFor s t id).head_ := by
    have hst : ∀ (bs : List ThreadData) (d : ThreadData),
        bs.find? (fun e => decide (e.owner = t)) = some d →
        storeEntries bs t d.entries = bs := by
      intro bs
      induction bs with
      | nil => intro d hd; simp at hd
      | cons b bs ih =>
        intro d hd
        by_cases hb : b.owner = t
        · simp [List.find?_cons, hb] at hd
          subst hd
          rw [storeEntries, if_pos hb]
        · simp [List.find?_cons, hb] at hd
          rw [storeEntries, if_neg hb, ih d hd]
    cases hd : tls_ (growFor s t id) t with
    | none => exact absurd hd (tls_growFor_ne_none s t id)
    | some d =>
      have he : entriesOf (growFor s t id) t = d.entries := by simp [entriesOf, hd]
      unfold tls_ at hd
      rw [he]
      unfold withEntries
      exact hst _ d hd
  rw [e] at h
  exact h

/-! ## The threads that own a block -/

theorem owners_GetThreadLocal_touch (s : StaticMeta) (t : Nat) :
    (GetThreadLocal s t).head_.map ThreadData.owner =
      touch (s.head_.map ThreadData.owner) t := by
  unfold GetThreadLocal touch
  cases ht : tls_ s t with
  | some d =>
    have hm : t ∈ s.head_.map ThreadData.owner :=
      (find_isSome_iff_mem_owners _ t).1 (by unfold tls_ at ht; rw [ht]; simp)
    rw [if_pos hm]
  | none =>
    have hm : t ∉ s.head_.map ThreadData.owner := by
      intro hin
      exact (find_isSome_iff_mem_owners _ t).2 hin ht
    rw [if_neg hm]
    simp [AddThreadData]

theorem owners_stored (s : StaticMeta) (t id : Nat) (E : List Nat) :
    (withEntries (growFor s t id) t E).head_.map ThreadData.owner =
      touch (s.head_.map ThreadData.owner) t := by
  rw [head_stored, owners_storeEntries, owners_GetThreadLocal_touch]

theorem owners_unlink (bs : List ThreadData) (t : Nat) :
    (unlink bs t).map ThreadData.owner = (bs.map ThreadData.owner).erase t := by
  induction bs with
  | nil => rfl
  | cons b bs ih =>
    by_cases hb : b.owner = t
    · rw [unlink, if_pos hb, List.map_cons, hb, List.erase_cons_head]
    · rw [unlink, if_neg hb, List.map_cons, List.map_cons, ih, List.erase_cons_tail]
      simpa using hb

theorem unlink_eq_filter (bs : List ThreadData) (t : Nat)
    (hnd : (bs.map ThreadData.owner).Nodup) :
    unlink bs t = bs.filter (fun d => decide (d.owner ≠ t)) := by
  induction bs with
  | nil => rfl
  | cons b bs ih =>
    rw [List.map_cons, List.nodup_cons] at hnd
    by_cases hb : b.owner = t
    · rw [unlink, if_pos hb]
      have hf : (b :: bs).filter (fun d => decide (d.owner ≠ t)) =
          bs.filter (fun d => decide (d.owner ≠ t)) := by
        simp [List.filter_cons, hb]
      rw [hf]
      symm
      rw [List.filter_eq_self]
      intro d hd
      have hne : d.owner ≠ t := by
        intro e
        apply hnd.1
        rw [hb, ← e]
        exact List.mem_map_of_mem _ hd
      simpa using hne
    · rw [unlink, if_neg hb, ih hnd.2]
      simp [List.filter_cons, hb]

theorem touch_nodup (T : List Nat) (t : Nat) (h : T.Nodup) : (touch T t).Nodup := by
  unfold touch
  split
  · exact h
  · rename_i hn
    rw [List.nodup_append]
    refine ⟨h, List.nodup_singleton _, ?_⟩
    intro a ha hb
    rw [List.mem_singleton] at hb
    subst hb
    exact hn ha

theorem Lives_Reach (cap : Nat) (x : Sys) (T : List Nat) (h : Lives cap x T) :
    Reach cap x := by
  induction h with
  | init => exact Reach.init
  | create x T handler _ hl ih => exact Reach.create x handler ih hl
  | destroy x T id _ hl ih => exact Reach.destroy x id ih hl
  | get x T t id _ hl ih => exact Reach.get x t id ih hl
  | reset x T t id v r _ hl hr ih => exact Reach.reset x t id v r ih hl hr
  | swap x T t id v old r _ hl hr ih => exact Reach.swap x t id v old r ih hl hr
  | cas x T t id v e e1 b r _ hl hr ih => exact Reach.cas x t id v e e1 b r ih hl hr
  | scrape x T id replacement ptrs _ hl ih => exact Reach.scrape x id replacement ptrs ih hl
  | exit x T t _ ih => exact Reach.exit x t ih

/-- The owners of the blocks, in list order, are the live threads that have used
the registry, in the order of their first use. -/
theorem Lives_owners (cap : Nat) (x : Sys) (T : List Nat) (h : Lives cap x T) :
    x.reg.head_.map ThreadData.owner = T := by
  induction h with
  | init => rfl
  | create x T handler _ _ ih =>
    show (ThreadLocalPtr_ctor x.reg handler).2.head_.map ThreadData.owner = T
    rw [(ids_ctor x.reg handler).2.2.2]
    exact ih
  | destroy x T id _ _ ih =>
    show (ThreadLocalPtr_dtor x.reg id).head_.map ThreadData.owner = T
    have hb : (ThreadLocalPtr_dtor x.reg id).head_ = x.reg.head_.map (exchanged id 0) := by
      simp [ThreadLocalPtr_dtor, ReclaimId, reclaimLoop_blocks]
    rw [hb, owners_map_exchanged]
    exact ih
  | get x T t id _ _ ih =>
    show (Get x.reg t id).2.head_.map ThreadData.owner = touch T t
    rw [Get_snd, owners_GetThreadLocal_touch, ih]
  | reset x T t id v r _ _ hr ih =>
    show r.head_.map ThreadData.owner = touch T t
    rw [Reset_eq _ _ _ _ _ hr, owners_stored, ih]
  | swap x T t id v old r _ _ hr ih =>
    show r.head_.map ThreadData.owner = touch T t
    rw [Swap_eq _ _ _ _ _ _ hr, owners_stored, ih]
  | cas x T t id v e e1 b r _ _ hr ih =>
    show r.head_.map ThreadData.owner = touch T t
    rcases CompareAndSwap_eq _ _ _ _ _ _ _ _ hr with hh | hh
    · rw [hh, owners_stored, ih]
    · rw [hh, owners_growFor, owners_GetThreadLocal_touch, ih]
  | scrape x T id replacement ptrs _ _ ih =>
    show (Scrape x.reg id ptrs replacement).1.head_.map ThreadData.owner = T
    have hb : (Scrape x.reg id ptrs replacement).1.head_ =
        x.reg.head_.map (exchanged id replacement) := by
      simp [Scrape, scrapeLoop_blocks]
    rw [hb, owners_map_exchanged]
    exact ih
  | exit x T t _ ih =>
    show (threadExit x.reg t).head_.map ThreadData.owner = T.erase t
    rw [head_threadExit, owners_unlink, ih]

theorem Lives_threeThreads : Lives 1 ⟨threeThreads, [0]⟩ [1, 2, 3] :=
  Lives.reset ⟨_, [0]⟩ [1, 2] 3 0 13 _
    (Lives.reset ⟨_, [0]⟩ [1] 2 0 12 _
      (Lives.reset ⟨_, [0]⟩ [] 1 0 11 _
        (Lives.create ⟨StaticMeta.fresh, []⟩ [] 9 Lives.init (by decide))
        (by decide) (by decide : Reset _ 1 0 11 = some ⟨1, [], [(0, 9)], [⟨1, [11]⟩], []⟩))
      (by decide)
      (by decide : Reset _ 2 0 12 = some ⟨1, [], [(0, 9)], [⟨1, [11]⟩, ⟨2, [12]⟩], []⟩))
    (by decide) (by decide : Reset _ 3 0 13 = some threeThreads)

/-! ## The handler a handle was constructed with -/

theorem createdWith_of_not_mem (m : List (Nat × Nat)) (id : Nat)
    (h : id ∉ m.map Prod.fst) : createdWith m id = 0 := by
  induction m with
  | nil => rfl
  | cons p m ih =>
    obtain ⟨k, v⟩ := p
    rw [List.map_cons, List.mem_cons, not_or] at h
    have hk : ¬ k = id := fun e => h.1 e.symm
    rw [createdWith, if_neg hk]
    exact ih h.2

theorem fst_dropHandle (m : List (Nat × Nat)) (id : Nat) :
    (dropHandle m id).map Prod.fst = (m.map Prod.fst).erase id := by
  induction m with
  | nil => rfl
  | cons p m ih =>
    obtain ⟨k, v⟩ := p
    by_cases hk : k = id
    · rw [dropHandle, if_pos hk, List.map_cons, hk, List.erase_cons_head]
    · rw [dropHandle, if_neg hk, List.map_cons, List.map_cons, ih, List.erase_cons_tail]
      simpa using hk

theorem createdWith_dropHandle_self (m : List (Nat × Nat)) (id : Nat)
    (hnd : (m.map Prod.fst).Nodup) : createdWith (dropHandle m id) id = 0 := by
  induction m with
  | nil => rfl
  | cons p m ih =>
    obtain ⟨k, v⟩ := p
    rw [List.map_cons, List.nodup_cons] at hnd
    by_cases hk : k = id
    · rw [dropHandle, if_pos hk]
      apply createdWith_of_not_mem
      rw [← hk]
      exact hnd.1
    · rw [dropHandle, if_neg hk, createdWith, if_neg hk]
      exact ih hnd.2

theorem createdWith_dropHandle_other (m : List (Nat × Nat)) (id j : Nat) (hj : j ≠ id) :
    createdWith (dropHandle m id) j = createdWith m j := by
  induction m with
  | nil => rfl
  | cons p m ih =>
    obtain ⟨k, v⟩ := p
    by_cases hk : k = id
    · have hkj : ¬ k = j := fun e => hj (e ▸ hk)
      rw [dropHandle, if_pos hk, createdWith, if_neg hkj]
    · rw [dropHandle, if_neg hk]
      by_cases hkj : k = j
      · rw [createdWith, if_pos hkj, createdWith, if_pos hkj]
      · rw [createdWith, if_neg hkj, createdWith, if_neg hkj]
        exact ih

theorem GetHandler_ReclaimId_self (s : StaticMeta) (id : Nat) :
    GetHandler (ReclaimId s id) id = 0 := by
  simp [GetHandler, ReclaimId, mapFind_mapAssign_self]

theorem GetHandler_ReclaimId_other (s : StaticMeta) (id j : Nat) (hj : j ≠ id) :
    GetHandler (ReclaimId s id) j = GetHandler s j := by
  simp [GetHandler, ReclaimId, mapFind_mapAssign_other _ id j 0 hj]

theorem GetHandler_ctor_self (s : StaticMeta) (handler : Nat) (hn : handler ≠ 0) :
    GetHandler (ThreadLocalPtr_ctor s handler).2 (GetId s).1 = handler := by
  unfold ThreadLocalPtr_ctor
  simp only
  rw [if_pos hn]
  simp [GetHandler, SetHandler, mapFind_mapAssign_self]

theorem Exec_Run (cap : Nat) (x : Sys) (h : Hist) (g : Due) (hr : Exec cap x h g) :
    Run cap x h := by
  induction hr with
  | init => exact Run.init
  | create x h g handler _ hl ih => exact Run.create x h handler ih hl
  | destroy x h g id _ hl ih => exact Run.destroy x h id ih hl
  | get x h g t id _ hl ih => exact Run.get x h t id ih hl
  | reset x h g t id v r _ hl hr ih => exact Run.reset x h t id v r ih hl hr
  | swap x h g t id v old r _ hl hr ih => exact Run.swap x h t id v old r ih hl hr
  | cas x h g t id v e e1 b r _ hl hr ih => exact Run.cas x h t id v e e1 b r ih hl hr
  | scrape x h g id replacement ptrs _ hl ih =>
    exact Run.scrape x h id replacement ptrs ih hl
  | exit x h g t _ ih => exact Run.exit x h t ih

/-- While fewer than `2^32` handles are alive at once: the recorded handles are
the live ones, the handler registered for any identifier is the one its live
handle was constructed with (none when no handle is alive for it), and every
value dropped by `ReclaimId` or thread exit met that handler. -/
theorem Exec_bound (cap : Nat) (hcap : cap < U32) (x : Sys) (h : Hist) (g : Due)
    (hr : Exec cap x h g) :
    g.made.map Prod.fst = x.live ∧
    (∀ id, GetHandler x.reg id = createdWith g.made id) ∧
    h.discarded = g.owed := by
  induction hr with
  | init => exact ⟨rfl, fun _ => rfl, rfl⟩
  | create x h g handler hx hl ih =>
    obtain ⟨i1, i2, i3⟩ := ih
    have hok := Reach_IdsOk cap hcap x (Run_Reach cap x h (Exec_Run cap x h g hx))
    have hfst := (ids_ctor x.reg handler).1
    refine ⟨?_, ?_, i3⟩
    · show ((ThreadLocalPtr_ctor x.reg handler).1, handler).1 :: g.made.map Prod.fst = _
      rw [i1]
    · intro id
      show GetHandler (ThreadLocalPtr_ctor x.reg handler).2 id =
        createdWith (((ThreadLocalPtr_ctor x.reg handler).1, handler) :: g.made) id
      rw [hfst]
      by_cases hid : (GetId x.reg).1 = id
      · rw [createdWith, if_pos hid, ← hid]
        by_cases hn : handler = 0
        · have hnl : (GetId x.reg).1 ∉ g.made.map Prod.fst := by
            rw [i1]
            exact GetId_fst_not_live cap x hok
          have hc : (ThreadLocalPtr_ctor x.reg handler).2 = (GetId x.reg).2 := by
            unfold ThreadLocalPtr_ctor
            simp [hn]
          have hg : (GetId x.reg).2.handler_map_ = x.reg.handler_map_ := by
            unfold GetId
            split <;> rfl
          rw [hc, GetHandler_congr x.reg _ hg, i2, createdWith_of_not_mem _ _ hnl, hn]
        · exact GetHandler_ctor_self x.reg handler hn
      · rw [createdWith, if_neg hid, GetHandler_ctor_other x.reg handler id (Ne.symm hid)]
        exact i2 id
  | destroy x h g id hx hl ih =>
    obtain ⟨i1, i2, i3⟩ := ih
    have hok := Reach_IdsOk cap hcap x (Run_Reach cap x h (Exec_Run cap x h g hx))
    refine ⟨?_, ?_, ?_⟩
    · show (dropHandle g.made id).map Prod.fst = x.live.erase id
      rw [fst_dropHandle, i1]
    · intro j
      show GetHandler (ReclaimId x.reg id) j = createdWith (dropHandle g.made id) j
      by_cases hj : j = id
      · rw [hj, GetHandler_ReclaimId_self, createdWith_dropHandle_self]
        rw [i1]
        exact hok.live_nodup
      · rw [GetHandler_ReclaimId_other _ _ _ hj, createdWith_dropHandle_other _ _ _ hj]
        exact i2 j
    · show h.discarded ++ (heldAt id x.reg.head_).map (fun v => (GetHandler x.reg id, id, v)) =
        g.owed ++ (heldAt id x.reg.head_).map (fun v => (createdWith g.made id, id, v))
      rw [i3, i2 id]
  | get x h g t id _ _ ih =>
    obtain ⟨i1, i2, i3⟩ := ih
    refine ⟨i1, ?_, i3⟩
    intro j
    show GetHandler (Get x.reg t id).2 j = createdWith g.made j
    rw [Get_snd, GetHandler_congr x.reg _ (hm_GetThreadLocal x.reg t)]
    exact i2 j
  | reset x h g t id v r _ _ hr ih =>
    obtain ⟨i1, i2, i3⟩ := ih
    refine ⟨i1, ?_, i3⟩
    intro j
    show GetHandler r j = createdWith g.made j
    rw [Reset_eq _ _ _ _ _ hr, GetHandler_congr x.reg _ (hm_stored x.reg t id _)]
    exact i2 j
  | swap x h g t id v old r _ _ hr ih =>
    obtain ⟨i1, i2, i3⟩ := ih
    refine ⟨i1, ?_, i3⟩
    intro j
    show GetHandler r j = createdWith g.made j
    rw [Swap_eq _ _ _ _ _ _ hr, GetHandler_congr x.reg _ (hm_stored x.reg t id _)]
    exact i2 j
  | cas x h g t id v e e1 b r _ _ hr ih =>
    obtain ⟨i1, i2, i3⟩ := ih
    refine ⟨i1, ?_, i3⟩
    intro j
    show GetHandler r j = createdWith g.made j
    rcases CompareAndSwap_eq _ _ _ _ _ _ _ _ hr with hh | hh
    · rw [hh, GetHandler_congr x.reg _ (hm_stored x.reg t id _)]
      exact i2 j
    · rw [hh, GetHandler_congr x.reg _ (hm_growFor x.reg t id)]
      exact i2 j
  | scrape x h g id replacement ptrs _ _ ih =>
    obtain ⟨i1, i2, i3⟩ := ih
    exact ⟨i1, fun j => i2 j, i3⟩
  | exit x h g t _ ih =>
    obtain ⟨i1, i2, i3⟩ := ih
    refine ⟨i1, ?_, ?_⟩
    · intro j
      show GetHandler (threadExit x.reg t) j = createdWith g.made j
      rw [GetHandler_congr x.reg _ (hm_threadExit x.reg t)]
      exact i2 j
    · show h.discarded ++
          (blockPairs (entriesOf x.reg t) 0).map (fun p => (GetHandler x.reg p.1, p)) =
        g.owed ++ (blockPairs (entriesOf x.reg t) 0).map (fun p => (createdWith g.made p.1, p))
      have hf : (fun p : Nat × Nat => (GetHandler x.reg p.1, p)) =
          fun p : Nat × Nat => (createdWith g.made p.1, p) := by
        funext p
        rw [i2 p.1]
      rw [i3, hf]

theorem Exec_keptSys (cap : Nat) (hcap : 1 < cap) : Exec cap keptSys keptHist keptDue :=
  Exec.destroy ⟨⟨2, [], [(0, 9), (1, 8)], [⟨1, [11, 21]⟩], []⟩, [1, 0]⟩
    ⟨[(1, 1), (1, 0)], [], [(0, 11), (1, 21)], [], []⟩ ⟨[(1, 8), (0, 9)], []⟩ 1
    (Exec.reset ⟨⟨2, [], [(0, 9), (1, 8)], [⟨1, [11]⟩], []⟩, [1, 0]⟩
      ⟨[(1, 0)], [], [(0, 11)], [], []⟩ ⟨[(1, 8), (0, 9)], []⟩ 1 1 21 _
      (Exec.reset ⟨⟨2, [], [(0, 9), (1, 8)], [], []⟩, [1, 0]⟩ Hist.empty
        ⟨[(1, 8), (0, 9)], []⟩ 1 0 11 _
        (Exec.create ⟨⟨1, [], [(0, 9)], [], []⟩, [0]⟩ Hist.empty ⟨[(0, 9)], []⟩ 8
          (Exec.create ⟨StaticMeta.fresh, []⟩ Hist.empty ⟨[], []⟩ 9 Exec.init
            (Nat.zero_lt_of_lt hcap))
          hcap)
        (by decide)
        (by decide :
          Reset _ 1 0 11 = some ⟨2, [], [(0, 9), (1, 8)], [⟨1, [11]⟩], []⟩))
      (by decide)
      (by decide :
        Reset _ 1 1 21 = some ⟨2, [], [(0, 9), (1, 8)], [⟨1, [11, 21]⟩], []⟩))
    (by decide)

theorem mem_createAfter (x : Sys) (n id : Nat) (h : id ∈ x.live) :
    id ∈ (createAfter x n).live := by
  induction n with
  | zero => exact h
  | succ n ih => exact List.mem_cons_of_mem _ ih

theorem Reach_reboundSys : Reach 4294967297 reboundSys := by
  have h1 : Reach 4294967297 (createAfter oneHandler 4294967295) := by
    apply Reach_createAfter
    · exact Reach.create ⟨StaticMeta.fresh, []⟩ 9 Reach.init (by decide)
    · decide
  have hres : Reset (createAfter oneHandler 4294967295).reg 1 0 7 =
      some ⟨0, [], [(0, 9)], [⟨1, [7]⟩], []⟩ := by
    rw [createAfter_oneHandler_reg]
    decide
  have h2 := Reach.reset (createAfter oneHandler 4294967295) 1 0 7 _ h1
    (mem_createAfter oneHandler 4294967295 0 (by decide)) hres
  have hlen : (createAfter oneHandler 4294967295).live.length < 4294967297 := by
    rw [createAfter_length]
    decide
  exact Reach.create _ 8 h2 hlen

/-! ## Theorems -/

/-- C2: `GetId` is total; with a non-empty free list it returns the last element
and removes exactly that element, leaving the counter unchanged; with an empty
free list it returns the counter and increments it by one (as a `uint32_t`). It
changes no block, no handler and makes no handler call. -/
theorem GetId_spec (s : StaticMeta) :
    (s.free_instance_ids_ ≠ [] →
      (∃ h : s.free_instance_ids_ ≠ [], (GetId s).1 = s.free_instance_ids_.getLast h) ∧
      (GetId s).2.free_instance_ids_ ++ [(GetId s).1] = s.free_instance_ids_ ∧
      (GetId s).2.next_instance_id_ = s.next_instance_id_) ∧
    (s.free_instance_ids_ = [] →
      (GetId s).1 = s.next_instance_id_ ∧
      (GetId s).2.next_instance_id_ = (s.next_instance_id_ + 1) % U32 ∧
      (s.next_instance_id_ + 1 < U32 →
        (GetId s).2.next_instance_id_ = s.next_instance_id_ + 1) ∧
      (GetId s).2.free_instance_ids_ = []) ∧
    (GetId s).2.head_ = s.head_ ∧
    (GetId s).2.handler_map_ = s.handler_map_ ∧
    (GetId s).2.unref_calls = s.unref_calls := by
  unfold GetId
  rcases List.eq_nil_or_concat s.free_instance_ids_ with h | ⟨l, a, h⟩
  · simp [h]
    intro hlt
    exact Nat.mod_eq_of_lt hlt
  · simp [h]

/-- Witness for C2 on a registry with free list `[5, 7]` and on the fresh registry. -/
theorem GetId_spec_witness :
    (GetId ⟨3, [5, 7], [], [], []⟩).2.free_instance_ids_ ++ [(GetId ⟨3, [5, 7], [], [], []⟩).1]
      = [5, 7] ∧
    (GetId StaticMeta.fresh).2.next_instance_id_ = 0 + 1 :=
  ⟨((GetId_spec ⟨3, [5, 7], [], [], []⟩).1 (by decide)).2.1,
   ((GetId_spec StaticMeta.fresh).2.1 rfl).2.2.1 (by decide)⟩

/-- C4: after `ReclaimId(id)` no block holds a non-null value at `id`: the
blocks are the same blocks in the same order, each block that covers `id` has
entry `id` null (its other entries kept), and each shorter block is unchanged. -/
theorem ReclaimId_clears (s : StaticMeta) (id : Nat) :
    List.Forall₂
      (fun b c => c.owner = b.owner ∧
        (id < b.entries.length → c.entries = b.entries.set id 0 ∧ c.entries[id]? = some 0) ∧
        (¬ id < b.entries.length → c = b))
      s.head_ (ReclaimId s id).head_ ∧
    (∀ c ∈ (ReclaimId s id).head_, c.entries.getD id 0 = 0) := by
  have hb : (ReclaimId s id).head_ = s.head_.map (exchanged id 0) := by
    simp [ReclaimId, reclaimLoop_blocks]
  rw [hb]
  refine ⟨forall2_exchanged id 0 s.head_, ?_⟩
  intro c hc
  obtain ⟨b, _, rfl⟩ := List.mem_map.1 hc
  have := entryAt_exchanged id 0 b
  simp only [entryAt] at this
  rw [this]
  split <;> rfl

/-- C5: `ReclaimId(id)` calls the handler registered for `id` once per block
whose entry at `id` was non-null, with that value, in list order, and makes no
other call; the number of calls is the number of such blocks; with no handler
registered it calls nothing. -/
theorem ReclaimId_unref_calls (s : StaticMeta) (id : Nat) :
    (ReclaimId s id).unref_calls =
      s.unref_calls ++
        (if GetHandler s id = 0 then []
         else (heldAt id s.head_).map (fun p => (GetHandler s id, p))) ∧
    (GetHandler s id ≠ 0 →
      (ReclaimId s id).unref_calls.length =
        s.unref_calls.length + s.head_.countP (fun d => decide (d.entries.getD id 0 ≠ 0))) ∧
    (GetHandler s id = 0 → (ReclaimId s id).unref_calls = s.unref_calls) := by
  have hc : (ReclaimId s id).unref_calls =
      s.unref_calls ++ (if GetHandler s id = 0 then []
         else (heldAt id s.head_).map (fun p => (GetHandler s id, p))) := by
    simp [ReclaimId, reclaimLoop_calls]
  refine ⟨hc, ?_, ?_⟩
  · intro hn
    rw [hc, if_neg hn]
    simp only [List.length_append, List.length_map, heldAt, List.countP_eq_length_filter,
      List.filter_map, Function.comp_def, entryAt]
  · intro hz
    rw [hc, if_pos hz, List.append_nil]

/-- Witness for C5: values in three threads and a handler give exactly three calls. -/
theorem ReclaimId_unref_calls_witness :
    (ReclaimId threeThreads 0).unref_calls.length = 0 + 3 :=
  (ReclaimId_unref_calls threeThreads 0).2.1 (by decide)

/-- C6: after `ReclaimId(id)` the map holds the key `id` with a null handler,
`id` is the last element of the free list, the next `GetId` returns `id` and
restores the former free list, and the counter is unchanged. -/
theorem ReclaimId_then_GetId (s : StaticMeta) (id : Nat) :
    mapFind (ReclaimId s id).handler_map_ id = some 0 ∧
    GetHandler (ReclaimId s id) id = 0 ∧
    (ReclaimId s id).free_instance_ids_ = s.free_instance_ids_ ++ [id] ∧
    (ReclaimId s id).next_instance_id_ = s.next_instance_id_ ∧
    (GetId (ReclaimId s id)).1 = id ∧
    (GetId (ReclaimId s id)).2.free_instance_ids_ = s.free_instance_ids_ ∧
    (GetId (ReclaimId s id)).2.next_instance_id_ = s.next_instance_id_ := by
  have hm : mapFind (ReclaimId s id).handler_map_ id = some 0 := by
    simp [ReclaimId, mapFind_mapAssign_self]
  refine ⟨hm, ?_, rfl, rfl, ?_, ?_, ?_⟩
  · simp [GetHandler, hm]
  · simp [GetId, ReclaimId]
  · simp [GetId, ReclaimId]
  · simp [GetId, ReclaimId]

/-- C7: `Scrape(id, ptrs, replacement)` leaves the same blocks in the same
order, each block that covers `id` having entry `id` equal to `replacement` and
each shorter block unchanged; the output is the former output followed by the
non-null prior values at `id`, in list order, where a block registered by
`AddThreadData` comes last; nothing else of the registry changes. -/
theorem Scrape_spec (s : StaticMeta) (id : Nat) (ptrs : List Nat) (replacement : Nat) :
    List.Forall₂
      (fun b c => c.owner = b.owner ∧
        (id < b.entries.length →
          c.entries = b.entries.set id replacement ∧ c.entries[id]? = some replacement) ∧
        (¬ id < b.entries.length → c = b))
      s.head_ (Scrape s id ptrs replacement).1.head_ ∧
    (Scrape s id ptrs replacement).2 =
      ptrs ++ (s.head_.map (fun b => b.entries.getD id 0)).filter (fun p => decide (p ≠ 0)) ∧
    (∀ d : ThreadData, (Scrape (AddThreadData s d) id ptrs replacement).2 =
      (Scrape s id ptrs replacement).2 ++
        (if d.entries.getD id 0 ≠ 0 then [d.entries.getD id 0] else [])) ∧
    (Scrape s id ptrs replacement).1.next_instance_id_ = s.next_instance_id_ ∧
    (Scrape s id ptrs replacement).1.free_instance_ids_ = s.free_instance_ids_ ∧
    (Scrape s id ptrs replacement).1.handler_map_ = s.handler_map_ ∧
    (Scrape s id ptrs replacement).1.unref_calls = s.unref_calls := by
  refine ⟨?_, ?_, ?_, rfl, rfl, rfl, rfl⟩
  · have hb : (Scrape s id ptrs replacement).1.head_ = s.head_.map (exchanged id replacement) := by
      simp [Scrape, scrapeLoop_blocks]
    rw [hb]
    exact forall2_exchanged id replacement s.head_
  · simp only [Scrape, scrapeLoop_ptrs]
    rfl
  · intro d
    simp only [Scrape, scrapeLoop_ptrs, AddThreadData, heldAt_append, List.append_assoc]
    rw [heldAt_cons]
    simp [heldAt, entryAt]

/-- C9 as stated fails at the identifier `4294967295`: `id + 1` is `0` in
`uint32_t`, the block is resized to length `0`, and the store indexes the vector
outside its bounds, so `Reset` produces no state from which `Get` could return
the value. This is so on the fresh registry and also when `4294967295` is the
identifier of a live handle, the last of `2^32` constructed. -/
theorem Reset_Get_counterexample :
    Reset StaticMeta.fresh 0 4294967295 7 = none ∧
    (¬ ∃ s1, Reset StaticMeta.fresh 0 4294967295 7 = some s1 ∧ (Get s1 0 4294967295).1 = 7) ∧
    Reach 4294967296 (createMany 4294967296) ∧
    4294967295 ∈ (createMany 4294967296).live ∧
    Reset (createMany 4294967296).reg 0 4294967295 7 = none := by
  have h : Reset StaticMeta.fresh 0 4294967295 7 = none := by decide
  refine ⟨h, ?_, Reach_createMany _ _ (Nat.le_refl _), last_mem_createMany, ?_⟩
  · rintro ⟨s1, h1, _⟩
    rw [h] at h1
    cases h1
  · rw [createMany_wrapped_reg]
    exact h

/-- C9 (amended): for every registry state, every thread (with or without a
block), every identifier `id` below `2^32 - 1` and every value `v`,
`Reset(id, v)` succeeds and a following `Get(id)` on the same thread returns `v`. -/
theorem Reset_Get_roundtrip (s : StaticMeta) (t id v : Nat) (hid : id + 1 < U32) :
    ∃ s1, Reset s t id v = some s1 ∧ (Get s1 t id).1 = v := by
  have hc := covers_growFor s t id hid
  refine ⟨withEntries (growFor s t id) t ((entriesOf (growFor s t id) t).set id v), ?_, ?_⟩
  · simp [Reset, hc]
  · exact Get_stored s t id v hc

/-- Witness for C9: a thread without a block writes slot `2` of a registry that
already has another block. -/
theorem Reset_Get_roundtrip_witness :
    2 + 1 < U32 ∧ ∃ s1, Reset threeThreads 7 2 5 = some s1 ∧ (Get s1 7 2).1 = 5 :=
  ⟨by decide, Reset_Get_roundtrip threeThreads 7 2 5 (by decide)⟩

/-- C10 as stated fails at the identifier `4294967295`: the block is resized to
length `0` and the exchange indexes the vector outside its bounds, so `Swap`
returns nothing. This is so on the fresh registry and also when `4294967295` is
the identifier of a live handle, the last of `2^32` constructed. -/
theorem Swap_counterexample :
    Swap StaticMeta.fresh 0 4294967295 7 = none ∧
    (¬ ∃ s1, Swap StaticMeta.fresh 0 4294967295 7 =
      some ((Get StaticMeta.fresh 0 4294967295).1, s1)) ∧
    Reach 4294967296 (createMany 4294967296) ∧
    4294967295 ∈ (createMany 4294967296).live ∧
    Swap (createMany 4294967296).reg 0 4294967295 7 = none := by
  have h : Swap StaticMeta.fresh 0 4294967295 7 = none := by decide
  refine ⟨h, ?_, Reach_createMany _ _ (Nat.le_refl _), last_mem_createMany, ?_⟩
  · rintro ⟨s1, h1⟩
    rw [h] at h1
    cases h1
  · rw [createMany_wrapped_reg]
    exact h

/-- C10 (amended): for every identifier `id` below `2^32 - 1`, `Swap(id, v)` on
a thread returns the value `Get(id)` on that thread would have returned just
before (null when the block did not cover `id`), and afterwards `Get(id)` on
that thread returns `v`. -/
theorem Swap_spec (s : StaticMeta) (t id v : Nat) (hid : id + 1 < U32) :
    ∃ s1, Swap s t id v = some ((Get s t id).1, s1) ∧
      (¬ id < (entriesOf s t).length → (Get s t id).1 = 0) ∧
      (Get s1 t id).1 = v := by
  have hc := covers_growFor s t id hid
  refine ⟨withEntries (growFor s t id) t ((entriesOf (growFor s t id) t).set id v), ?_, ?_, ?_⟩
  · unfold Swap
    simp only
    rw [if_pos hc, Get_fst, getD_entriesOf_growFor s t id id hid]
  · intro hn
    rw [Get_fst]
    simp [List.getD_eq_getElem?_getD, List.getElem?_eq_none (Nat.le_of_not_lt hn)]
  · exact Get_stored s t id v hc

/-- Witness for C10: thread `2` swaps the value `12` it holds at slot `0` for `5`. -/
theorem Swap_spec_witness :
    0 + 1 < U32 ∧ ∃ s1, Swap threeThreads 2 0 5 = some ((Get threeThreads 2 0).1, s1) ∧
      (¬ 0 < (entriesOf threeThreads 2).length → (Get threeThreads 2 0).1 = 0) ∧
      (Get s1 2 0).1 = 5 :=
  ⟨by decide, Swap_spec threeThreads 2 0 5 (by decide)⟩

/-- C8 as stated fails at the slot `4294967295`, the identifier of the last of
`2^32` live handles: the `Reset` of the first thread resizes its block to length
`0` and indexes it outside its bounds, so there is no state to scrape. -/
theorem Scrape_complete_counterexample :
    Reach 4294967296 (createMany 4294967296) ∧
    4294967295 ∈ (createMany 4294967296).live ∧
    resetAll (createMany 4294967296).reg 4294967295 [(0, 7)] = none ∧
    ¬ ∃ s1, resetAll (createMany 4294967296).reg 4294967295 [(0, 7)] = some s1 ∧
      (Scrape s1 4294967295 [] 0).2.length = 1 := by
  have h : resetAll (createMany 4294967296).reg 4294967295 [(0, 7)] = none := by
    rw [createMany_wrapped_reg]
    decide
  refine ⟨Reach_createMany _ _ (Nat.le_refl _), last_mem_createMany, h, ?_⟩
  rintro ⟨s1, h1, _⟩
  rw [h] at h1
  cases h1

/-- C8 (amended): for every slot `S` below `2^32 - 1` and every list `ws` of `N`
pairs (thread, non-null value) with distinct threads, in a registry with one
block per thread where no other thread holds a value at `S`, the `N` calls
`Reset` succeed, `Scrape(S, null)` into an empty output then yields exactly `N`
values, which are the values written, and `Get` on `S` from each of those
threads then returns null. -/
theorem Scrape_complete (s : StaticMeta) (S : Nat) (ws : List (Nat × Nat))
    (hS : S + 1 < U32) (hw : OneBlockPerThread s) (hT : (ws.map Prod.fst).Nodup)
    (hV : ∀ w ∈ ws, w.2 ≠ 0)
    (hO : ∀ d ∈ s.head_, d.owner ∉ ws.map Prod.fst → d.entries.getD S 0 = 0) :
    ∃ s1, resetAll s S ws = some s1 ∧
      (Scrape s1 S [] 0).2.length = ws.length ∧
      (Scrape s1 S [] 0).2.Perm (ws.map Prod.snd) ∧
      ∀ w ∈ ws, (Get (Scrape s1 S [] 0).1 w.1 S).1 = 0 := by
  obtain ⟨s1, hs1, hp⟩ := resetAll_held S hS ws s hw hT hV
  have hnone : heldAt S (s.head_.filter (fun d => decide (d.owner ∉ ws.map Prod.fst))) = [] := by
    unfold heldAt
    rw [List.filter_eq_nil_iff]
    intro p hpm
    obtain ⟨d, hd, rfl⟩ := List.mem_map.1 hpm
    rw [List.mem_filter] at hd
    have := hO d hd.1 (by simpa using hd.2)
    simp only [entryAt, this]
    decide
  rw [hnone, List.append_nil] at hp
  have hout : (Scrape s1 S [] 0).2 = heldAt S s1.head_ := by
    simp [Scrape, scrapeLoop_ptrs]
  refine ⟨s1, hs1, ?_, ?_, ?_⟩
  · rw [hout, hp.length_eq, List.length_map]
  · rw [hout]
    exact hp
  · intro w _
    rw [Get_after_Scrape]
    split <;> rfl

/-- Witness for C8: threads `2` and `7` (the latter without a block) write slot
`0` while thread `1` and `3` hold nothing there. -/
theorem Scrape_complete_witness :
    ∃ s1, resetAll ⟨1, [], [], [⟨1, [0]⟩, ⟨2, [4]⟩, ⟨3, []⟩], []⟩ 0 [(2, 5), (7, 6)] = some s1 ∧
      (Scrape s1 0 [] 0).2.length = [(2, 5), (7, 6)].length ∧
      (Scrape s1 0 [] 0).2.Perm ([(2, 5), (7, 6)].map Prod.snd) ∧
      ∀ w ∈ [(2, 5), (7, 6)], (Get (Scrape s1 0 [] 0).1 w.1 0).1 = 0 :=
  Scrape_complete ⟨1, [], [], [⟨1, [0]⟩, ⟨2, [4]⟩, ⟨3, []⟩], []⟩ 0 [(2, 5), (7, 6)]
    (by decide) (by decide) (by decide) (by decide) (by decide)

/-- C1 as stated fails: after `2^32 + 1` handles were constructed and none
destroyed, the 32-bit counter has wrapped and the last handle holds the
identifier `0` of the first, which is still alive. -/
theorem id_uniqueness_counterexample :
    Reach 4294967297 (createMany 4294967297) ∧ ¬ (createMany 4294967297).live.Nodup := by
  refine ⟨Reach_createMany 4294967297 4294967297 (Nat.le_refl _), ?_⟩
  have e : (4294967297 : Nat) = 4294967296 + 1 := rfl
  rw [e, createMany_live_succ]
  intro hnd
  have h0 : (4294967296 : Nat) % U32 = 0 := by decide
  rw [h0] at hnd
  exact (List.nodup_cons.1 hnd).1 (zero_mem_createMany 4294967295)

/-- C1 (amended): in every state reachable from the fresh registry while at most
`2^32 - 1` handles are alive at once, no two live handles hold the same
identifier, the free list has no duplicates and contains no identifier of a
live handle, and `GetId` returns no identifier of a live handle. -/
theorem id_uniqueness (x : Sys) (h : Reach (U32 - 1) x) :
    x.live.Nodup ∧
    x.reg.free_instance_ids_.Nodup ∧
    (∀ id ∈ x.reg.free_instance_ids_, id ∉ x.live) ∧
    (GetId x.reg).1 ∉ x.live := by
  have hi := Reach_IdsOk (U32 - 1) (by decide) x h
  exact ⟨hi.live_nodup, hi.free_nodup, hi.disjoint, GetId_fst_not_live _ x hi⟩

/-- Witness for C1: two handles are constructed, the first is destroyed. -/
theorem id_uniqueness_witness :
    Reach (U32 - 1) ⟨ThreadLocalPtr_dtor (createMany 2).reg 0, (createMany 2).live.erase 0⟩ ∧
    (createMany 2).live.erase 0 = [1] ∧
    (GetId (ThreadLocalPtr_dtor (createMany 2).reg 0)).1 ∉ (createMany 2).live.erase 0 :=
  ⟨Reach.destroy _ 0 (Reach_createMany _ 2 (by decide)) (by decide), by decide,
   (id_uniqueness _
      (Reach.destroy _ 0 (Reach_createMany _ 2 (by decide)) (by decide))).2.2.2⟩

/-- C3 as stated fails: once `2^32` handles are alive the counter has wrapped to
`0`, so identifier `0` counts as not yet issued although thread `0` holds the
value `7` there, and the next handle is given identifier `0` and reads `7`. -/
theorem id_reuse_counterexample :
    Reach 4294967296 wrappedSys ∧
    wrappedSys.reg.next_instance_id_ ≤ 0 ∧
    (∃ d ∈ wrappedSys.reg.head_, d.entries.getD 0 0 ≠ 0) ∧
    (ThreadLocalPtr_ctor wrappedSys.reg 0).1 = 0 ∧
    (Get (ThreadLocalPtr_ctor wrappedSys.reg 0).2 0 (ThreadLocalPtr_ctor wrappedSys.reg 0).1).1
      = 7 := by
  refine ⟨?_, by decide, by decide, by decide, by decide⟩
  have hr := Reach_createMany 4294967296 4294967296 (Nat.le_refl _)
  have hl : 0 ∈ (createMany 4294967296).live := zero_mem_createMany 4294967295
  have hreg : (createMany 4294967296).reg = ⟨0, [], [], [], []⟩ := by
    rw [createMany_reg]
    rfl
  have hreset : Reset (createMany 4294967296).reg 0 0 7 = some ⟨0, [], [], [⟨0, [7]⟩], []⟩ := by
    rw [hreg]
    decide
  exact Reach.reset (createMany 4294967296) 0 0 7 _ hr hl hreset

/-- C3 (amended): in every state reachable while at most `2^32 - 1` handles are
alive at once, every identifier that is in the free list or not yet issued by
the counter has a null or absent entry in every block; hence a newly
constructed handle, also one that reuses a recycled identifier, reads null
from `Get` on every thread. -/
theorem id_reuse_safety (x : Sys) (h : Reach (U32 - 1) x) :
    (∀ id, (id ∈ x.reg.free_instance_ids_ ∨ x.reg.next_instance_id_ ≤ id) →
      ∀ d ∈ x.reg.head_, d.entries.getD id 0 = 0) ∧
    (∀ handler t : Nat,
      (Get (ThreadLocalPtr_ctor x.reg handler).2 t (ThreadLocalPtr_ctor x.reg handler).1).1
        = 0) := by
  have hc := Reach_clean (U32 - 1) (by decide) x h
  refine ⟨hc, ?_⟩
  intro handler t
  obtain ⟨e1, _, _, e4⟩ := ids_ctor x.reg handler
  rw [Get_fst]
  apply getD_entriesOf_of_NullAt
  rw [e1, e4]
  exact hc _ (GetId_fst_unissued x.reg)

/-- Witness for C3: thread `4` writes through a handle, the handle is destroyed,
and the state is reachable. -/
theorem id_reuse_safety_witness :
    Reach (U32 - 1)
      ⟨ThreadLocalPtr_dtor ⟨1, [], [(0, 9)], [⟨4, [5]⟩], []⟩ 0, [0].erase 0⟩ ∧
    (∀ handler t : Nat,
      (Get (ThreadLocalPtr_ctor
          (ThreadLocalPtr_dtor ⟨1, [], [(0, 9)], [⟨4, [5]⟩], []⟩ 0) handler).2 t
        (ThreadLocalPtr_ctor
          (ThreadLocalPtr_dtor ⟨1, [], [(0, 9)], [⟨4, [5]⟩], []⟩ 0) handler).1).1 = 0) :=
  ⟨Reach.destroy ⟨⟨1, [], [(0, 9)], [⟨4, [5]⟩], []⟩, [0]⟩ 0
      (Reach.reset ⟨⟨1, [], [(0, 9)], [], []⟩, [0]⟩ 4 0 5 _
        (Reach.create ⟨StaticMeta.fresh, []⟩ 9 Reach.init (by decide))
        (by decide) (by decide))
      (by decide),
   (id_reuse_safety _
      (Reach.destroy ⟨⟨1, [], [(0, 9)], [⟨4, [5]⟩], []⟩, [0]⟩ 0
        (Reach.reset ⟨⟨1, [], [(0, 9)], [], []⟩, [0]⟩ 4 0 5 _
          (Reach.create ⟨StaticMeta.fresh, []⟩ 9 Reach.init (by decide))
          (by decide) (by decide))
        (by decide))).2⟩

/-- C11 as stated fails at the identifier `4294967295`: the calling thread's
current value there is null and equals the expected value `0`, yet the block is
resized to length `0`, the compare-exchange indexes it outside its bounds, and
nothing is returned. This is so on the fresh registry and also when
`4294967295` is the identifier of a live handle, the last of `2^32` constructed. -/
theorem CompareAndSwap_counterexample :
    (Get StaticMeta.fresh 0 4294967295).1 = 0 ∧
    CompareAndSwap StaticMeta.fresh 0 4294967295 7 0 = none ∧
    Reach 4294967296 (createMany 4294967296) ∧
    4294967295 ∈ (createMany 4294967296).live ∧
    CompareAndSwap (createMany 4294967296).reg 0 4294967295 7 0 = none := by
  have h : CompareAndSwap StaticMeta.fresh 0 4294967295 7 0 = none := by decide
  refine ⟨by decide, h, Reach_createMany _ _ (Nat.le_refl _), last_mem_createMany, ?_⟩
  rw [createMany_wrapped_reg]
  exact h

/-- C11 (amended): for every thread, every identifier `id` below `2^32 - 1`,
every expected value `X` and new value `Y`, `CompareAndSwap(id, Y, X)` returns,
and returns true exactly when the calling thread's current value at `id` (null
when the block did not cover `id`) equals `X`; when it returns true the entry
becomes `Y`, and when it returns false the entry keeps its value. -/
theorem CompareAndSwap_spec (s : StaticMeta) (t id Y X : Nat) (hid : id + 1 < U32) :
    ∃ b e1 r, CompareAndSwap s t id Y X = some (b, e1, r) ∧
      (b = true ↔ (Get s t id).1 = X) ∧
      (¬ id < (entriesOf s t).length → (Get s t id).1 = 0) ∧
      (b = true → (Get r t id).1 = Y) ∧
      (b = false → (Get r t id).1 = (Get s t id).1) := by
  have hc := covers_growFor s t id hid
  have hcur : (entriesOf (growFor s t id) t).getD id 0 = (Get s t id).1 := by
    rw [Get_fst, getD_growFor_of_covers s t id id hc]
  have hnull : ¬ id < (entriesOf s t).length → (Get s t id).1 = 0 := by
    intro hn
    rw [Get_fst]
    simp [List.getD_eq_getElem?_getD, List.getElem?_eq_none (Nat.le_of_not_lt hn)]
  by_cases hx : (Get s t id).1 = X
  · refine ⟨true, X,
      withEntries (growFor s t id) t ((entriesOf (growFor s t id) t).set id Y), ?_, ?_, hnull,
      ?_, ?_⟩
    · unfold CompareAndSwap
      simp only
      rw [if_pos hc, hcur, if_pos hx]
    · simp [hx]
    · intro _
      exact Get_stored s t id Y hc
    · intro hb
      cases hb
  · refine ⟨false, (Get s t id).1, growFor s t id, ?_, ?_, hnull, ?_, ?_⟩
    · unfold CompareAndSwap
      simp only
      rw [if_pos hc, hcur, if_neg hx]
    · simp [hx]
    · intro hb
      cases hb
    · intro _
      exact Get_growFor s t id hc

/-- Witness for C11: thread `2` holds `12` at slot `0`. -/
theorem CompareAndSwap_spec_witness :
    0 + 1 < U32 ∧ ∃ b e1 r, CompareAndSwap threeThreads 2 0 5 12 = some (b, e1, r) ∧
      (b = true ↔ (Get threeThreads 2 0).1 = 12) ∧
      (¬ 0 < (entriesOf threeThreads 2).length → (Get threeThreads 2 0).1 = 0) ∧
      (b = true → (Get r 2 0).1 = 5) ∧
      (b = false → (Get r 2 0).1 = (Get threeThreads 2 0).1) :=
  ⟨by decide, CompareAndSwap_spec threeThreads 2 0 5 12 (by decide)⟩

/-- C12 as stated fails: thread `2` holds `12` at slot `0`; comparing with the
expected value `3` fails and the reference argument comes back as `12`. -/
theorem CompareAndSwap_expected_counterexample :
    CompareAndSwap threeThreads 2 0 5 3 = some (false, 12, threeThreads) ∧ (12 : Nat) ≠ 3 := by
  decide

/-- C12 (amended): when `CompareAndSwap(id, Y, X)` returns false, the reference
argument `expected` holds on return the calling thread's current value at `id`,
which differs from the value `X` passed in, and the entry keeps that value. -/
theorem CompareAndSwap_expected (s : StaticMeta) (t id Y X e1 : Nat) (r : StaticMeta)
    (h : CompareAndSwap s t id Y X = some (false, e1, r)) :
    e1 = (Get s t id).1 ∧ e1 ≠ X ∧ (Get r t id).1 = e1 := by
  unfold CompareAndSwap at h
  simp only at h
  split at h
  · rename_i hc
    have hcur : (entriesOf (growFor s t id) t).getD id 0 = (Get s t id).1 := by
      rw [Get_fst, getD_growFor_of_covers s t id id hc]
    split at h
    · cases h
    · rename_i hx
      simp only [Option.some.injEq, Prod.mk.injEq, true_and] at h
      obtain ⟨h1, h2⟩ := h
      subst h2
      rw [← h1, Get_growFor s t id hc]
      exact ⟨hcur, hx, hcur.symm⟩
  · cases h

/-- Witness for C12: the failing comparison of thread `2` at slot `0`. -/
theorem CompareAndSwap_expected_witness :
    (12 : Nat) = (Get threeThreads 2 0).1 ∧ (12 : Nat) ≠ 3 ∧ (Get threeThreads 2 0).1 = 12 :=
  CompareAndSwap_expected threeThreads 2 0 5 3 12 threeThreads (by decide)

/-- C13: for distinct threads `A` and `B`, a `Reset`, `Swap` or `CompareAndSwap`
that `A` performs at a slot leaves `tls_` of `B` and so every entry of the block
of `B` as it was, and `Get` of `B` returns at every slot what it returned
before; for slots below `2^32 - 1` the three calls of `A` do return. -/
theorem isolation (s : StaticMeta) (A B S v : Nat) (hAB : A ≠ B) :
    (∀ r, Reset s A S v = some r →
      tls_ r B = tls_ s B ∧ ∀ S1, (Get r B S1).1 = (Get s B S1).1) ∧
    (∀ old r, Swap s A S v = some (old, r) →
      tls_ r B = tls_ s B ∧ ∀ S1, (Get r B S1).1 = (Get s B S1).1) ∧
    (∀ e b e1 r, CompareAndSwap s A S v e = some (b, e1, r) →
      tls_ r B = tls_ s B ∧ ∀ S1, (Get r B S1).1 = (Get s B S1).1) ∧
    (S + 1 < U32 → (∃ r, Reset s A S v = some r) ∧ (∃ p, Swap s A S v = some p) ∧
      ∀ e, ∃ p, CompareAndSwap s A S v e = some p) := by
  have hBA : B ≠ A := fun e => hAB e.symm
  refine ⟨?_, ?_, ?_, ?_⟩
  · intro r hr
    rw [Reset_eq _ _ _ _ _ hr]
    have ht := tls_stored_other s A B S ((entriesOf (growFor s A S) A).set S v) hBA
    exact ⟨ht, Get_fst_of_tls _ _ _ ht⟩
  · intro old r hr
    rw [Swap_eq _ _ _ _ _ _ hr]
    have ht := tls_stored_other s A B S ((entriesOf (growFor s A S) A).set S v) hBA
    exact ⟨ht, Get_fst_of_tls _ _ _ ht⟩
  · intro e b e1 r hr
    rcases CompareAndSwap_eq _ _ _ _ _ _ _ _ hr with hh | hh
    · rw [hh]
      have ht := tls_stored_other s A B S ((entriesOf (growFor s A S) A).set S v) hBA
      exact ⟨ht, Get_fst_of_tls _ _ _ ht⟩
    · rw [hh]
      have ht := tls_growFor_other s A B S hBA
      exact ⟨ht, Get_fst_of_tls _ _ _ ht⟩
  · intro hS
    have hc := covers_growFor s A S hS
    refine ⟨⟨_, (Reset_Get_aux S s A v hS).choose_spec.1⟩, ?_, ?_⟩
    · unfold Swap
      simp only [hc, if_true]
      exact ⟨_, rfl⟩
    · intro e
      unfold CompareAndSwap
      simp only [hc, if_true]
      split
      · exact ⟨_, rfl⟩
      · exact ⟨_, rfl⟩

/-- Witness for C13: thread `1` writes slot `0` while thread `2` holds `12` there. -/
theorem isolation_witness :
    (1 : Nat) ≠ 2 ∧
    tls_ (⟨1, [], [(0, 9)], [⟨1, [5]⟩, ⟨2, [12]⟩, ⟨3, [13]⟩], []⟩ : StaticMeta) 2 =
      tls_ threeThreads 2 ∧
    (Get (⟨1, [], [(0, 9)], [⟨1, [5]⟩, ⟨2, [12]⟩, ⟨3, [13]⟩], []⟩ : StaticMeta) 2 0).1 =
      (Get threeThreads 2 0).1 :=
  ⟨by decide,
   ((isolation threeThreads 1 2 0 5 (by decide)).1
      ⟨1, [], [(0, 9)], [⟨1, [5]⟩, ⟨2, [12]⟩, ⟨3, [13]⟩], []⟩ (by decide)).1,
   ((isolation threeThreads 1 2 0 5 (by decide)).1
      ⟨1, [], [(0, 9)], [⟨1, [5]⟩, ⟨2, [12]⟩, ⟨3, [13]⟩], []⟩ (by decide)).2 0⟩

/-- C18: `GetHandler(id)` returns the handler of the most recent
`SetHandler(id, ·)`, whatever was registered before and whatever is registered
for other identifiers afterwards; it returns null for a key that is not in the
map, as on the fresh registry; `SetHandler(id, h)` leaves the handler of every
other identifier unchanged. -/
theorem handler_registry (s : StaticMeta) (id h : Nat) :
    GetHandler (SetHandler s id h) id = h ∧
    (∀ h2, GetHandler (SetHandler (SetHandler s id h) id h2) id = h2) ∧
    (∀ j h2, j ≠ id → GetHandler (SetHandler (SetHandler s id h) j h2) id = h) ∧
    (∀ j, j ≠ id → GetHandler (SetHandler s id h) j = GetHandler s j) ∧
    (mapFind s.handler_map_ id = none → GetHandler s id = 0) ∧
    (∀ j, j ≠ id → mapFind s.handler_map_ j = none →
      GetHandler (SetHandler s id h) j = 0) ∧
    GetHandler StaticMeta.fresh id = 0 := by
  have h1 : ∀ (s : StaticMeta) (id h : Nat), GetHandler (SetHandler s id h) id = h := by
    intro s id h
    simp [GetHandler, SetHandler, mapFind_mapAssign_self]
  have h2 : ∀ (s : StaticMeta) (id j h : Nat), j ≠ id →
      GetHandler (SetHandler s id h) j = GetHandler s j := by
    intro s id j h hj
    simp [GetHandler, SetHandler, mapFind_mapAssign_other _ _ _ _ hj]
  refine ⟨h1 s id h, fun h2 => h1 _ id h2, ?_, fun j hj => h2 s id j h hj, ?_, ?_, rfl⟩
  · intro j h3 hj
    rw [h2 _ j id h3 (fun e => hj e.symm)]
    exact h1 s id h
  · intro hn
    simp [GetHandler, hn]
  · intro j hj hn
    rw [h2 s id j h hj]
    simp [GetHandler, hn]

/-- C20 as stated fails: thread `1` is alive and has a block, which is empty;
after `Scrape(0, 9)` its `Get(0)` returns null, not `9`. -/
theorem Scrape_Get_counterexample :
    tls_ (⟨1, [], [], [⟨1, []⟩], []⟩ : StaticMeta) 1 = some ⟨1, []⟩ ∧
    (Get (Scrape ⟨1, [], [], [⟨1, []⟩], []⟩ 0 [] 9).1 1 0).1 = 0 ∧ (0 : Nat) ≠ 9 := by
  decide

/-- C20 (amended): after `Scrape(id, r)`, `Get(id)` from a thread whose block
covers `id` returns `r`, and `Get(id)` from a thread whose block is shorter, or
that has no block, returns null. -/
theorem Scrape_Get (s : StaticMeta) (id r t : Nat) (ptrs : List Nat) :
    (id < (entriesOf s t).length → (Get (Scrape s id ptrs r).1 t id).1 = r) ∧
    (¬ id < (entriesOf s t).length → (Get (Scrape s id ptrs r).1 t id).1 = 0) := by
  constructor
  · intro hc
    rw [Get_after_Scrape, if_pos hc]
  · intro hc
    rw [Get_after_Scrape, if_neg hc]

/-- C15: in every reachable state, `OnThreadExit` on a linked block invokes, for
each index `i` of the block in order, the handler registered for slot `i` once
with the entry's value when the entry and the handler are both non-null, and
makes no other call; the block, and only it, is removed from the list; this is
what the termination of the owning thread runs. -/
theorem teardown_unref (cap : Nat) (x : Sys) (d : ThreadData) (hr : Reach cap x)
    (hd : d ∈ x.reg.head_) :
    (OnThreadExit x.reg d).unref_calls =
      x.reg.unref_calls ++ (List.range d.entries.length).filterMap (fun i =>
        if d.entries.getD i 0 ≠ 0 ∧ GetHandler x.reg i ≠ 0
        then some (GetHandler x.reg i, d.entries.getD i 0) else none) ∧
    (OnThreadExit x.reg d).head_ = x.reg.head_.erase d ∧
    d ∉ (OnThreadExit x.reg d).head_ ∧
    threadExit x.reg d.owner = OnThreadExit x.reg d ∧
    (OnThreadExit x.reg d).handler_map_ = x.reg.handler_map_ := by
  obtain ⟨hw, hs⟩ := Reach_wf cap x hr
  have hlen : 0 + d.entries.length ≤ U32 := by
    have := hs d hd
    omega
  have hhead : (OnThreadExit x.reg d).head_ = x.reg.head_.erase d := by
    simp only [OnThreadExit, RemoveThreadData]
    exact unlink_eq_erase _ d hw hd
  refine ⟨?_, hhead, ?_, ?_, rfl⟩
  · simp only [OnThreadExit]
    rw [exitLoop_eq _ _ 0 hlen]
    simp only [Nat.zero_add]
    rfl
  · rw [hhead]
    intro hm
    exact ((List.Nodup.of_map _ hw).mem_erase_iff.1 hm).1 rfl
  · unfold threadExit
    rw [tls_of_mem x.reg d hw hd]

/-- Witness for C15: thread `2` of three exits; slot `0` has handler `9`. -/
theorem teardown_unref_witness :
    (OnThreadExit threeThreads ⟨2, [12]⟩).unref_calls = [] ++ [(9, 12)] ∧
    (OnThreadExit threeThreads ⟨2, [12]⟩).head_ = [⟨1, [11]⟩, ⟨3, [13]⟩] :=
  ⟨(teardown_unref 1 ⟨threeThreads, [0]⟩ ⟨2, [12]⟩ (Reach_threeThreads 1 (by decide))
      (by decide)).1,
   (teardown_unref 1 ⟨threeThreads, [0]⟩ ⟨2, [12]⟩ (Reach_threeThreads 1 (by decide))
      (by decide)).2.1⟩

/-- C19 as stated fails: a handle with handler `9` is constructed and stays
alive, `2^32 - 1` more handles are constructed, and the counter has wrapped;
the next handle, constructed without handler, is given identifier `0` and the
handler `9` is registered for it. -/
theorem handler_binding_counterexample :
    Reach 4294967296 (createAfter oneHandler 4294967295) ∧
    (ThreadLocalPtr_ctor (createAfter oneHandler 4294967295).reg 0).1 = 0 ∧
    GetHandler (ThreadLocalPtr_ctor (createAfter oneHandler 4294967295).reg 0).2 0 = 9 := by
  have hreg : (createAfter oneHandler 4294967295).reg = ⟨0, [], [(0, 9)], [], []⟩ := by
    rw [createAfter_oneHandler_reg]
    rfl
  refine ⟨?_, ?_, ?_⟩
  · apply Reach_createAfter
    · exact Reach.create ⟨StaticMeta.fresh, []⟩ 9 Reach.init (by decide)
    · decide
  · rw [hreg]
    decide
  · rw [hreg]
    decide

/-- C19 (amended): in every state reachable while at most `2^32 - 1` handles are
alive at once, constructing a handle with handler `h` leaves `GetHandler(id) = h`
for the identifier it allocated, and constructing one without handler leaves
`GetHandler(id)` null, also when the identifier is recycled from a destroyed
handle that had a handler. -/
theorem handler_binding (x : Sys) (handler : Nat) (h : Reach (U32 - 1) x) :
    GetHandler (ThreadLocalPtr_ctor x.reg handler).2 (ThreadLocalPtr_ctor x.reg handler).1
      = handler ∧
    (∀ id ∈ x.reg.free_instance_ids_, GetHandler x.reg id = 0) := by
  have hu := Reach_unbound (U32 - 1) (by decide) x h
  refine ⟨?_, fun id hid => hu id (Or.inl hid)⟩
  have hg : (GetId x.reg).2.handler_map_ = x.reg.handler_map_ := by
    unfold GetId
    split <;> rfl
  unfold ThreadLocalPtr_ctor
  simp only
  split
  · simp [GetHandler, SetHandler, mapFind_mapAssign_self]
  · rename_i hz
    have hz2 : handler = 0 := by
      by_contra hne
      exact hz hne
    rw [GetHandler_congr x.reg _ hg, hz2]
    exact hu _ (GetId_fst_unissued x.reg)

/-- Witness for C19: the handle with handler `9` is destroyed after three
threads wrote through it; the next handle, without handler, recycles `0`. -/
theorem handler_binding_witness :
    (ThreadLocalPtr_ctor (ThreadLocalPtr_dtor threeThreads 0) 0).1 = 0 ∧
    GetHandler (ThreadLocalPtr_ctor (ThreadLocalPtr_dtor threeThreads 0) 0).2
      (ThreadLocalPtr_ctor (ThreadLocalPtr_dtor threeThreads 0) 0).1 = 0 :=
  ⟨by decide,
   (handler_binding ⟨ThreadLocalPtr_dtor threeThreads 0, [0].erase 0⟩ 0
      (Reach.destroy ⟨threeThreads, [0]⟩ 0 (Reach_threeThreads (U32 - 1) (by decide))
        (by decide))).1⟩

/-- C14 as stated fails in two ways. Thread `5` never wrote the slot `0`, which
is alive, yet after `Scrape(0, 9)` its `Get(0)` returns `9`. And once `2^32`
handles are alive the counter has wrapped: the next handle is given identifier
`0`, and thread `0`, which has not written since that handle was constructed,
reads the value `7` it wrote through the older handle. -/
theorem unwritten_counterexample :
    (Run 2 scrapedSys scrapedHist ∧ 0 ∈ scrapedSys.live ∧
      (5, 0) ∉ scrapedHist.written ∧ (Get scrapedSys.reg 5 0).1 = 9) ∧
    (Run 4294967297 rewrappedSys ⟨[], [], [(0, 7)], [], []⟩ ∧ 0 ∈ rewrappedSys.live ∧
      (Get rewrappedSys.reg 0 0).1 = 7) := by
  refine ⟨⟨Run_scrapedSys, by decide, by decide, by decide⟩,
    ⟨Run_rewrappedSys, List.mem_cons_self _ _, by decide⟩⟩

/-- C14 (amended): in every execution with at most `2^32 - 1` handles alive at
once, for every thread `t` and every live handle with identifier `id` such that
`t` has called no `Reset`, `Swap` or `CompareAndSwap` on it since it was
constructed and no `Scrape` with a non-null replacement was made on it since
then, `Get` of `t` on it returns null. -/
theorem unwritten_reads_null (x : Sys) (h : Hist) (t id : Nat) (hr : Run (U32 - 1) x h)
    (_hl : id ∈ x.live) (hw : (t, id) ∉ h.written) (hs : id ∉ h.scraped) :
    (Get x.reg t id).1 = 0 := by
  rw [Get_fst]
  by_contra hne
  obtain ⟨d, hd, ho, hv⟩ := entriesOf_nonzero x.reg t id hne
  rcases Run_Accounted (U32 - 1) (by decide) x h hr d hd id hv with h1 | h1
  · rw [ho] at h1
    exact hw h1
  · exact hs h1

/-- Witness for C14: thread `5` wrote the only live slot, thread `6` did not. -/
theorem unwritten_reads_null_witness :
    (Get (⟨1, [], [], [⟨5, [3]⟩], []⟩ : StaticMeta) 6 0).1 = 0 :=
  unwritten_reads_null ⟨⟨1, [], [], [⟨5, [3]⟩], []⟩, [0]⟩ ⟨[(5, 0)], [], [(0, 3)], [], []⟩ 6 0
    (Run.reset ⟨⟨1, [], [], [], []⟩, [0]⟩ Hist.empty 5 0 3 _
      (Run.create ⟨StaticMeta.fresh, []⟩ Hist.empty 0 Run.init (by decide))
      (by decide) (by decide : Reset _ 5 0 3 = some ⟨1, [], [], [⟨5, [3]⟩], []⟩))
    (by decide) (by decide) (by decide)

/-- C16: in every execution, every non-null value stored into an entry is
accounted for exactly once: it is still held in a block, or it was displaced
once (by `Reset`, `Swap`, `CompareAndSwap` or `Scrape`), or it was discarded
once (by `ReclaimId` or thread exit); so nothing is taken out of an entry
twice. After `Scrape(id, null)` and after `ReclaimId(id)` every entry at `id` is
null, a further `Scrape` of the slot returns nothing and a further `ReclaimId`
calls no handler; after the exit of a thread no block of that thread is in the
list that `Scrape` and `ReclaimId` walk. -/
theorem no_double_delivery (cap : Nat) (x : Sys) (h : Hist) (hr : Run cap x h) :
    h.stored.Perm (h.displaced ++ h.discarded.map Prod.snd ++ heldPairs x.reg) ∧
    (∀ id ptrs, (∀ d ∈ (Scrape x.reg id ptrs 0).1.head_, d.entries.getD id 0 = 0) ∧
      (∀ ptrs2 r, (Scrape (Scrape x.reg id ptrs 0).1 id ptrs2 r).2 = ptrs2) ∧
      (ReclaimId (Scrape x.reg id ptrs 0).1 id).unref_calls = x.reg.unref_calls) ∧
    (∀ id, (∀ d ∈ (ReclaimId x.reg id).head_, d.entries.getD id 0 = 0) ∧
      (∀ ptrs2 r, (Scrape (ReclaimId x.reg id) id ptrs2 r).2 = ptrs2) ∧
      (ReclaimId (ReclaimId x.reg id) id).unref_calls = (ReclaimId x.reg id).unref_calls) ∧
    (∀ t, ∀ d ∈ (threadExit x.reg t).head_, d.owner ≠ t) := by
  refine ⟨?_, ?_, ?_, ?_⟩
  · apply perm_of_ms
    rw [ms_append, ms_append]
    exact Run_conserved cap x h hr
  · intro id ptrs
    have hn := NullAt_Scrape_null x.reg id ptrs
    exact ⟨hn, fun ptrs2 r => Scrape_of_NullAt _ id r ptrs2 hn, ReclaimId_of_NullAt _ id hn⟩
  · intro id
    have hn := NullAt_ReclaimId x.reg id
    exact ⟨hn, fun ptrs2 r => Scrape_of_NullAt _ id r ptrs2 hn, ReclaimId_of_NullAt _ id hn⟩
  · intro t d hd
    rw [head_threadExit] at hd
    exact (mem_unlink _ t d (Reach_wf cap x (Run_Reach cap x h hr)).1 hd).2

/-- Witness for C16: the execution in which thread `1` wrote `11`, then `12`,
exited, and the handle was destroyed. -/
theorem no_double_delivery_witness :
    overwrittenHist.stored.Perm
      (overwrittenHist.displaced ++ overwrittenHist.discarded.map Prod.snd ++
        heldPairs overwrittenSys.reg) :=
  (no_double_delivery 1 overwrittenSys overwrittenHist Run_overwrittenSys).1

/-- C17 as stated fails in two ways. A handle with handler `9` is constructed,
thread `1` stores `11` and then `12` in its entry and exits, and the handle is
destroyed: the value `11` was stored, every thread has exited, yet the handler
was invoked on `12` only. And once `2^32` handles are alive the counter has
wrapped: the slot `0` was created with handler `9` and thread `1` stored `7` in
it; the next handle, constructed with handler `8`, is given identifier `0` and
replaces the handler, so that at the exit of thread `1` the value `7` is passed
to `8` and not to `9`. -/
theorem exactly_once_counterexample :
    (Run 1 overwrittenSys overwrittenHist ∧
      overwrittenSys.reg.head_ = [] ∧ overwrittenSys.live = [] ∧
      (0, 11) ∈ overwrittenHist.stored ∧
      overwrittenSys.reg.unref_calls = [(9, 12)]) ∧
    (Reach 4294967296 (createAfter oneHandler 4294967295) ∧
      0 ∈ (createAfter oneHandler 4294967295).live ∧
      GetHandler (createAfter oneHandler 4294967295).reg 0 = 9 ∧
      Reset (createAfter oneHandler 4294967295).reg 1 0 7 =
        some ⟨0, [], [(0, 9)], [⟨1, [7]⟩], []⟩ ∧
      ThreadLocalPtr_ctor ⟨0, [], [(0, 9)], [⟨1, [7]⟩], []⟩ 8 = (0, reboundSys.reg) ∧
      Reach 4294967297 reboundSys ∧
      (threadExit reboundSys.reg 1).unref_calls = [(8, 7)] ∧
      (threadExit reboundSys.reg 1).head_ = []) := by
  have hreg : (createAfter oneHandler 4294967295).reg = ⟨0, [], [(0, 9)], [], []⟩ := by
    rw [createAfter_oneHandler_reg]
    rfl
  refine ⟨⟨Run_overwrittenSys, rfl, rfl, by decide, rfl⟩, ?_, ?_, ?_, ?_, ?_,
    Reach_reboundSys, ?_, ?_⟩
  · apply Reach_createAfter
    · exact Reach.create ⟨StaticMeta.fresh, []⟩ 9 Reach.init (by decide)
    · decide
  · exact mem_createAfter oneHandler 4294967295 0 (by decide)
  · rw [hreg]
    decide
  · rw [hreg]
    decide
  · decide
  · decide
  · decide

/-- C17 (amended): in every execution with at most `2^32 - 1` handles alive at
once, the handler registered for a slot is at every moment the handler `H` its
live handle was constructed with (constructing or destroying another handle and
the operations of the threads leave it so); the handler invocations made are, in
order, exactly one invocation of that `H`, when it is not null, for each
non-null value that `ReclaimId` or thread exit dropped from an entry, whichever
of the two paths dropped it; `Reset`, `Swap`, `CompareAndSwap` and `Scrape`
invoke no handler on the value they displace. Counting each store on its own (a
value stored twice counts twice): the stores are the displacements, the drops
and the values still held, and once every thread has exited, for each slot and
value the number of stores equals the number of displacements plus the number
of drops, so that `H` was invoked exactly once for each store that no later
`Reset`, `Swap`, `CompareAndSwap` or `Scrape` displaced. -/
theorem exactly_once_unref (x : Sys) (h : Hist) (g : Due) (hr : Exec (U32 - 1) x h g) :
    g.made.map Prod.fst = x.live ∧
    (∀ id, GetHandler x.reg id = createdWith g.made id) ∧
    x.reg.unref_calls =
      (g.owed.filter (fun e => decide (e.1 ≠ 0))).map (fun e => (e.1, e.2.2)) ∧
    h.stored.Perm (h.displaced ++ g.owed.map Prod.snd ++ heldPairs x.reg) ∧
    (x.reg.head_ = [] → ∀ p,
      h.stored.count p = h.displaced.count p + (g.owed.map Prod.snd).count p) ∧
    (∀ t id v r, Reset x.reg t id v = some r → r.unref_calls = x.reg.unref_calls) ∧
    (∀ t id v old r, Swap x.reg t id v = some (old, r) →
      r.unref_calls = x.reg.unref_calls) ∧
    (∀ t id v e b e1 r, CompareAndSwap x.reg t id v e = some (b, e1, r) →
      r.unref_calls = x.reg.unref_calls) ∧
    (∀ id ptrs v, (Scrape x.reg id ptrs v).1.unref_calls = x.reg.unref_calls) := by
  obtain ⟨i1, i2, i3⟩ := Exec_bound (U32 - 1) (by decide) x h g hr
  have hrun := Exec_Run (U32 - 1) x h g hr
  have hc := Run_conserved (U32 - 1) x h hrun
  have hcalls := Run_calls (U32 - 1) x h hrun
  rw [i3] at hc hcalls
  have hperm : h.stored.Perm (h.displaced ++ g.owed.map Prod.snd ++ heldPairs x.reg) := by
    apply perm_of_ms
    rw [ms_append, ms_append]
    exact hc
  refine ⟨i1, i2, hcalls, hperm, ?_, ?_, ?_, ?_, fun _ _ _ => rfl⟩
  · intro hh p
    have he : heldPairs x.reg = [] := by
      unfold heldPairs
      rw [hh]
      rfl
    rw [he, List.append_nil] at hperm
    show List.countP (fun q => q == p) h.stored =
      List.countP (fun q => q == p) h.displaced +
        List.countP (fun q => q == p) (g.owed.map Prod.snd)
    rw [hperm.countP_eq, List.countP_append]
  · intro t id v r hres
    rw [Reset_eq _ _ _ _ _ hres]
    exact uc_stored x.reg t id _
  · intro t id v old r hres
    rw [Swap_eq _ _ _ _ _ _ hres]
    exact uc_stored x.reg t id _
  · intro t id v e b e1 r hres
    rcases CompareAndSwap_eq _ _ _ _ _ _ _ _ hres with hh | hh
    · rw [hh]
      exact uc_stored x.reg t id _
    · rw [hh]
      exact uc_growFor x.reg t id

/-- Witness for C17: handles `0` and `1` were constructed with handlers `9` and
`8`, thread `1` stored `11` and `21` through them, and handle `1` was destroyed:
`21` went to `8`, once, and the slot `0` still has the handler `9`. -/
theorem exactly_once_unref_witness :
    GetHandler keptSys.reg 0 = createdWith keptDue.made 0 ∧
    createdWith keptDue.made 0 = 9 ∧
    keptSys.reg.unref_calls =
      (keptDue.owed.filter (fun e => decide (e.1 ≠ 0))).map (fun e => (e.1, e.2.2)) ∧
    keptSys.reg.unref_calls = [(8, 21)] ∧
    keptHist.stored.Perm
      (keptHist.displaced ++ keptDue.owed.map Prod.snd ++ heldPairs keptSys.reg) :=
  ⟨(exactly_once_unref keptSys keptHist keptDue (Exec_keptSys (U32 - 1) (by decide))).2.1 0,
   by decide,
   (exactly_once_unref keptSys keptHist keptDue (Exec_keptSys (U32 - 1) (by decide))).2.2.1,
   rfl,
   (exactly_once_unref keptSys keptHist keptDue
      (Exec_keptSys (U32 - 1) (by decide))).2.2.2.1⟩

/-- C21 as stated fails: handler `9` is registered for slot `0` and three
threads hold non-null values there; `Scrape(0, 5)` replaces all three and
returns them, and no handler is invoked. -/
theorem Scrape_unref_counterexample :
    GetHandler threeThreads 0 = 9 ∧
    (Scrape threeThreads 0 [] 5).2 = [11, 12, 13] ∧
    (Scrape threeThreads 0 [] 5).1.head_ = [⟨1, [5]⟩, ⟨2, [5]⟩, ⟨3, [5]⟩] ∧
    (Scrape threeThreads 0 [] 5).1.unref_calls = [] := by
  decide

/-- C21 (amended): `Scrape(id, replacement)` invokes no handler, whatever is
registered for `id`; every non-null value it replaces is handed to the caller
in the output instead, and the handler registry is left as it was. -/
theorem Scrape_no_unref (s : StaticMeta) (id : Nat) (ptrs : List Nat) (replacement : Nat) :
    (Scrape s id ptrs replacement).1.unref_calls = s.unref_calls ∧
    (∀ j, GetHandler (Scrape s id ptrs replacement).1 j = GetHandler s j) ∧
    (∀ d ∈ s.head_, d.entries.getD id 0 ≠ 0 →
      d.entries.getD id 0 ∈ (Scrape s id ptrs replacement).2) := by
  refine ⟨rfl, fun j => rfl, ?_⟩
  intro d hd hv
  simp only [Scrape, scrapeLoop_ptrs, List.mem_append]
  right
  unfold heldAt
  rw [List.mem_filter]
  exact ⟨List.mem_map.2 ⟨d, hd, rfl⟩, by simpa using hv⟩

/-- C22: `Get(id)` returns the entry at `id` when the calling thread's block
covers `id` and null otherwise; the entry vector of the calling thread (empty
when it had no block) is the same afterwards, `tls_` of every other thread is
the same, and so are the counter, the free list, the handler map and the
handler calls; the list of blocks is unchanged, except that a thread without a
block gets an empty one appended. -/
theorem Get_frame (s : StaticMeta) (t id : Nat) :
    (id < (entriesOf s t).length → (entriesOf s t)[id]? = some (Get s t id).1) ∧
    (¬ id < (entriesOf s t).length → (Get s t id).1 = 0) ∧
    entriesOf (Get s t id).2 t = entriesOf s t ∧
    (∀ u, u ≠ t → tls_ (Get s t id).2 u = tls_ s u) ∧
    (tls_ s t ≠ none → (Get s t id).2 = s) ∧
    (tls_ s t = none → (Get s t id).2.head_ = s.head_ ++ [⟨t, []⟩]) ∧
    (Get s t id).2.next_instance_id_ = s.next_instance_id_ ∧
    (Get s t id).2.free_instance_ids_ = s.free_instance_ids_ ∧
    (Get s t id).2.handler_map_ = s.handler_map_ ∧
    (Get s t id).2.unref_calls = s.unref_calls := by
  rw [Get_snd]
  refine ⟨?_, ?_, entriesOf_GetThreadLocal_self s t,
    fun u hu => tls_GetThreadLocal_other s t u hu, GetThreadLocal_of_tls s t, ?_,
    (ids_GetThreadLocal s t).1, (ids_GetThreadLocal s t).2, hm_GetThreadLocal s t,
    uc_GetThreadLocal s t⟩
  · intro hc
    rw [Get_fst]
    simp [List.getD_eq_getElem?_getD, hc]
  · intro hc
    rw [Get_fst]
    simp [List.getD_eq_getElem?_getD, List.getElem?_eq_none (Nat.le_of_not_lt hc)]
  · intro hn
    unfold GetThreadLocal
    rw [hn]
    rfl

/-- C26: when `CompareAndSwap(id, Y, expected)` returns false, the value it left
in `expected` is the entry's current value, and the same call repeated at once
with that value returns true and leaves the entry equal to `Y`. -/
theorem CompareAndSwap_retry (s : StaticMeta) (t id Y X e1 : Nat) (r : StaticMeta)
    (h : CompareAndSwap s t id Y X = some (false, e1, r)) :
    e1 = (Get r t id).1 ∧
    ∃ r2, CompareAndSwap r t id Y e1 = some (true, e1, r2) ∧ (Get r2 t id).1 = Y := by
  obtain ⟨hc, hcase⟩ := facts_of_CompareAndSwap _ _ _ _ _ _ _ _ h
  rcases hcase with ⟨hb, _⟩ | ⟨_, hr⟩
  · cases hb
  · have he1 : e1 = (entriesOf (growFor s t id) t).getD id 0 := by
      unfold CompareAndSwap at h
      simp only [hc, if_true] at h
      split at h
      · cases h
      · simp only [Option.some.injEq, Prod.mk.injEq, true_and] at h
        exact h.1.symm
    subst hr
    have hg : growFor (growFor s t id) t id = growFor s t id :=
      growFor_of_covers _ t id (tls_growFor_ne_none s t id) hc
    refine ⟨by rw [Get_fst]; exact he1, ?_⟩
    refine ⟨withEntries (growFor s t id) t ((entriesOf (growFor s t id) t).set id Y), ?_, ?_⟩
    · unfold CompareAndSwap
      simp only [hg, hc, if_true]
      rw [if_pos he1.symm]
    · exact Get_stored s t id Y hc

/-- Witness for C26: thread `2` holds `12`; comparing with `3` fails and hands
back `12`, comparing with `12` then succeeds. -/
theorem CompareAndSwap_retry_witness :
    (12 : Nat) = (Get threeThreads 2 0).1 ∧
    ∃ r2, CompareAndSwap threeThreads 2 0 5 12 = some (true, 12, r2) ∧ (Get r2 2 0).1 = 5 :=
  CompareAndSwap_retry threeThreads 2 0 5 3 12 threeThreads (by decide)

/-- C27: `PeekId` returns the identifier the next `GetId` would return: the last
element of the free list when it is non-empty, else the counter; being a
function of the state alone it changes nothing; `PeekIds` returns the free
list in order. -/
theorem PeekId_spec (s : StaticMeta) :
    PeekId s = (GetId s).1 ∧
    (∀ l a, s.free_instance_ids_ = l ++ [a] → PeekId s = a) ∧
    (s.free_instance_ids_ = [] → PeekId s = s.next_instance_id_) ∧
    PeekIds s = s.free_instance_ids_ := by
  refine ⟨?_, ?_, ?_, rfl⟩
  · unfold PeekId GetId
    cases s.free_instance_ids_.getLast? <;> rfl
  · intro l a hf
    unfold PeekId
    rw [hf]
    simp
  · intro hf
    unfold PeekId
    rw [hf]
    rfl

/-- C23 as stated fails at the identifier `4294967295`: thread `1` has a block of
length `1`; `id + 1` is `0` in `uint32_t`, so the block is resized to length `0`,
not to `max(1, 2^32)`, the entry that existed is gone, and the access that
follows indexes the vector outside its bounds. -/
theorem growth_counterexample :
    (entriesOf threeThreads 1).length = 1 ∧
    (entriesOf (growFor threeThreads 1 4294967295) 1).length = 0 ∧
    Reset threeThreads 1 4294967295 7 = none ∧
    Swap threeThreads 1 4294967295 7 = none ∧
    CompareAndSwap threeThreads 1 4294967295 7 0 = none := by
  decide

/-- C23 (amended): for every block of length `n` and every identifier `id` below
`2^32 - 1`, `Reset`, `Swap` and `CompareAndSwap` at `id` return, and afterwards
the block's length is `max(n, id + 1)`, every entry at an index other than `id`
that existed before has its value, and every new entry other than `id` is
null. -/
theorem growth_postcondition (s : StaticMeta) (t id v : Nat) (hid : id + 1 < U32) :
    (∃ r, Reset s t id v = some r ∧ GrowthPost s r t id) ∧
    (∃ old r, Swap s t id v = some (old, r) ∧ GrowthPost s r t id) ∧
    (∀ e, ∃ b e1 r, CompareAndSwap s t id v e = some (b, e1, r) ∧ GrowthPost s r t id) := by
  have hc := covers_growFor s t id hid
  refine ⟨?_, ?_, ?_⟩
  · refine ⟨_, ?_, GrowthPost_stored s t id v hid⟩
    simp only [Reset, hc, if_true]
  · refine ⟨(entriesOf (growFor s t id) t).getD id 0, _, ?_, GrowthPost_stored s t id v hid⟩
    simp only [Swap, hc, if_true]
  · intro e
    unfold CompareAndSwap
    simp only [hc, if_true]
    split
    · exact ⟨_, _, _, rfl, GrowthPost_stored s t id v hid⟩
    · exact ⟨_, _, _, rfl, GrowthPost_growFor s t id hid⟩

/-- Witness for C23: thread `2`, whose block has length `1`, writes slot `3`. -/
theorem growth_postcondition_witness :
    ∃ r, Reset threeThreads 2 3 7 = some r ∧ GrowthPost threeThreads r 2 3 :=
  (growth_postcondition threeThreads 2 3 7 (by decide)).1

/-- C24 as stated fails at the identifier `4294967295`: thread `1` has a block of
length `1`; `Reset`, `Swap` and `CompareAndSwap` compute `id + 1` as `0` in
`uint32_t` and resize the block to length `0` before they index it outside its
bounds. -/
theorem shrink_counterexample :
    (4294967295 + 1) % U32 = 0 ∧
    entriesOf threeThreads 1 = [11] ∧
    entriesOf (growFor threeThreads 1 4294967295) 1 = [] ∧
    Reset threeThreads 1 4294967295 7 = none ∧
    Swap threeThreads 1 4294967295 7 = none ∧
    CompareAndSwap threeThreads 1 4294967295 7 11 = none := by
  decide

/-- C24 (amended): after `Get`, `Scrape`, `GetId`, `ReclaimId` and `SetHandler`
with any identifier, and after `Reset`, `Swap` and `CompareAndSwap` with an
identifier below `2^32 - 1`, every block that was in the list is still there, in
the same order, and is at least as long as before. -/
theorem never_shrinks (s : StaticMeta) (t id v e handler : Nat) (ptrs : List Nat) :
    NoShrink s.head_ (Get s t id).2.head_ ∧
    NoShrink s.head_ (Scrape s id ptrs v).1.head_ ∧
    NoShrink s.head_ (GetId s).2.head_ ∧
    NoShrink s.head_ (ReclaimId s id).head_ ∧
    NoShrink s.head_ (SetHandler s id handler).head_ ∧
    (id + 1 < U32 →
      (∃ r, Reset s t id v = some r ∧ NoShrink s.head_ r.head_) ∧
      (∃ old r, Swap s t id v = some (old, r) ∧ NoShrink s.head_ r.head_) ∧
      (∃ b e1 r, CompareAndSwap s t id v e = some (b, e1, r) ∧ NoShrink s.head_ r.head_)) := by
  refine ⟨?_, ?_, ?_, ?_, NoShrink_of_eq _ _ rfl, ?_⟩
  · rw [Get_snd]
    exact NoShrink_GetThreadLocal s t
  · have hb : (Scrape s id ptrs v).1.head_ = s.head_.map (exchanged id v) := by
      simp [Scrape, scrapeLoop_blocks]
    rw [hb]
    exact NoShrink_map_exchanged id v _
  · apply NoShrink_of_eq
    unfold GetId
    split <;> rfl
  · have hb : (ReclaimId s id).head_ = s.head_.map (exchanged id 0) := by
      simp [ReclaimId, reclaimLoop_blocks]
    rw [hb]
    exact NoShrink_map_exchanged id 0 _
  · intro hid
    have hc := covers_growFor s t id hid
    refine ⟨?_, ?_, ?_⟩
    · refine ⟨_, ?_, NoShrink_write s t id v hid⟩
      simp only [Reset, hc, if_true]
    · refine ⟨(entriesOf (growFor s t id) t).getD id 0, _, ?_, NoShrink_write s t id v hid⟩
      simp only [Swap, hc, if_true]
    · unfold CompareAndSwap
      simp only [hc, if_true]
      split
      · exact ⟨_, _, _, rfl, NoShrink_write s t id v hid⟩
      · exact ⟨_, _, _, rfl, NoShrink_growFor s t id hid⟩

/-- Witness for C24: thread `7`, which has no block, writes slot `2`. -/
theorem never_shrinks_witness :
    ∃ r, Reset threeThreads 7 2 5 = some r ∧ NoShrink threeThreads.head_ r.head_ :=
  ((never_shrinks threeThreads 7 2 5 0 0 []).2.2.2.2.2 (by decide)).1

/-- C25: in every reachable state the owners of the blocks, in list order, are
exactly the live threads that have called `Get`, `Reset`, `Swap` or
`CompareAndSwap` at least once, each once; `GetThreadLocal` appends an empty
block when the calling thread has none and otherwise changes nothing, a second
call changes nothing and resolves the same block; thread exit removes the
block of that thread and leaves the other blocks and their order as they were. -/
theorem one_block_per_thread (cap : Nat) (x : Sys) (T : List Nat) (h : Lives cap x T) :
    x.reg.head_.map ThreadData.owner = T ∧ T.Nodup ∧
    (∀ t, (x.reg.head_.filter (fun d => decide (d.owner = t))).length =
      if t ∈ T then 1 else 0) ∧
    (∀ t, (t ∉ T → (GetThreadLocal x.reg t).head_ = x.reg.head_ ++ [⟨t, []⟩]) ∧
      (t ∈ T → GetThreadLocal x.reg t = x.reg) ∧
      GetThreadLocal (GetThreadLocal x.reg t) t = GetThreadLocal x.reg t ∧
      tls_ (GetThreadLocal (GetThreadLocal x.reg t) t) t = tls_ (GetThreadLocal x.reg t) t) ∧
    (∀ t, (threadExit x.reg t).head_ = x.reg.head_.filter (fun d => decide (d.owner ≠ t))) := by
  have ho := Lives_owners cap x T h
  have hw := (Reach_wf cap x (Lives_Reach cap x T h)).1
  have hnd : T.Nodup := by
    rw [← ho]
    exact hw
  have hmem : ∀ t, t ∈ T ↔ tls_ x.reg t ≠ none := by
    intro t
    rw [← ho]
    exact (find_isSome_iff_mem_owners _ t).symm
  have hidem : ∀ t, GetThreadLocal (GetThreadLocal x.reg t) t = GetThreadLocal x.reg t :=
    fun t => GetThreadLocal_of_tls _ t (tls_GetThreadLocal_ne_none x.reg t)
  refine ⟨ho, hnd, ?_, ?_, ?_⟩
  · intro t
    have hc : (x.reg.head_.filter (fun d => decide (d.owner = t))).length =
        (x.reg.head_.map ThreadData.owner).count t := by
      rw [List.count, List.countP_map, List.countP_eq_length_filter]
      congr 2
    rw [hc, ho, List.count_eq_of_nodup hnd]
  · intro t
    refine ⟨?_, ?_, hidem t, by rw [hidem t]⟩
    · intro hn
      have : tls_ x.reg t = none := by
        by_contra hne
        exact hn ((hmem t).2 hne)
      unfold GetThreadLocal
      rw [this]
      rfl
    · intro hin
      exact GetThreadLocal_of_tls _ t ((hmem t).1 hin)
  · intro t
    rw [head_threadExit]
    exact unlink_eq_filter _ t hw

/-- Witness for C25: three threads have written; the blocks are theirs, in order. -/
theorem one_block_per_thread_witness :
    threeThreads.head_.map ThreadData.owner = [1, 2, 3] ∧
    (threadExit threeThreads 2).head_ =
      threeThreads.head_.filter (fun d => decide (d.owner ≠ 2)) :=
  ⟨(one_block_per_thread 1 ⟨threeThreads, [0]⟩ [1, 2, 3] Lives_threeThreads).1,
   (one_block_per_thread 1 ⟨threeThreads, [0]⟩ [1, 2, 3] Lives_threeThreads).2.2.2.2 2⟩

end ThreadLocal
